import Mathlib

/-!
# Shallow embedding of `big_integer` (big_integer.h / big_integer.cpp)

A `big_integer` is a sign-extension flag together with a little-endian
sequence of 32-bit limbs holding the explicit part of an infinite-width
two's-complement number.  Limbs are modelled as natural numbers; every
store into a `uint32_t` is modelled by an explicit `% BASE`, every
`uint64_t` intermediate that could exceed 64 bits by an explicit
`% 18446744073709551616`.  Conversions of loop indices and shift counts
between `size_t`, `int` and `int64_t` are modelled by `to_size_t` and
`to_int`.  In-place mutators become functions returning the new value; C++
exceptions become `Except error`.
-/

/-- Limb radix: `static constexpr uint64_t BASE = (1LL << 32)`. -/
def BASE : Nat := 4294967296

/-- Outcomes other than a value.  `invalid_argument` and `length_error` are the
C++ exceptions `std::invalid_argument` and `std::length_error`; `out_of_fuel`
is not a C++ behaviour, it marks the bound of the model on the
`while (*this < 0)` loop of `cool_division` being used up. -/
inductive error where
  | invalid_argument
  | length_error
  | out_of_fuel
deriving DecidableEq

/-- The class `big_integer`: `std::vector<uint32_t> _digits; bool _is_negative`. -/
structure big_integer where
  _digits : List Nat
  _is_negative : Bool
deriving DecidableEq

/-- Bitwise complement of a `uint32_t`. -/
def not32 (d : Nat) : Nat := 4294967295 - d

/-- Conversion of a mathematical integer to `size_t` (64 bit, modular). -/
def to_size_t (z : Int) : Nat := (z % 18446744073709551616).toNat

/-- Conversion of a `size_t` to `int` (32 bit, two's-complement wrap). -/
def to_int (n : Nat) : Int :=
  if n % 4294967296 < 2147483648 then ((n % 4294967296 : Nat) : Int)
  else ((n % 4294967296 : Nat) : Int) - 4294967296

/-- The bound `std::vector<uint32_t>::max_size()` of a 64-bit implementation
(`PTRDIFF_MAX / sizeof(uint32_t)`). -/
def max_size : Nat := 2305843009213693951

namespace big_integer

/-- The function `neutral_element`: the limb value of the sign extension. -/
def neutral_element (a : big_integer) : Nat :=
  if a._is_negative then 4294967295 else 0

/-- The function `get_or_default`. -/
def get_or_default (a : big_integer) (index default_value : Nat) : Nat :=
  if index ≥ a._digits.length then default_value else a._digits.getD index default_value

/-- The loop of `clear_zeros` on the limb vector: pop the back while it equals
the neutral element. -/
def pop_neutral (ne : Nat) (ds : List Nat) : List Nat :=
  (ds.reverse.dropWhile (fun d => d == ne)).reverse

/-- The function `clear_zeros`. -/
def clear_zeros (a : big_integer) : big_integer :=
  { a with _digits := pop_neutral a.neutral_element a._digits }

/-- The function `check_bit`: top bit of the last limb, `false` when there is none. -/
def check_bit (a : big_integer) : Bool :=
  match a._digits.getLast? with
  | none => false
  | some d => (d &&& 2147483648) != 0

/-- The function `check_for_zero`. -/
def check_for_zero (a : big_integer) : Bool :=
  !a._is_negative && (a._digits.isEmpty || (a._digits.length == 1 && a._digits.getD 0 0 == 0))

/-- The function `make_zero`. -/
def make_zero : big_integer := ⟨[], false⟩

/-- The function `inplace_tilda`: complement every limb and flip the flag. -/
def inplace_tilda (a : big_integer) : big_integer :=
  ⟨a._digits.map not32, !a._is_negative⟩

/-- The carry loop of `small_add` over the (already extended) limbs: `digit` is
`x` at index 0 and `0` afterwards; `carry = add >> 32`. -/
def small_add_loop (plus : Bool) : List Nat → Nat → Nat → List Nat
  | [], _, _ => []
  | d :: ds, digit, carry =>
    (d + carry + (if plus then digit else not32 digit)) % BASE ::
      small_add_loop plus ds 0 ((d + carry + (if plus then digit else not32 digit)) / BASE)

/-- The function `small_add(plus, x)`: one guard limb, carry loop, sign from
`check_bit`, then `clear_zeros`. -/
def small_add (a : big_integer) (plus : Bool) (x : Nat) : big_integer :=
  let out := small_add_loop plus (a._digits ++ [a.neutral_element]) x (if plus then 0 else 1)
  clear_zeros ⟨out, check_bit ⟨out, a._is_negative⟩⟩

/-- The function `inplace_abs`. -/
def inplace_abs (a : big_integer) : big_integer :=
  if a._is_negative then small_add ⟨a._digits.map not32, !a._is_negative⟩ true 1 else a

/-- The function `inplace_minus`. -/
def inplace_minus (a : big_integer) : big_integer :=
  small_add (inplace_tilda a) true 1

end big_integer

/-- The `while (a != 0)` loop shared by the integer constructors: push
`a % BASE`, then `a >>= 32`.  The counter bounds the number of limbs (two for a
64-bit argument). -/
def push_limbs : Nat → Nat → List Nat
  | 0, _ => []
  | n + 1, a => if a = 0 then [] else a % BASE :: push_limbs n (a / BASE)

namespace big_integer

/-- The constructor `big_integer(long long a)`, for `-2^63 ≤ a < 2^63`. -/
def of_long_long (a : Int) : big_integer :=
  if a < 0 then
    if a = -1 then ⟨[], true⟩
    else if a = -9223372036854775808 then ⟨[0, 2147483648], true⟩
    else { inplace_minus ⟨push_limbs 2 (-a).toNat, true⟩ with _is_negative := true }
  else ⟨push_limbs 2 a.toNat, false⟩

/-- The constructor `big_integer(unsigned long long a)`, for `a < 2^64`. -/
def of_unsigned_long_long (a : Nat) : big_integer :=
  ⟨push_limbs 2 a, false⟩

/-- The constant `MINUS_ONE(-1)`. -/
def MINUS_ONE : big_integer := of_long_long (-1)

/-- The function `operator==`. -/
def operator_eq (a b : big_integer) : Bool :=
  a._is_negative == b._is_negative && a._digits == b._digits

/-- The limb scan of `operator<` from the last index down to 0, on the two
reversed limb vectors of equal length. -/
def lt_loop : List Nat → List Nat → Bool
  | x :: xs, y :: ys => if x ≠ y then decide (x < y) else lt_loop xs ys
  | _, _ => false

/-- The function `operator<`. -/
def operator_lt (a b : big_integer) : Bool :=
  if a._is_negative ≠ b._is_negative then a._is_negative
  else if a._digits.length ≠ b._digits.length then decide (a._digits.length < b._digits.length)
  else if a._digits.isEmpty && b._digits.isEmpty then false
  else lt_loop a._digits.reverse b._digits.reverse

/-- The function `operator>`. -/
def operator_gt (a b : big_integer) : Bool := operator_lt b a

/-- The function `operator<=`. -/
def operator_le (a b : big_integer) : Bool := !operator_gt a b

/-- The function `operator>=`. -/
def operator_ge (a b : big_integer) : Bool := !operator_lt a b

/-- The general carry loop of `subadd` over the limbs of `*this` (already
resized); `rs` is what is left of the limbs of `rhs`, read through
`get_or_default(i, rhs.neutral_element())`. -/
def subadd_loop (plus : Bool) (rne : Nat) : List Nat → List Nat → Nat → List Nat
  | [], _, _ => []
  | d :: ds, rs, carry =>
    (d + carry + (if plus then rs.headD rne else not32 (rs.headD rne))) % BASE ::
      subadd_loop plus rne ds rs.tail
        ((d + carry + (if plus then rs.headD rne else not32 (rs.headD rne))) / BASE)

/-- The function `subadd(plus, rhs)`. -/
def subadd (a : big_integer) (plus : Bool) (rhs : big_integer) : big_integer :=
  if rhs._digits.length = 1 ∧ rhs._is_negative = false then
    small_add a plus (rhs._digits.getD 0 0)
  else
    let new_size := max a._digits.length rhs._digits.length + 2
    let ds := a._digits ++ List.replicate (new_size - a._digits.length) a.neutral_element
    let out := subadd_loop plus rhs.neutral_element ds rhs._digits (if plus then 0 else 1)
    clear_zeros ⟨out, check_bit ⟨out, a._is_negative⟩⟩

/-- The function `operator+` (`a += b`). -/
def operator_add (a b : big_integer) : big_integer := subadd a true b

/-- The function `operator-` with two operands (`a -= b`). -/
def operator_sub (a b : big_integer) : big_integer := subadd a false b

/-- The function `operator~`. -/
def operator_tilda (a : big_integer) : big_integer :=
  if a._digits.isEmpty && a._is_negative then of_long_long 0 else inplace_tilda a

/-- The unary `operator-`: `~*this += 1`, the `+=` being the `uint32_t` overload. -/
def operator_minus (a : big_integer) : big_integer :=
  if a._digits.isEmpty && !a._is_negative then a else small_add (operator_tilda a) true 1

/-- The function `abs`. -/
def abs (a : big_integer) : big_integer :=
  if a._is_negative then operator_minus a else a

end big_integer

namespace big_integer

/-- The multiply loop of `small_mul` over the limbs below the last one:
`mul = _digits[i] * x + carry`, `carry = mul >> 32`; returns the limbs and the
final carry. -/
def small_mul_loop (x : Nat) : List Nat → Nat → List Nat × Nat
  | [], carry => ([], carry)
  | d :: ds, carry =>
    ((d * x + carry) % BASE :: (small_mul_loop x ds ((d * x + carry) / BASE)).1,
      (small_mul_loop x ds ((d * x + carry) / BASE)).2)

/-- The function `small_mul(x)`.  The vector is first grown by one
value-initialised limb (`resize(size + 1)`), then `inplace_abs` runs, the loop
covers every limb but the last, and the last limb is overwritten by the carry. -/
def small_mul (a : big_integer) (x : Nat) : big_integer :=
  let sign := a._is_negative
  let t := inplace_abs ⟨a._digits ++ [0], a._is_negative⟩
  let r := small_mul_loop x t._digits.dropLast 0
  let t2 : big_integer := ⟨r.1 ++ [r.2 % BASE], t._is_negative⟩
  clear_zeros (if sign then inplace_minus t2 else t2)

/-- The divide loop `for (int i = ...; i >= 0; i--)` of `small_div`.  The first
argument is the number of indices the loop visits, `i + 1` for the starting
index `i`: the limbs below that count are divided from the highest index down to
index 0 (`new_digit = _digits[i] + BASE * remainder`), the limbs from that count
on are not touched.  Returns the limbs and the final remainder. -/
def small_div_loop (x : Nat) : Nat → List Nat → List Nat × Nat
  | 0, ds => (ds, 0)
  | _ + 1, [] => ([], 0)
  | count + 1, d :: ds =>
    (((d + BASE * (small_div_loop x count ds).2) / x) % BASE :: (small_div_loop x count ds).1,
      (d + BASE * (small_div_loop x count ds).2) % x)

/-- The number of limbs the loop of `small_div` visits on a vector of `size`
limbs.  The loop index is declared `int i = _digits.size() - 1`: the `size_t`
difference is converted to `int` (32 bit), and a negative start index ends the
loop at once. -/
def small_div_count (size : Nat) : Nat :=
  if to_int (to_size_t ((size : Int) - 1)) < 0 then 0
  else (to_int (to_size_t ((size : Int) - 1))).toNat + 1

/-- The body of `small_div(x)` after its zero check: the new value and the
returned remainder (a `uint64_t` returned as `uint32_t`). -/
def small_div_core (a : big_integer) (x : Nat) : big_integer × Nat :=
  let sign := a._is_negative
  let t := inplace_abs a
  let r := small_div_loop x (small_div_count t._digits.length) t._digits
  let t2 : big_integer := ⟨r.1, t._is_negative⟩
  (clear_zeros (if sign then inplace_minus t2 else t2), r.2 % BASE)

/-- The function `small_div(x)`: throws on `x == 0`. -/
def small_div (a : big_integer) (x : Nat) : Except error (big_integer × Nat) :=
  if x = 0 then .error .invalid_argument else .ok (small_div_core a x)

/-- The shift loop of `operator<<=`: `cur = remainder + (limb << modulo)`,
`_digits[i] = cur % BASE`, `remainder = cur / BASE`. -/
def shl_loop (modulo : Nat) : List Nat → Nat → List Nat
  | [], _ => []
  | d :: ds, remainder =>
    ((remainder + (d * 2 ^ modulo) % 18446744073709551616) % 18446744073709551616) % BASE ::
      shl_loop modulo ds
        (((remainder + (d * 2 ^ modulo) % 18446744073709551616) % 18446744073709551616) / BASE)

/-- The function `operator<<=(int rhs)`.  `modulo` and `zero_count` are the
`size_t` conversions of `rhs % 32` and `rhs / 32` (truncating); `insert` of
`zero_count` limbs throws `std::length_error` when the vector would exceed
`max_size()`. -/
def operator_shl (a : big_integer) (rhs : Int) : Except error big_integer :=
  if rhs = 0 then .ok a
  else
    let modulo := to_size_t (Int.tmod rhs 32)
    let zero_count := to_size_t (Int.tdiv rhs 32)
    if max_size - (a._digits.length + 1) < zero_count then .error .length_error
    else
      .ok (clear_zeros
        ⟨shl_loop modulo (List.replicate zero_count 0 ++ (a._digits ++ [a.neutral_element])) 0,
          a._is_negative⟩)

/-- The function `operator>>=(int rhs)` for a shift count `rhs ≥ 0`. -/
def operator_shr (a : big_integer) (rhs : Nat) : big_integer :=
  if rhs = 0 then a
  else
    let modulo := rhs % 32
    let zero_count := rhs / 32
    let sign := a._is_negative
    let t := (small_div_core (inplace_abs a) (2 ^ modulo)).1
    let t2 : big_integer :=
      if zero_count ≥ t._digits.length then ⟨[], t._is_negative⟩
      else ⟨t._digits.drop zero_count, t._is_negative⟩
    clear_zeros (if sign then inplace_minus (small_add t2 true 1) else t2)

/-- The inner loop of `operator*=` for one limb `li = left._digits[i]`: `acc` is
the result buffer from index `i + j` on, `rs` the limbs of `right` from index
`j` on (read through `get_or_default(j, 0)`); the loop runs while
`j < right._digits.size() || carry != 0`. -/
def mul_inner (li : Nat) : List Nat → List Nat → Nat → List Nat
  | [], _, _ => []
  | d :: acc, rs, carry =>
    if rs.isEmpty && carry == 0 then d :: acc
    else
      ((d + li * rs.headD 0 + carry) % 18446744073709551616) % BASE ::
        mul_inner li acc rs.tail (((d + li * rs.headD 0 + carry) % 18446744073709551616) / BASE)

/-- The outer loop of `operator*=`: `acc` is the result buffer from index `i` on. -/
def mul_outer (right : List Nat) : List Nat → List Nat → List Nat
  | [], acc => acc
  | li :: ls, acc =>
    match mul_inner li acc right 0 with
    | [] => []
    | d :: rest => d :: mul_outer right ls rest

/-- The function `operator*=` (and `operator*`). -/
def operator_mul (a rhs : big_integer) : big_integer :=
  if a.check_for_zero || rhs.check_for_zero then make_zero
  else
    let sign := xor a._is_negative rhs._is_negative
    let left := a.abs
    let right := rhs.abs
    let buf := List.replicate (left._digits.length + right._digits.length + 1) 0
    let t : big_integer := ⟨mul_outer right._digits left._digits buf, false⟩
    clear_zeros (if sign then inplace_minus t else t)

end big_integer

namespace big_integer

/-- The normalisation loop of `cool_division`, `for (size_t i = 32; i-- > 0;)`:
the number of clear bits of `top` above its highest set bit. -/
def base_loop (top : Nat) : Nat → Nat
  | 0 => 0
  | i + 1 => if (2 ^ i &&& top) ≠ 0 then 0 else 1 + base_loop top i

/-- The correction loop `while (*this < 0) { result._digits[i]--; *this += multiplier; }`
of `cool_division`, on the pair (`*this`, `result._digits[i]`).  The first
argument bounds the number of iterations. -/
def correction : Nat → big_integer → big_integer → Nat → Except error (big_integer × Nat)
  | 0, this, _, q =>
    if operator_lt this (of_long_long 0) then .error .out_of_fuel else .ok (this, q)
  | fuel + 1, this, multiplier, q =>
    if operator_lt this (of_long_long 0) then
      correction fuel (operator_add this multiplier) multiplier ((q + 4294967295) % BASE)
    else .ok (this, q)

/-- The variables the long-division loop of `cool_division` updates. -/
structure div_state where
  this : big_integer
  multiplier : big_integer
  result : List Nat
  is_zero : Bool
deriving DecidableEq

/-- The long-division loop `for (int64_t i = m; i >= 0; i--)` of `cool_division`;
the counter is `i + 1`, `n = b._digits.size()`, `btop = b._digits.back()`. -/
def division_loop (fuel n btop : Nat) : Nat → div_state → Except error div_state
  | 0, s => .ok s
  | i + 1, s =>
    let digit1 := s.this.get_or_default (n + i) 0
    let digit2 := s.this.get_or_default (to_size_t ((n : Int) + (i : Int) - 1)) 0
    let qq := ((digit1 * BASE + digit2) % 18446744073709551616) / btop
    let q := min qq (BASE - 1)
    let is_zero := s.is_zero && (q == 0)
    let this1 := if q ≠ 0 then operator_sub s.this (small_mul s.multiplier q) else s.this
    let multiplier1 :=
      if q ≠ 0 then (small_div_core (small_mul s.multiplier q) q).1 else s.multiplier
    match correction fuel this1 multiplier1 q with
    | .error e => .error e
    | .ok r =>
      division_loop fuel n btop i
        ⟨r.1, operator_shr multiplier1 32, s.result.set i r.2, is_zero⟩

/-- The clamped quotient-digit estimate `q` computed at the head of the body of
the long-division loop of `cool_division` (the value of
`std::min(((digit1 << 32) + digit2) / b._digits.back(), BASE - 1)` on entry of the
iteration with index `i`). -/
def quotient_estimate (this : big_integer) (n btop i : Nat) : Nat :=
  min (((this.get_or_default (n + i) 0 * BASE
      + this.get_or_default (to_size_t ((n : Int) + (i : Int) - 1)) 0) % 18446744073709551616)
    / btop) (BASE - 1)

/-- The function `cool_division(div, rhs)`; `fuel` bounds each run of the
correction loop.  `m` is the `size_t` difference of the limb counts,
`result._digits.resize(m + 1, 0)` throws `std::length_error` beyond
`max_size()`, and the shift count `32 * m` is converted from `size_t` to `int`. -/
def cool_division (fuel : Nat) (a : big_integer) (div : Bool) (rhs : big_integer) :
    Except error big_integer :=
  if rhs.check_for_zero then .error .invalid_argument
  else if a.check_for_zero then .ok a
  else if operator_eq rhs MINUS_ONE then .ok (if div then inplace_minus a else make_zero)
  else if a._digits.length < rhs._digits.length then .ok (if div then make_zero else a)
  else
    let starting_sign := a._is_negative
    let sign := xor a._is_negative rhs._is_negative
    let b0 := rhs.abs
    let base := base_loop (b0._digits.getLastD 0) 32
    match operator_shl (inplace_abs a) (base : Int), operator_shl b0 (base : Int) with
    | .error e, _ => .error e
    | .ok _, .error e => .error e
    | .ok a1, .ok b =>
      let m := to_size_t ((a1._digits.length : Int) - (b._digits.length : Int))
      if max_size < (m + 1) % 18446744073709551616 then .error .length_error
      else
        match operator_shl b (to_int ((32 * m) % 18446744073709551616)) with
        | .error e => .error e
        | .ok multiplier =>
          match division_loop fuel b._digits.length (b._digits.getLastD 0)
              (if m < 9223372036854775808 then m + 1 else 0)
              ⟨a1, multiplier, List.replicate ((m + 1) % 18446744073709551616) 0, true⟩ with
          | .error e => .error e
          | .ok s =>
            let sign1 := sign && !s.is_zero
            let r0 : big_integer := ⟨s.result, false⟩
            let result := clear_zeros ⟨(if sign1 then inplace_minus r0 else r0)._digits, sign1⟩
            let this1 := operator_shr s.this base
            let this2 := if starting_sign then inplace_minus this1 else this1
            .ok (if div then result else this2)

/-- The function `operator/` (`a.cool_division(true, b)`). -/
def operator_div (fuel : Nat) (a b : big_integer) : Except error big_integer :=
  cool_division fuel a true b

/-- The function `operator%` (`a %= b`, that is `cool_division(false, b)`). -/
def operator_mod (fuel : Nat) (a b : big_integer) : Except error big_integer :=
  cool_division fuel a false b

/-- The helper `check_block`. -/
def check_block (block : Nat) : Bool := decide (block ≤ (4294967295 - 9) / 10)

/-- The helper `check_pow`. -/
def check_pow (pow : Nat) : Bool := decide (pow ≤ 4294967295 / 10)

/-- The function `proceed(sign, cur_block, cur_power)`. -/
def proceed (a : big_integer) (sign : Bool) (cur_block cur_power : Nat) : big_integer :=
  small_add (small_mul a cur_power) (!sign) cur_block

/-- The character loop of the string constructor, followed by its final flush and
`clear_zeros`; `block` and `pow` are `uint32_t`. -/
def parse_loop (sign : Bool) : List Char → big_integer → Nat → Nat → Except error big_integer
  | [], v, block, pow =>
    .ok (clear_zeros (if block ≠ 0 ∨ pow > 1 then proceed v sign block pow else v))
  | cur :: rest, v, block, pow =>
    if !cur.isDigit then .error .invalid_argument
    else if !check_block ((block * 10 + (cur.toNat - 48)) % BASE) || !check_pow ((pow * 10) % BASE)
    then
      parse_loop sign rest
        (proceed v sign ((block * 10 + (cur.toNat - 48)) % BASE) ((pow * 10) % BASE)) 0 1
    else parse_loop sign rest v ((block * 10 + (cur.toNat - 48)) % BASE) ((pow * 10) % BASE)

/-- The constructor `big_integer(const std::string& str)`. -/
def of_string (str : List Char) : Except error big_integer :=
  if str.isEmpty || str == ['-'] then .error .invalid_argument
  else
    let sign := str.head? == some '-'
    parse_loop sign (str.drop (if sign then 1 else 0)) ⟨[], false⟩ 0 1

/-- The loop `for (int i = 0; i < 9; i++) { res += char(tmp % 10 + '0'); tmp /= 10; }`
of `to_string`. -/
def chunk_chars : Nat → Nat → List Char
  | 0, _ => []
  | k + 1, tmp => Char.ofNat (tmp % 10 + 48) :: chunk_chars k (tmp / 10)

/-- The loop `while (!b.check_for_zero())` of `to_string`, appending to `res`;
the first argument bounds the number of iterations. -/
def to_string_loop : Nat → big_integer → List Char → List Char
  | 0, _, res => res
  | fuel + 1, b, res =>
    if b.check_for_zero then res
    else
      to_string_loop fuel (small_div_core b 1000000000).1
        (res ++ chunk_chars 9 (small_div_core b 1000000000).2)

/-- The function `to_string`.  While `small_div` visits every limb (up to `2^31`
limbs), every division by `10^9` of a value below `2^(32 n)` removes more than 16
bits, so `2 n` iterations exhaust `n` limbs and the bound is never reached.  Above
`2^31` limbs the loop of the source does not leave `b` smaller; what the loop
does there for any bound is stated on `to_string_loop`. -/
def to_string (a : big_integer) : List Char :=
  if a._digits.isEmpty then (if a._is_negative then ['-', '1'] else ['0'])
  else
    let b := a.abs
    let res := to_string_loop (2 * b._digits.length) b []
    let res1 := (res.reverse.dropWhile (fun c => c == '0')).reverse
    (if a._is_negative then res1 ++ ['-'] else res1).reverse

end big_integer

namespace big_integer

/-- The general carry loop of `subadd(plus, rhs)`, that is its body after the
single-limb shortcut: working length `max(len) + 2`, sign from `check_bit`, then
`clear_zeros`. -/
def subadd_general (a : big_integer) (plus : Bool) (rhs : big_integer) : big_integer :=
  let new_size := max a._digits.length rhs._digits.length + 2
  let ds := a._digits ++ List.replicate (new_size - a._digits.length) a.neutral_element
  let out := subadd_loop plus rhs.neutral_element ds rhs._digits (if plus then 0 else 1)
  clear_zeros ⟨out, check_bit ⟨out, a._is_negative⟩⟩

/-- The prefix `operator++` (`small_add(true, 1)`); the postfix form leaves the
same value in the receiver. -/
def operator_inc (a : big_integer) : big_integer := small_add a true 1

/-- The prefix `operator--` (`small_add(false, 1)`); the postfix form leaves the
same value in the receiver. -/
def operator_dec (a : big_integer) : big_integer := small_add a false 1

/-- The limb loop of `apply_bitwise_operation` for `i < newSize`: the left limb is
`_digits[i]` below the old size and `neutral_element()` above it, the right limb
is `rhs.get_or_default(i, rhs.neutral_element())`; the result of the operation
is a `uint32_t`. -/
def bitwise_loop (bitwise_operation : Nat → Nat → Nat) (ane rne : Nat) :
    Nat → List Nat → List Nat → List Nat
  | 0, _, _ => []
  | n + 1, ds, rs =>
    bitwise_operation (ds.headD ane) (rs.headD rne) % BASE ::
      bitwise_loop bitwise_operation ane rne n ds.tail rs.tail

/-- The function `apply_bitwise_operation(bitwise_operation, rhs)`: the flag is the
operation applied to the two flags converted to `uint32_t`, converted back to
`bool`. -/
def apply_bitwise_operation (a : big_integer) (bitwise_operation : Nat → Nat → Nat)
    (rhs : big_integer) : big_integer :=
  let newSize := max a._digits.length rhs._digits.length + 1
  let out := bitwise_loop bitwise_operation a.neutral_element rhs.neutral_element newSize
    a._digits rhs._digits
  clear_zeros ⟨out,
    bitwise_operation (if a._is_negative then 1 else 0) (if rhs._is_negative then 1 else 0)
      % BASE != 0⟩

/-- The function `operator&` (`a &= b`). -/
def operator_and (a b : big_integer) : big_integer :=
  apply_bitwise_operation a (fun x y => x &&& y) b

/-- The function `operator|` (`a |= b`). -/
def operator_or (a b : big_integer) : big_integer :=
  apply_bitwise_operation a (fun x y => x ||| y) b

/-- The function `operator^` (`a ^= b`). -/
def operator_xor (a b : big_integer) : big_integer :=
  apply_bitwise_operation a (fun x y => x ^^^ y) b

end big_integer

/-! ## Specification-side notions: represented integer and canonical form -/

/-- Value `Σ limb[i] · 2^(32·i)` of a little-endian limb sequence. -/
def limbs_value : List Nat → Nat
  | [] => 0
  | d :: ds => d + BASE * limbs_value ds

namespace big_integer

/-- The integer a `big_integer` represents: the stored limbs, sign-extended by
the flag, read as an infinite-width two's-complement number. -/
def value (a : big_integer) : Int :=
  (limbs_value a._digits : Int) - (if a._is_negative then (BASE : Int) ^ a._digits.length else 0)

/-- Every stored limb is a `uint32_t`. -/
def well_formed (a : big_integer) : Prop := ∀ d ∈ a._digits, d < BASE

/-- Canonical form: 32-bit limbs whose most significant one is not the neutral
element of the sign. -/
def canonical (a : big_integer) : Prop :=
  a.well_formed ∧ a._digits.getLast? ≠ some a.neutral_element

instance (a : big_integer) : Decidable a.well_formed := by
  unfold well_formed; infer_instance

instance (a : big_integer) : Decidable a.canonical := by
  unfold canonical; infer_instance

end big_integer


/-- Value of the first `n` limbs of a limb sequence continued by the fill limb
`ne` beyond its end, as read through `get_or_default(i, ne)`. -/
def ext_value (ne : Nat) : Nat → List Nat → Nat
  | 0, _ => 0
  | n + 1, rs => rs.headD ne + BASE * ext_value ne n rs.tail

/-- The strings of the form `-?[0-9]+`: an optional `-` followed by at least one
decimal digit and nothing else. -/
def matches_decimal (s : List Char) : Bool :=
  match s with
  | '-' :: rest => !rest.isEmpty && rest.all Char.isDigit
  | _ => !s.isEmpty && s.all Char.isDigit

/-- The canonical decimal representation of an integer: the decimal digits of its
absolute value without leading zeros (`0` for zero), with a leading `-` exactly
when it is negative. -/
def canonical_decimal (z : Int) : List Char :=
  if z < 0 then '-' :: Nat.toDigits 10 z.natAbs else Nat.toDigits 10 z.natAbs

/-! ## Arithmetic of limb sequences -/

theorem BASE_pos : 0 < BASE := by decide

theorem limbs_value_append (xs ys : List Nat) :
    limbs_value (xs ++ ys) = limbs_value xs + BASE ^ xs.length * limbs_value ys := by
  induction xs with
  | nil => simp [limbs_value]
  | cons x xs ih =>
    show x + BASE * limbs_value (xs ++ ys) = (x + BASE * limbs_value xs) + BASE ^ (xs.length + 1) * limbs_value ys
    rw [ih, pow_succ]
    ring

theorem limbs_value_lt (xs : List Nat) (h : ∀ d ∈ xs, d < BASE) :
    limbs_value xs < BASE ^ xs.length := by
  induction xs with
  | nil => simp [limbs_value]
  | cons x xs ih =>
    have hx : x < BASE := h x (List.mem_cons_self _ _)
    have ht : limbs_value xs < BASE ^ xs.length := ih (fun d hd => h d (List.mem_cons_of_mem _ hd))
    simp only [limbs_value, List.length_cons, pow_succ]
    nlinarith

theorem limbs_value_replicate_zero (n : Nat) : limbs_value (List.replicate n 0) = 0 := by
  induction n with
  | zero => rfl
  | succ n ih => simp [List.replicate_succ, limbs_value, ih]

theorem limbs_value_map_not32 (xs : List Nat) (h : ∀ d ∈ xs, d < BASE) :
    limbs_value (xs.map not32) + limbs_value xs + 1 = BASE ^ xs.length := by
  induction xs with
  | nil => simp [limbs_value]
  | cons x xs ih =>
    have hx : x < BASE := h x (List.mem_cons_self _ _)
    have ht := ih (fun d hd => h d (List.mem_cons_of_mem _ hd))
    simp only [List.map_cons, limbs_value, List.length_cons, pow_succ]
    have h1 : not32 x + x + 1 = BASE := by
      unfold not32 BASE at *; omega
    nlinarith

theorem limbs_value_eq_zero (xs : List Nat) (h : limbs_value xs = 0) : ∀ d ∈ xs, d = 0 := by
  induction xs with
  | nil => simp
  | cons x xs ih =>
    simp only [limbs_value] at h
    have hB := BASE_pos
    have hx : x = 0 := by omega
    have ht : limbs_value xs = 0 := by
      rcases Nat.eq_zero_or_pos (limbs_value xs) with h0 | h0
      · exact h0
      · have : 0 < BASE * limbs_value xs := Nat.mul_pos hB h0
        omega
    intro d hd
    rcases List.mem_cons.mp hd with rfl | hd
    · exact hx
    · exact ih ht d hd

/-! ## `clear_zeros` -/

theorem pop_neutral_append_singleton (ne x : Nat) (xs : List Nat) :
    big_integer.pop_neutral ne (xs ++ [x]) =
      if x = ne then big_integer.pop_neutral ne xs else xs ++ [x] := by
  unfold big_integer.pop_neutral
  by_cases h : x = ne
  · simp [h, List.dropWhile]
  · simp [h, List.dropWhile]

theorem pop_neutral_nil (ne : Nat) : big_integer.pop_neutral ne [] = [] := rfl

theorem pop_neutral_mem (ne : Nat) (xs : List Nat) : ∀ d ∈ big_integer.pop_neutral ne xs, d ∈ xs := by
  induction xs using List.reverseRecOn with
  | nil => simp [pop_neutral_nil]
  | append_singleton xs x ih =>
    rw [pop_neutral_append_singleton]
    split
    · intro d hd
      exact List.mem_append_left _ (ih d hd)
    · intro d hd; exact hd

theorem pop_neutral_getLast (ne : Nat) (xs : List Nat) :
    (big_integer.pop_neutral ne xs).getLast? ≠ some ne := by
  induction xs using List.reverseRecOn with
  | nil => simp [pop_neutral_nil]
  | append_singleton xs x ih =>
    rw [pop_neutral_append_singleton]
    split
    · exact ih
    · next h => simp [List.getLast?_append, h]

namespace big_integer

theorem value_mk_append_neutral (xs : List Nat) (s : Bool) :
    value ⟨xs ++ [neutral_element ⟨xs, s⟩], s⟩ = value ⟨xs, s⟩ := by
  cases s
  · simp [value, neutral_element, limbs_value_append, limbs_value]
  · simp only [value, neutral_element, limbs_value_append, limbs_value, List.length_append,
      List.length_singleton, if_true, pow_succ]
    push_cast
    simp [BASE]
    ring

theorem clear_zeros_value (a : big_integer) : (clear_zeros a).value = a.value := by
  obtain ⟨xs, s⟩ := a
  induction xs using List.reverseRecOn with
  | nil => rfl
  | append_singleton xs x ih =>
    simp only [clear_zeros] at ih ⊢
    rw [pop_neutral_append_singleton]
    split
    · next h =>
      have hne : neutral_element ⟨xs ++ [x], s⟩ = neutral_element ⟨xs, s⟩ := rfl
      rw [hne] at h ⊢
      have := value_mk_append_neutral xs s
      rw [← h] at this
      rw [this]
      exact ih
    · rfl

theorem clear_zeros_well_formed (a : big_integer) (h : a.well_formed) :
    (clear_zeros a).well_formed := by
  intro d hd
  exact h d (pop_neutral_mem _ _ d hd)

theorem clear_zeros_canonical (a : big_integer) (h : a.well_formed) :
    (clear_zeros a).canonical :=
  ⟨clear_zeros_well_formed a h, pop_neutral_getLast _ _⟩

theorem clear_zeros_is_negative (a : big_integer) :
    (clear_zeros a)._is_negative = a._is_negative := rfl

end big_integer

/-! ## The sign test `check_bit` -/

theorem and_bit31 (d : Nat) : d &&& 2147483648 = if d.testBit 31 then 2147483648 else 0 := by
  have h31 : (2147483648 : Nat) = 2 ^ 31 := by norm_num
  rw [h31]
  apply Nat.eq_of_testBit_eq
  intro i
  rw [Nat.testBit_and, Nat.testBit_two_pow]
  cases hb : d.testBit 31
  · by_cases hi : 31 = i
    · subst hi
      simp [hb]
    · simp [hi]
  · rw [if_pos rfl, Nat.testBit_two_pow]
    by_cases hi : 31 = i
    · subst hi
      simp [hb]
    · simp [hi]

theorem testBit31_iff (d : Nat) (hd : d < BASE) : d.testBit 31 = true ↔ 2147483648 ≤ d := by
  rw [Nat.testBit_to_div_mod]
  unfold BASE at hd
  simp only [decide_eq_true_eq]
  norm_num
  omega

theorem check_bit31 (d : Nat) (hd : d < BASE) :
    ((d &&& 2147483648) != 0) = decide (2147483648 ≤ d) := by
  rw [and_bit31]
  by_cases h : 2147483648 ≤ d
  · have := (testBit31_iff d hd).mpr h
    simp [this, h]
  · have : d.testBit 31 = false := by
      cases hb : d.testBit 31
      · rfl
      · exact absurd ((testBit31_iff d hd).mp hb) h
    simp [this, h]

namespace big_integer

theorem check_bit_append (xs : List Nat) (x : Nat) (s : Bool) (hx : x < BASE) :
    check_bit ⟨xs ++ [x], s⟩ = decide (2147483648 ≤ x) := by
  have : (xs ++ [x]).getLast? = some x := by simp
  simp only [check_bit, this]
  exact check_bit31 x hx

/-- For a sequence of `k ≥ 1` well-formed limbs, `check_bit` holds exactly when the
value reaches half of `BASE ^ k`. -/
theorem check_bit_iff (ds : List Nat) (s : Bool) (hwf : ∀ d ∈ ds, d < BASE) (hne : ds ≠ []) :
    check_bit ⟨ds, s⟩ = decide (BASE ^ ds.length ≤ 2 * limbs_value ds) := by
  induction ds using List.reverseRecOn with
  | nil => exact absurd rfl hne
  | append_singleton xs x _ =>
    have hx : x < BASE := hwf x (by simp)
    have hxs : limbs_value xs < BASE ^ xs.length :=
      limbs_value_lt xs (fun d hd => hwf d (List.mem_append_left _ hd))
    rw [check_bit_append xs x s hx, limbs_value_append]
    simp only [limbs_value, List.length_append, List.length_singleton, pow_succ, mul_zero, add_zero]
    have hP : 0 < BASE ^ xs.length := Nat.pow_pos BASE_pos
    generalize BASE ^ xs.length = P at *
    generalize limbs_value xs = v at *
    unfold BASE at *
    by_cases h : 2147483648 ≤ x
    · simp only [h, decide_True, decide_eq_true_eq, true_eq_decide_iff]
      nlinarith
    · simp only [h, decide_False, false_eq_decide_iff, not_le]
      have : x + 1 ≤ 2147483648 := by omega
      nlinarith

/-- Two's-complement decoding: limbs congruent to `T` modulo `BASE ^ k`, with `T` in
the signed range of `k` limbs, represent `T` once the flag is set from
`check_bit`. -/
theorem value_of_check_bit (ds : List Nat) (s : Bool) (T : Int)
    (hwf : ∀ d ∈ ds, d < BASE) (hne : ds ≠ [])
    (hlo : -((BASE : Int) ^ ds.length) ≤ 2 * T) (hhi : 2 * T < (BASE : Int) ^ ds.length)
    (hmod : ((limbs_value ds : Int) - T) % ((BASE : Int) ^ ds.length) = 0) :
    value ⟨ds, check_bit ⟨ds, s⟩⟩ = T := by
  have hv := limbs_value_lt ds hwf
  have hcb := check_bit_iff ds s hwf hne
  obtain ⟨q, hq⟩ := Int.dvd_of_emod_eq_zero hmod
  have hvI : (limbs_value ds : Int) < (BASE : Int) ^ ds.length := by exact_mod_cast hv
  have hv0 : (0 : Int) ≤ (limbs_value ds : Int) := Int.natCast_nonneg _
  have hMpos : (0 : Int) < (BASE : Int) ^ ds.length := by
    have := Nat.pow_pos (n := ds.length) BASE_pos
    exact_mod_cast this
  have hq0 : q = 0 ∨ q = 1 := by
    have h1 : q < 2 := by
      by_contra hc
      have : 2 ≤ q := by omega
      nlinarith
    have h2 : -1 < q := by
      by_contra hc
      have : q ≤ -1 := by omega
      nlinarith
    omega
  unfold value
  simp only [hcb]
  rcases hq0 with h0 | h1
  · subst h0
    have hT : T = limbs_value ds := by linarith
    have hnot : ¬ (BASE ^ ds.length ≤ 2 * limbs_value ds) := by
      intro hc
      have : ((BASE ^ ds.length : Nat) : Int) ≤ 2 * (limbs_value ds : Int) := by exact_mod_cast hc
      push_cast at this
      linarith
    simp [hnot, hT]
  · subst h1
    have hT : T = limbs_value ds - (BASE : Int) ^ ds.length := by linarith
    have hyes : BASE ^ ds.length ≤ 2 * limbs_value ds := by
      have : ((BASE : Int) ^ ds.length) ≤ 2 * (limbs_value ds : Int) := by linarith
      exact_mod_cast this
    simp [hyes, hT]

end big_integer

/-! ## The single-limb carry loop (`small_add`), addition case -/

namespace big_integer

theorem small_add_loop_length (plus : Bool) (ds : List Nat) (digit carry : Nat) :
    (small_add_loop plus ds digit carry).length = ds.length := by
  induction ds generalizing digit carry with
  | nil => rfl
  | cons d ds ih => simp [small_add_loop, ih]

theorem small_add_loop_lt (plus : Bool) (ds : List Nat) (digit carry : Nat) :
    ∀ d ∈ small_add_loop plus ds digit carry, d < BASE := by
  induction ds generalizing digit carry with
  | nil => simp [small_add_loop]
  | cons d ds ih =>
    intro e he
    simp only [small_add_loop, List.mem_cons] at he
    rcases he with rfl | he
    · exact Nat.mod_lt _ BASE_pos
    · exact ih _ _ e he

theorem small_add_loop_value (ds : List Nat) (digit carry : Nat) :
    limbs_value (small_add_loop true ds digit carry) =
      (limbs_value ds + digit + carry) % BASE ^ ds.length := by
  induction ds generalizing digit carry with
  | nil => simp [small_add_loop, limbs_value, Nat.mod_one]
  | cons d ds ih =>
    simp only [small_add_loop, limbs_value, if_true, ih, List.length_cons]
    rw [pow_succ, mul_comm (BASE ^ ds.length) BASE, Nat.mod_mul]
    have h1 : (d + BASE * limbs_value ds + digit + carry) % BASE = (d + carry + digit) % BASE := by
      rw [show d + BASE * limbs_value ds + digit + carry = (d + carry + digit) + BASE * limbs_value ds by ring]
      exact Nat.add_mul_mod_self_left _ _ _
    have h2 : (d + BASE * limbs_value ds + digit + carry) / BASE
        = limbs_value ds + 0 + (d + carry + digit) / BASE := by
      rw [show d + BASE * limbs_value ds + digit + carry = (d + carry + digit) + BASE * limbs_value ds by ring]
      rw [Nat.add_mul_div_left _ _ BASE_pos]
      ring
    rw [h1, h2]

theorem emod_sub_emod (A C M : Int) (h : (A - C) % M = 0) : (A % M - C) % M = 0 := by
  rw [Int.sub_emod, Int.emod_emod_of_dvd _ (dvd_refl M), ← Int.sub_emod]
  exact h

theorem small_add_range_aux (P v x : Int) (s : Bool) (hP : 1 ≤ P) (hv0 : 0 ≤ v) (hv : v < P)
    (hx0 : 0 ≤ x) (hx : x < 4294967296) (hfit : 4294967296 ≤ P ∨ x < 2147483648) :
    -(P * 4294967296) ≤ 2 * (v - (if s then P else 0) + x) ∧
      2 * (v - (if s then P else 0) + x) < P * 4294967296 := by
  cases s
  · simp only [Bool.false_eq_true, if_false, sub_zero]
    constructor
    · nlinarith
    · rcases hfit with h | h
      · nlinarith
      · nlinarith
  · simp only [if_true]
    constructor
    · nlinarith
    · rcases hfit with h | h
      · nlinarith
      · nlinarith

theorem BASE_pow_ge (n : Nat) (h : n ≠ 0) : (4294967296 : Int) ≤ (BASE : Int) ^ n := by
  have h1 : 1 ≤ n := Nat.one_le_iff_ne_zero.mpr h
  have := Nat.pow_le_pow_right BASE_pos h1
  simp only [pow_one] at this
  have h2 : ((BASE : Nat) : Int) ≤ ((BASE ^ n : Nat) : Int) := by exact_mod_cast this
  push_cast at h2
  exact h2

/-- The fast path `small_add(true, x)` adds `x` exactly, except when there is no
stored limb and `x` has its top bit set. -/
theorem small_add_plus_value (a : big_integer) (x : Nat) (hwf : a.well_formed) (hx : x < BASE)
    (hfit : a._digits ≠ [] ∨ x < 2147483648) :
    (small_add a true x).value = a.value + x ∧ (small_add a true x).canonical := by
  obtain ⟨ds, s⟩ := a
  have hds : limbs_value ds < BASE ^ ds.length := limbs_value_lt ds hwf
  set ext := ds ++ [neutral_element ⟨ds, s⟩] with hext
  set out := small_add_loop true ext x 0 with hout
  have hlen : out.length = ds.length + 1 := by
    rw [hout, small_add_loop_length, hext]; simp
  have hwfo : ∀ d ∈ out, d < BASE := small_add_loop_lt _ _ _ _
  have hne : out ≠ [] := by
    intro h; rw [h] at hlen; simp at hlen
  have hval : limbs_value out = (limbs_value ext + x) % BASE ^ (ds.length + 1) := by
    rw [hout, small_add_loop_value]
    simp [hext]
  have hextv : value ⟨ext, s⟩ = value ⟨ds, s⟩ := value_mk_append_neutral ds s
  have hP : 0 < BASE ^ ds.length := Nat.pow_pos BASE_pos
  have hPI : (1:Int) ≤ (BASE:Int) ^ ds.length := by
    have : ((0:Nat):Int) < ((BASE ^ ds.length : Nat) : Int) := by exact_mod_cast hP
    push_cast at this
    linarith
  have hdsI : (limbs_value ds : Int) < (BASE:Int) ^ ds.length := by exact_mod_cast hds
  have hxI : (x : Int) < 4294967296 := by unfold BASE at hx; exact_mod_cast hx
  have hfitI : (4294967296 : Int) ≤ (BASE:Int) ^ ds.length ∨ (x : Int) < 2147483648 := by
    rcases hfit with h | h
    · left
      apply BASE_pow_ge
      intro h0
      exact h (List.length_eq_zero.mp h0)
    · right; exact_mod_cast h
  have hrange := small_add_range_aux ((BASE:Int) ^ ds.length) (limbs_value ds) x s hPI
    (Int.natCast_nonneg _) hdsI (Int.natCast_nonneg _) hxI hfitI
  have hpow : (BASE:Int) ^ (ds.length + 1) = (BASE:Int) ^ ds.length * 4294967296 := by
    rw [pow_succ]; rfl
  have hkey : value ⟨out, check_bit ⟨out, s⟩⟩ = value ⟨ds, s⟩ + x := by
    apply value_of_check_bit out s _ hwfo hne
    · rw [hlen, hpow]
      exact hrange.1
    · rw [hlen, hpow]
      exact hrange.2
    · rw [hlen, hval]
      have hcast : (((limbs_value ext + x) % BASE ^ (ds.length + 1) : Nat) : Int)
          = ((limbs_value ext : Int) + x) % (BASE : Int) ^ (ds.length + 1) := by
        push_cast; rfl
      rw [hcast]
      have hv : (limbs_value ext : Int) = value ⟨ds, s⟩ +
          (if s then (BASE:Int) ^ (ds.length + 1) else 0) := by
        rw [← hextv]
        simp only [value, hext, List.length_append, List.length_singleton]
        ring
      rw [hv]
      apply emod_sub_emod
      cases s
      · simp
      · simp only [if_true]
        have : value ⟨ds, true⟩ + (BASE:Int) ^ (ds.length + 1) + (x:Int) - (value ⟨ds, true⟩ + (x:Int))
            = (BASE:Int) ^ (ds.length + 1) := by ring
        rw [this]
        exact Int.emod_self
  constructor
  · show (clear_zeros ⟨out, check_bit ⟨out, s⟩⟩).value = _
    rw [clear_zeros_value]
    exact hkey
  · exact clear_zeros_canonical _ hwfo

end big_integer

/-! ## Complement, negation and absolute value -/

namespace big_integer

theorem not32_lt (d : Nat) : not32 d < BASE := by
  unfold not32 BASE; omega

theorem not32_not32 (d : Nat) (h : d < BASE) : not32 (not32 d) = d := by
  unfold not32 BASE at *; omega

theorem inplace_tilda_well_formed (a : big_integer) : (inplace_tilda a).well_formed := by
  intro d hd
  simp only [inplace_tilda, List.mem_map] at hd
  obtain ⟨e, _, rfl⟩ := hd
  exact not32_lt e

theorem inplace_tilda_value (a : big_integer) (hwf : a.well_formed) :
    (inplace_tilda a).value = -1 - a.value := by
  obtain ⟨ds, s⟩ := a
  have h := limbs_value_map_not32 ds hwf
  have hI : ((limbs_value (ds.map not32) : Nat) : Int) + (limbs_value ds : Int) + 1
      = (BASE : Int) ^ ds.length := by exact_mod_cast h
  cases s
  · simp only [inplace_tilda, value, List.length_map, Bool.not_false, if_true, Bool.false_eq_true,
      if_false]
    linarith
  · simp only [inplace_tilda, value, List.length_map, Bool.not_true, if_true, Bool.false_eq_true,
      if_false]
    linarith

theorem inplace_tilda_canonical (a : big_integer) (h : a.canonical) :
    (inplace_tilda a).canonical := by
  refine ⟨inplace_tilda_well_formed a, ?_⟩
  obtain ⟨ds, s⟩ := a
  obtain ⟨hwf, hlast⟩ := h
  simp only [inplace_tilda, neutral_element, List.getLast?_map] at hlast ⊢
  intro hc
  cases hl : ds.getLast? with
  | none => rw [hl] at hc; simp at hc
  | some d =>
    rw [hl] at hc hlast
    have hd : d < BASE := hwf d (List.mem_of_mem_getLast? hl)
    simp only [Option.map_some', Option.some.injEq] at hc
    apply hlast
    congr 1
    cases s
    · simp only [Bool.not_false, if_true, Bool.false_eq_true, if_false] at hc ⊢
      unfold not32 BASE at *; omega
    · simp only [Bool.not_true, Bool.false_eq_true, if_false, if_true] at hc ⊢
      unfold not32 BASE at *; omega

theorem inplace_minus_value (a : big_integer) (hwf : a.well_formed) :
    (inplace_minus a).value = -a.value ∧ (inplace_minus a).canonical := by
  have h := small_add_plus_value (inplace_tilda a) 1 (inplace_tilda_well_formed a)
    (by decide) (Or.inr (by decide))
  rw [inplace_tilda_value a hwf] at h
  refine ⟨?_, h.2⟩
  show (small_add (inplace_tilda a) true 1).value = _
  rw [h.1]
  push_cast
  ring

/-- The flag of a well-formed value is set exactly when the represented integer is
negative. -/
theorem is_negative_iff (a : big_integer) (hwf : a.well_formed) :
    a._is_negative = true ↔ a.value < 0 := by
  obtain ⟨ds, s⟩ := a
  have h := limbs_value_lt ds hwf
  have hI : (limbs_value ds : Int) < (BASE : Int) ^ ds.length := by exact_mod_cast h
  have h0 : (0 : Int) ≤ (limbs_value ds : Int) := Int.natCast_nonneg _
  cases s
  · simp only [value, Bool.false_eq_true, if_false, sub_zero, false_iff, not_lt]
    exact h0
  · simp only [value, if_true, true_iff]
    linarith

theorem operator_tilda_value (a : big_integer) (h : a.canonical) :
    (operator_tilda a).value = -1 - a.value ∧ (operator_tilda a).canonical := by
  unfold operator_tilda
  split
  · next hc =>
    obtain ⟨ds, s⟩ := a
    simp only [Bool.and_eq_true, List.isEmpty_iff] at hc
    obtain ⟨h1, h2⟩ := hc
    subst h1; subst h2
    constructor
    · decide
    · decide
  · exact ⟨inplace_tilda_value a h.1, inplace_tilda_canonical a h⟩

theorem operator_minus_value (a : big_integer) (h : a.canonical) :
    (operator_minus a).value = -a.value ∧ (operator_minus a).canonical := by
  unfold operator_minus
  split
  · next hc =>
    refine ⟨?_, h⟩
    obtain ⟨ds, s⟩ := a
    simp only [Bool.and_eq_true, List.isEmpty_iff, Bool.not_eq_true'] at hc
    obtain ⟨h1, h2⟩ := hc
    subst h1; subst h2
    decide
  · have ht := operator_tilda_value a h
    have hs := small_add_plus_value (operator_tilda a) 1 ht.2.1 (by decide) (Or.inr (by decide))
    refine ⟨?_, hs.2⟩
    rw [hs.1, ht.1]
    push_cast
    ring

theorem abs_value (a : big_integer) (h : a.canonical) :
    (abs a).value = |a.value| ∧ (abs a).canonical ∧ (abs a)._is_negative = false := by
  have hneg := is_negative_iff a h.1
  have key : (abs a).value = |a.value| ∧ (abs a).canonical := by
    unfold abs
    split
    · next hs =>
      have hm := operator_minus_value a h
      refine ⟨?_, hm.2⟩
      rw [hm.1, abs_of_neg (hneg.mp hs)]
    · next hs =>
      refine ⟨?_, h⟩
      have : ¬ a.value < 0 := fun hc => hs (hneg.mpr hc)
      rw [abs_of_nonneg (not_lt.mp this)]
  refine ⟨key.1, key.2, ?_⟩
  cases hb : (abs a)._is_negative
  · rfl
  · have := (is_negative_iff (abs a) key.2.1).mp hb
    rw [key.1] at this
    exact absurd this (not_lt.mpr (abs_nonneg _))

theorem check_for_zero_value (a : big_integer) (h : a.check_for_zero = true) : a.value = 0 := by
  obtain ⟨ds, s⟩ := a
  simp only [check_for_zero, Bool.and_eq_true, Bool.not_eq_true', Bool.or_eq_true,
    List.isEmpty_iff, beq_iff_eq] at h
  obtain ⟨hs, hd⟩ := h
  subst hs
  rcases hd with hd | ⟨hl, h0⟩
  · subst hd
    rfl
  · match ds, hl, h0 with
    | [d], _, h0 =>
      simp only [List.getD_cons_zero] at h0
      subst h0
      rfl

end big_integer

/-! ## Schoolbook multiplication -/

namespace big_integer

theorem limbs_value_headD_tail (rs : List Nat) :
    limbs_value rs = rs.headD 0 + BASE * limbs_value rs.tail := by
  cases rs with
  | nil => simp [limbs_value]
  | cons r t => simp [limbs_value]

theorem headD_lt (rs : List Nat) (h : ∀ d ∈ rs, d < BASE) : rs.headD 0 < BASE := by
  cases rs with
  | nil => exact BASE_pos
  | cons r t => exact h r (List.mem_cons_self _ _)

theorem tail_lt (rs : List Nat) (h : ∀ d ∈ rs, d < BASE) : ∀ d ∈ rs.tail, d < BASE :=
  fun d hd => h d (List.mem_of_mem_tail hd)

/-- One row of the schoolbook product: provided the total fits the buffer, the
inner loop adds `li * rs + carry` to it. -/
theorem mul_inner_spec (li : Nat) (acc rs : List Nat) (c : Nat) (hli : li < BASE)
    (hacc : ∀ d ∈ acc, d < BASE) (hrs : ∀ d ∈ rs, d < BASE) (hc : c < BASE)
    (hfit : limbs_value acc + li * limbs_value rs + c < BASE ^ acc.length) :
    limbs_value (mul_inner li acc rs c) = limbs_value acc + li * limbs_value rs + c ∧
      (mul_inner li acc rs c).length = acc.length ∧
      ∀ d ∈ mul_inner li acc rs c, d < BASE := by
  induction acc generalizing rs c with
  | nil =>
    simp only [limbs_value, List.length_nil, pow_zero, zero_add] at hfit
    simp only [mul_inner, limbs_value, List.length_nil, zero_add, List.not_mem_nil,
      false_implies, implies_true, and_true]
    omega
  | cons d acc ih =>
    have hd : d < BASE := hacc d (List.mem_cons_self _ _)
    have hacc2 : ∀ e ∈ acc, e < BASE := fun e he => hacc e (List.mem_cons_of_mem _ he)
    unfold mul_inner
    split
    · next hcond =>
      simp only [Bool.and_eq_true, List.isEmpty_iff, beq_iff_eq] at hcond
      obtain ⟨h1, h2⟩ := hcond
      subst h1; subst h2
      exact ⟨by simp [limbs_value], rfl, hacc⟩
    · have hr0 : rs.headD 0 < BASE := headD_lt rs hrs
      have hcur64 : d + li * rs.headD 0 + c < 18446744073709551616 := by
        unfold BASE at *
        have : li * rs.headD 0 ≤ 4294967295 * 4294967295 :=
          Nat.mul_le_mul (by omega) (by omega)
        omega
      rw [Nat.mod_eq_of_lt hcur64]
      set cur := d + li * rs.headD 0 + c with hcur
      have hcarry : cur / BASE < BASE := by
        apply Nat.div_lt_of_lt_mul
        unfold BASE at *
        omega
      have hsplit := limbs_value_headD_tail rs
      simp only [limbs_value, List.length_cons, pow_succ] at hfit
      have hfit2 : limbs_value acc + li * limbs_value rs.tail + cur / BASE < BASE ^ acc.length := by
        have h1 : cur + BASE * (limbs_value acc + li * limbs_value rs.tail)
            < BASE * BASE ^ acc.length := by
          rw [hsplit] at hfit
          rw [hcur]
          nlinarith
        have h2 : (cur + BASE * (limbs_value acc + li * limbs_value rs.tail)) / BASE
            < BASE ^ acc.length := Nat.div_lt_of_lt_mul h1
        rw [Nat.add_mul_div_left _ _ BASE_pos] at h2
        omega
      obtain ⟨ihv, ihl, ihw⟩ := ih rs.tail (cur / BASE) hacc2 (tail_lt rs hrs) hcarry hfit2
      refine ⟨?_, by simp [ihl], ?_⟩
      · simp only [limbs_value, ihv]
        have hmd := Nat.mod_add_div cur BASE
        rw [hsplit]
        have : d + BASE * limbs_value acc + li * (rs.headD 0 + BASE * limbs_value rs.tail) + c
            = cur + BASE * (limbs_value acc + li * limbs_value rs.tail) := by
          rw [hcur]; ring
        rw [this]
        nlinarith
      · intro e he
        rcases List.mem_cons.mp he with rfl | he
        · exact Nat.mod_lt _ BASE_pos
        · exact ihw e he

/-- The double loop of `operator*=`: provided the total fits the buffer, it adds
the product `ls * right` to it. -/
theorem mul_outer_spec (right ls acc : List Nat)
    (hls : ∀ d ∈ ls, d < BASE) (hacc : ∀ d ∈ acc, d < BASE) (hr : ∀ d ∈ right, d < BASE)
    (hfit : limbs_value acc + limbs_value ls * limbs_value right < BASE ^ acc.length) :
    limbs_value (mul_outer right ls acc) = limbs_value acc + limbs_value ls * limbs_value right ∧
      ∀ d ∈ mul_outer right ls acc, d < BASE := by
  induction ls generalizing acc with
  | nil => exact ⟨by simp [mul_outer, limbs_value], hacc⟩
  | cons li ls ih =>
    have hli : li < BASE := hls li (List.mem_cons_self _ _)
    have hls2 : ∀ e ∈ ls, e < BASE := fun e he => hls e (List.mem_cons_of_mem _ he)
    simp only [limbs_value] at hfit ⊢
    have hfit1 : limbs_value acc + li * limbs_value right + 0 < BASE ^ acc.length := by
      have : li * limbs_value right ≤ (li + BASE * limbs_value ls) * limbs_value right :=
        Nat.mul_le_mul_right _ (Nat.le_add_right _ _)
      omega
    obtain ⟨hv, hl, hw⟩ := mul_inner_spec li acc right 0 hli hacc hr BASE_pos hfit1
    unfold mul_outer
    cases hrow : mul_inner li acc right 0 with
    | nil =>
      rw [hrow] at hl hv
      have hacc0 : acc = [] := List.length_eq_zero.mp hl.symm
      subst hacc0
      simp only [limbs_value, List.length_nil, pow_zero, zero_add] at hfit ⊢
      refine ⟨?_, by simp⟩
      omega
    | cons d rest =>
      rw [hrow] at hl hv hw
      simp only [limbs_value, add_zero] at hv
      have hrest : ∀ e ∈ rest, e < BASE := fun e he => hw e (List.mem_cons_of_mem _ he)
      have hd : d < BASE := hw d (List.mem_cons_self _ _)
      have hlen : acc.length = rest.length + 1 := by simpa using hl.symm
      rw [hlen, pow_succ] at hfit
      have hfit2 : limbs_value rest + limbs_value ls * limbs_value right < BASE ^ rest.length := by
        have h1 : d + BASE * (limbs_value rest + limbs_value ls * limbs_value right)
            < BASE * BASE ^ rest.length := by nlinarith
        have h2 : (d + BASE * (limbs_value rest + limbs_value ls * limbs_value right)) / BASE
            < BASE ^ rest.length := Nat.div_lt_of_lt_mul h1
        rw [Nat.add_mul_div_left _ _ BASE_pos, Nat.div_eq_of_lt hd] at h2
        omega
      obtain ⟨ihv, ihw⟩ := ih rest hls2 hrest hfit2
      refine ⟨?_, ?_⟩
      · simp only [limbs_value, ihv]
        nlinarith
      · intro e he
        rcases List.mem_cons.mp he with rfl | he
        · exact hd
        · exact ihw e he

end big_integer

/-! ## Uniqueness of the canonical form -/

theorem limbs_eq_of_value_eq (xs ys : List Nat)
    (hx : ∀ d ∈ xs, d < BASE) (hy : ∀ d ∈ ys, d < BASE)
    (hxl : xs.getLast? ≠ some 0) (hyl : ys.getLast? ≠ some 0)
    (h : limbs_value xs = limbs_value ys) : xs = ys := by
  have nil_of_zero : ∀ zs : List Nat, zs.getLast? ≠ some 0 → limbs_value zs = 0 → zs = [] := by
    intro zs hl hz
    cases hg : zs.getLast? with
    | none => exact List.getLast?_eq_none_iff.mp hg
    | some d =>
      have hd : d = 0 := limbs_value_eq_zero zs hz d (List.mem_of_mem_getLast? hg)
      rw [hg, hd] at hl
      exact absurd rfl hl
  have last_tail : ∀ (z : Nat) (zs : List Nat), (z :: zs).getLast? ≠ some 0 →
      zs.getLast? ≠ some 0 := by
    intro z zs hl
    cases zs with
    | nil => simp
    | cons w ws => simpa [List.getLast?_cons_cons] using hl
  induction xs generalizing ys with
  | nil =>
    simp only [limbs_value] at h
    exact (nil_of_zero ys hyl h.symm).symm
  | cons x xs ih =>
    cases ys with
    | nil =>
      simp only [limbs_value] at h
      exact nil_of_zero (x :: xs) hxl h
    | cons y ys =>
      have hxb : x < BASE := hx x (List.mem_cons_self _ _)
      have hyb : y < BASE := hy y (List.mem_cons_self _ _)
      simp only [limbs_value] at h
      have h1 : x = y := by
        have := congrArg (· % BASE) h
        simp only [Nat.add_mul_mod_self_left] at this
        rwa [Nat.mod_eq_of_lt hxb, Nat.mod_eq_of_lt hyb] at this
      have h2 : limbs_value xs = limbs_value ys := by
        subst h1
        have hB := BASE_pos
        have : BASE * limbs_value xs = BASE * limbs_value ys := by omega
        exact Nat.eq_of_mul_eq_mul_left hB this
      rw [h1, ih ys (fun d hd => hx d (List.mem_cons_of_mem _ hd))
        (fun d hd => hy d (List.mem_cons_of_mem _ hd)) (last_tail x xs hxl) (last_tail y ys hyl) h2]

namespace big_integer

theorem inplace_tilda_inplace_tilda (a : big_integer) (hwf : a.well_formed) :
    inplace_tilda (inplace_tilda a) = a := by
  obtain ⟨ds, s⟩ := a
  simp only [inplace_tilda, List.map_map, Bool.not_not, mk.injEq, and_true]
  have : ∀ d ∈ ds, (not32 ∘ not32) d = id d := fun d hd => not32_not32 d (hwf d hd)
  rw [List.map_congr_left this]
  simp

/-- A canonical value is determined by the integer it represents. -/
theorem canonical_eq_of_value_eq (a b : big_integer) (ha : a.canonical) (hb : b.canonical)
    (h : a.value = b.value) : a = b := by
  have hsign : a._is_negative = b._is_negative := by
    have h1 := is_negative_iff a ha.1
    have h2 := is_negative_iff b hb.1
    rw [h] at h1
    exact Bool.eq_iff_iff.mpr (h1.trans h2.symm)
  cases hs : a._is_negative
  · obtain ⟨xs, s⟩ := a
    obtain ⟨ys, t⟩ := b
    simp only at hs hsign
    subst hs; subst hsign
    simp only [value, Bool.false_eq_true, if_false, sub_zero, Nat.cast_inj] at h
    have := limbs_eq_of_value_eq xs ys ha.1 hb.1 ha.2 hb.2 h
    rw [this]
  · have hta := inplace_tilda_canonical a ha
    have htb := inplace_tilda_canonical b hb
    have hv : (inplace_tilda a).value = (inplace_tilda b).value := by
      rw [inplace_tilda_value a ha.1, inplace_tilda_value b hb.1, h]
    have hsb : b._is_negative = true := by rw [← hsign, hs]
    have hna : (inplace_tilda a)._is_negative = false := by simp [inplace_tilda, hs]
    have hnb : (inplace_tilda b)._is_negative = false := by simp [inplace_tilda, hsb]
    have heq : inplace_tilda a = inplace_tilda b := by
      generalize inplace_tilda a = ta at *
      generalize inplace_tilda b = tb at *
      obtain ⟨xs, s⟩ := ta
      obtain ⟨ys, t⟩ := tb
      simp only at hna hnb
      subst hna; subst hnb
      simp only [value, Bool.false_eq_true, if_false, sub_zero, Nat.cast_inj] at hv
      have := limbs_eq_of_value_eq xs ys hta.1 htb.1 hta.2 htb.2 hv
      rw [this]
    rw [← inplace_tilda_inplace_tilda a ha.1, ← inplace_tilda_inplace_tilda b hb.1, heq]

theorem operator_eq_iff (a b : big_integer) : operator_eq a b = true ↔ a = b := by
  obtain ⟨xs, s⟩ := a
  obtain ⟨ys, t⟩ := b
  simp only [operator_eq, Bool.and_eq_true, beq_iff_eq, mk.injEq]
  exact ⟨fun h => ⟨h.2, h.1⟩, fun h => ⟨h.2, h.1⟩⟩

/-- The product computed by `operator*=` is exact and canonical. -/
theorem operator_mul_value (a b : big_integer) (ha : a.canonical) (hb : b.canonical) :
    (operator_mul a b).value = a.value * b.value ∧ (operator_mul a b).canonical := by
  unfold operator_mul
  split
  · next hz =>
    refine ⟨?_, by decide⟩
    simp only [Bool.or_eq_true] at hz
    rcases hz with hz | hz
    · rw [check_for_zero_value a hz]; simp [make_zero, value, limbs_value]
    · rw [check_for_zero_value b hz]; simp [make_zero, value, limbs_value]
  · obtain ⟨hav, hac, han⟩ := abs_value a ha
    obtain ⟨hbv, hbc, hbn⟩ := abs_value b hb
    have hL : (limbs_value a.abs._digits : Int) = |a.value| := by
      rw [← hav]; simp [value, han]
    have hR : (limbs_value b.abs._digits : Int) = |b.value| := by
      rw [← hbv]; simp [value, hbn]
    have hLlt := limbs_value_lt a.abs._digits hac.1
    have hRlt := limbs_value_lt b.abs._digits hbc.1
    have hbuf : ∀ d ∈ List.replicate (a.abs._digits.length + b.abs._digits.length + 1) 0,
        d < BASE := by
      intro d hd
      rw [(List.mem_replicate.mp hd).2]
      exact BASE_pos
    have hfit : limbs_value (List.replicate (a.abs._digits.length + b.abs._digits.length + 1) 0)
        + limbs_value a.abs._digits * limbs_value b.abs._digits
        < BASE ^ (List.replicate (a.abs._digits.length + b.abs._digits.length + 1) 0).length := by
      rw [limbs_value_replicate_zero, List.length_replicate, zero_add, pow_succ, pow_add]
      have hB := BASE_pos
      have h1 : limbs_value a.abs._digits * limbs_value b.abs._digits
          < BASE ^ a.abs._digits.length * BASE ^ b.abs._digits.length :=
        Nat.mul_lt_mul'' hLlt hRlt
      have h2 : BASE ^ a.abs._digits.length * BASE ^ b.abs._digits.length * 1
          ≤ BASE ^ a.abs._digits.length * BASE ^ b.abs._digits.length * BASE :=
        Nat.mul_le_mul_left _ hB
      omega
    obtain ⟨hv, hw⟩ := mul_outer_spec b.abs._digits a.abs._digits _ hac.1 hbuf hbc.1 hfit
    rw [limbs_value_replicate_zero, zero_add] at hv
    set out := mul_outer b.abs._digits a.abs._digits
      (List.replicate (a.abs._digits.length + b.abs._digits.length + 1) 0) with hout
    have htv : (⟨out, false⟩ : big_integer).value = |a.value| * |b.value| := by
      have : (⟨out, false⟩ : big_integer).value = (limbs_value out : Int) := by
        simp [value]
      rw [this, hv]
      push_cast
      rw [hL, hR]
    have htw : (⟨out, false⟩ : big_integer).well_formed := hw
    have hna := is_negative_iff a ha.1
    have hnb := is_negative_iff b hb.1
    simp only []
    split
    · next hsign =>
      obtain ⟨hmv, hmc⟩ := inplace_minus_value ⟨out, false⟩ htw
      refine ⟨?_, clear_zeros_canonical _ hmc.1⟩
      rw [clear_zeros_value, hmv, htv]
      cases hsa : a._is_negative <;> cases hsb : b._is_negative <;> simp [hsa, hsb] at hsign
      · have h1 : ¬ a.value < 0 := fun hc => by simpa [hsa] using hna.mpr hc
        have h2 : b.value < 0 := hnb.mp hsb
        rw [abs_of_nonneg (not_lt.mp h1), abs_of_neg h2]; ring
      · have h1 : a.value < 0 := hna.mp hsa
        have h2 : ¬ b.value < 0 := fun hc => by simpa [hsb] using hnb.mpr hc
        rw [abs_of_neg h1, abs_of_nonneg (not_lt.mp h2)]; ring
    · next hsign =>
      refine ⟨?_, clear_zeros_canonical _ htw⟩
      rw [clear_zeros_value, htv]
      cases hsa : a._is_negative <;> cases hsb : b._is_negative <;> simp [hsa, hsb] at hsign
      · have h1 : ¬ a.value < 0 := fun hc => by simpa [hsa] using hna.mpr hc
        have h2 : ¬ b.value < 0 := fun hc => by simpa [hsb] using hnb.mpr hc
        rw [abs_of_nonneg (not_lt.mp h1), abs_of_nonneg (not_lt.mp h2)]
      · have h1 : a.value < 0 := hna.mp hsa
        have h2 : b.value < 0 := hnb.mp hsb
        rw [abs_of_neg h1, abs_of_neg h2]; ring

end big_integer

/-! ## Sign of the remainder returned by `cool_division` -/

namespace big_integer

theorem subadd_loop_lt (plus : Bool) (rne : Nat) (ds rs : List Nat) (carry : Nat) :
    ∀ d ∈ subadd_loop plus rne ds rs carry, d < BASE := by
  induction ds generalizing rs carry with
  | nil => simp [subadd_loop]
  | cons d ds ih =>
    intro e he
    simp only [subadd_loop, List.mem_cons] at he
    rcases he with rfl | he
    · exact Nat.mod_lt _ BASE_pos
    · exact ih _ _ e he

theorem small_add_well_formed (a : big_integer) (plus : Bool) (x : Nat) :
    (small_add a plus x).well_formed :=
  clear_zeros_well_formed _ (small_add_loop_lt _ _ _ _)

theorem subadd_well_formed (a : big_integer) (plus : Bool) (rhs : big_integer) :
    (subadd a plus rhs).well_formed := by
  unfold subadd
  split
  · exact small_add_well_formed _ _ _
  · exact clear_zeros_well_formed _ (subadd_loop_lt _ _ _ _ _)

theorem operator_lt_zero_false (a : big_integer) (h : operator_lt a (of_long_long 0) = false) :
    a._is_negative = false := by
  cases hs : a._is_negative
  · rfl
  · have h0 : (of_long_long 0)._is_negative = false := by decide
    simp [operator_lt, hs, h0] at h

theorem correction_ok (fuel : Nat) (this multiplier : big_integer) (q : Nat)
    (r : big_integer × Nat) (hwf : this.well_formed)
    (h : correction fuel this multiplier q = .ok r) :
    r.1.well_formed ∧ r.1._is_negative = false := by
  induction fuel generalizing this q with
  | zero =>
    unfold correction at h
    split at h
    · cases h
    · next hlt =>
      cases h
      exact ⟨hwf, operator_lt_zero_false this (by simpa using hlt)⟩
  | succ fuel ih =>
    unfold correction at h
    split at h
    · exact ih _ _ (subadd_well_formed _ _ _) h
    · next hlt =>
      cases h
      exact ⟨hwf, operator_lt_zero_false this (by simpa using hlt)⟩

theorem division_loop_ok (fuel n btop : Nat) (i : Nat) (s s1 : div_state)
    (hwf : s.this.well_formed) (hneg : s.this._is_negative = false)
    (h : division_loop fuel n btop i s = .ok s1) :
    s1.this.well_formed ∧ s1.this._is_negative = false := by
  induction i generalizing s with
  | zero =>
    unfold division_loop at h
    cases h
    exact ⟨hwf, hneg⟩
  | succ i ih =>
    unfold division_loop at h
    simp only [] at h
    split at h
    · cases h
    · next r hr =>
      have hthis1 : (if min ((s.this.get_or_default (n + i) 0 * BASE +
            s.this.get_or_default (to_size_t ((n : Int) + (i : Int) - 1)) 0) %
            18446744073709551616 / btop) (BASE - 1) ≠ 0
          then operator_sub s.this (small_mul s.multiplier
            (min ((s.this.get_or_default (n + i) 0 * BASE +
            s.this.get_or_default (to_size_t ((n : Int) + (i : Int) - 1)) 0) %
            18446744073709551616 / btop) (BASE - 1)))
          else s.this).well_formed := by
        split
        · exact subadd_well_formed _ _ _
        · exact hwf
      obtain ⟨h1, h2⟩ := correction_ok _ _ _ _ r hthis1 hr
      exact ih _ h1 h2 h

end big_integer

namespace big_integer

theorem shl_loop_lt (modulo : Nat) (ds : List Nat) (remainder : Nat) :
    ∀ d ∈ shl_loop modulo ds remainder, d < BASE := by
  induction ds generalizing remainder with
  | nil => simp [shl_loop]
  | cons d ds ih =>
    intro e he
    simp only [shl_loop, List.mem_cons] at he
    rcases he with rfl | he
    · exact Nat.mod_lt _ BASE_pos
    · exact ih _ e he

theorem operator_shl_ok (a r : big_integer) (rhs : Int) (hwf : a.well_formed)
    (h : operator_shl a rhs = .ok r) :
    r.well_formed ∧ r._is_negative = a._is_negative := by
  unfold operator_shl at h
  split at h
  · cases h
    exact ⟨hwf, rfl⟩
  · simp only [] at h
    split at h
    · cases h
    · cases h
      exact ⟨clear_zeros_well_formed _ (shl_loop_lt _ _ _), rfl⟩

theorem inplace_abs_ok (a : big_integer) (hwf : a.well_formed) :
    (inplace_abs a).well_formed ∧ (inplace_abs a)._is_negative = false := by
  unfold inplace_abs
  split
  · next hs =>
    have hwt : (⟨a._digits.map not32, !a._is_negative⟩ : big_integer).well_formed :=
      inplace_tilda_well_formed a
    obtain ⟨hv, hc⟩ := small_add_plus_value ⟨a._digits.map not32, !a._is_negative⟩ 1 hwt
      (by decide) (Or.inr (by decide))
    refine ⟨hc.1, ?_⟩
    cases hb : (small_add ⟨a._digits.map not32, !a._is_negative⟩ true 1)._is_negative
    · rfl
    · have hlt := (is_negative_iff _ hc.1).mp hb
      rw [hv] at hlt
      have h0 : (0 : Int) ≤ (⟨a._digits.map not32, !a._is_negative⟩ : big_integer).value := by
        simp only [value, hs, Bool.not_true, Bool.false_eq_true, if_false, sub_zero]
        exact Int.natCast_nonneg _
      push_cast at hlt
      linarith
  · next hs =>
    exact ⟨hwf, by simpa using hs⟩

theorem inplace_abs_of_nonneg (a : big_integer) (h : a._is_negative = false) :
    inplace_abs a = a := by
  simp [inplace_abs, h]

theorem small_div_loop_lt (x count : Nat) (ds : List Nat) (hwf : ∀ d ∈ ds, d < BASE) :
    ∀ d ∈ (small_div_loop x count ds).1, d < BASE := by
  induction ds generalizing count with
  | nil => cases count <;> simp [small_div_loop]
  | cons d ds ih =>
    cases count with
    | zero => simpa [small_div_loop] using hwf
    | succ count =>
      intro e he
      simp only [small_div_loop, List.mem_cons] at he
      rcases he with rfl | he
      · exact Nat.mod_lt _ BASE_pos
      · exact ih count (fun e he => hwf e (List.mem_cons_of_mem _ he)) e he

theorem small_div_core_ok (a : big_integer) (x : Nat) (hwf : a.well_formed)
    (hneg : a._is_negative = false) :
    (small_div_core a x).1.well_formed ∧ (small_div_core a x).1._is_negative = false := by
  unfold small_div_core
  simp only [inplace_abs_of_nonneg a hneg, hneg, Bool.false_eq_true, if_false]
  exact ⟨clear_zeros_well_formed _ (small_div_loop_lt _ _ _ hwf), rfl⟩

theorem operator_shr_ok (a : big_integer) (rhs : Nat) (hwf : a.well_formed)
    (hneg : a._is_negative = false) :
    (operator_shr a rhs).well_formed ∧ (operator_shr a rhs)._is_negative = false := by
  unfold operator_shr
  split
  · exact ⟨hwf, hneg⟩
  · simp only [inplace_abs_of_nonneg a hneg, hneg, Bool.false_eq_true, if_false]
    obtain ⟨h1, h2⟩ := small_div_core_ok a (2 ^ (rhs % 32)) hwf hneg
    split
    · exact ⟨clear_zeros_well_formed _ (by intro d hd; simp at hd), h2⟩
    · refine ⟨clear_zeros_well_formed _ ?_, h2⟩
      intro d hd
      exact h1 d (List.mem_of_mem_drop hd)

theorem value_nonneg_of_flag (a : big_integer) (h : a._is_negative = false) : 0 ≤ a.value := by
  simp only [value, h, Bool.false_eq_true, if_false, sub_zero]
  exact Int.natCast_nonneg _

theorem check_for_zero_of_value (a : big_integer) (hc : a.canonical) (h : a.value = 0) :
    a.check_for_zero = true := by
  have hz : (⟨[], false⟩ : big_integer).canonical := by decide
  have : a = ⟨[], false⟩ := canonical_eq_of_value_eq a _ hc hz (by rw [h]; rfl)
  rw [this]
  rfl

/-- Whenever `cool_division(false, rhs)` returns a value for a canonical receiver,
the remainder is zero or has the sign of the receiver. -/
theorem cool_division_remainder_sign (fuel : Nat) (a rhs r : big_integer) (ha : a.canonical)
    (h : cool_division fuel a false rhs = .ok r) :
    r.value = 0 ∨ (0 < r.value ∧ 0 < a.value) ∨ (r.value < 0 ∧ a.value < 0) := by
  have hself : a.value = 0 ∨ (0 < a.value ∧ 0 < a.value) ∨ (a.value < 0 ∧ a.value < 0) := by
    rcases lt_trichotomy a.value 0 with h1 | h1 | h1
    · exact Or.inr (Or.inr ⟨h1, h1⟩)
    · exact Or.inl h1
    · exact Or.inr (Or.inl ⟨h1, h1⟩)
  unfold cool_division at h
  split at h
  · cases h
  split at h
  · cases h; exact hself
  split at h
  · cases h; exact Or.inl rfl
  split at h
  · cases h; exact hself
  next hz0 hza _ _ =>
  simp only [] at h
  split at h
  · cases h
  · cases h
  next a1 b hsha hshb =>
  split at h
  · cases h
  split at h
  · cases h
  split at h
  · cases h
  next s hs =>
  simp only [Bool.false_eq_true, if_false] at h
  cases h
  obtain ⟨habs1, habs2⟩ := inplace_abs_ok a ha.1
  obtain ⟨ha1w, ha1n⟩ := operator_shl_ok _ _ _ habs1 hsha
  rw [habs2] at ha1n
  obtain ⟨hsw, hsn⟩ := division_loop_ok _ _ _ _ _ s ha1w ha1n hs
  obtain ⟨htw, htn⟩ := operator_shr_ok s.this
    (base_loop (rhs.abs._digits.getLastD 0) 32) hsw hsn
  have ht0 := value_nonneg_of_flag _ htn
  have hneg := is_negative_iff a ha.1
  split
  · next hsign =>
    obtain ⟨hmv, _⟩ := inplace_minus_value _ htw
    rw [hmv]
    have hlt := hneg.mp hsign
    rcases eq_or_lt_of_le ht0 with h0 | h0
    · left; rw [← h0]; simp
    · right; right
      exact ⟨by linarith, hlt⟩
  · next hsign =>
    have ha0 : 0 ≤ a.value := by
      by_contra hc
      exact hsign (hneg.mpr (not_le.mp hc))
    have hane : a.value ≠ 0 := by
      intro hc
      have := check_for_zero_of_value a ha hc
      exact hza this
    rcases eq_or_lt_of_le ht0 with h0 | h0
    · left; exact h0.symm
    · right; left
      exact ⟨h0, lt_of_le_of_ne ha0 (Ne.symm hane)⟩

end big_integer

/-! ## The string constructor accepts exactly `-?[0-9]+` -/

namespace big_integer

theorem parse_loop_ok (sign : Bool) (cs : List Char) (v : big_integer) (block pow : Nat)
    (h : cs.all Char.isDigit = true) : ∃ r, parse_loop sign cs v block pow = .ok r := by
  induction cs generalizing v block pow with
  | nil => exact ⟨_, rfl⟩
  | cons c cs ih =>
    simp only [List.all_cons, Bool.and_eq_true] at h
    unfold parse_loop
    simp only [h.1, Bool.not_true, Bool.false_eq_true, if_false]
    split
    · exact ih _ _ _ h.2
    · exact ih _ _ _ h.2

theorem parse_loop_error (sign : Bool) (cs : List Char) (v : big_integer) (block pow : Nat)
    (h : cs.all Char.isDigit = false) :
    parse_loop sign cs v block pow = .error .invalid_argument := by
  induction cs generalizing v block pow with
  | nil => simp at h
  | cons c cs ih =>
    unfold parse_loop
    cases hc : c.isDigit
    · simp
    · simp only [List.all_cons, hc, Bool.true_and] at h
      simp only [Bool.not_true, Bool.false_eq_true, if_false]
      split
      · exact ih _ _ _ h
      · exact ih _ _ _ h

theorem of_string_ok (s : List Char) (h : matches_decimal s = true) :
    ∃ v, of_string s = .ok v := by
  cases s with
  | nil => simp [matches_decimal] at h
  | cons c rest =>
    by_cases hc : c = '-'
    · subst hc
      simp only [matches_decimal, Bool.and_eq_true, Bool.not_eq_true', List.isEmpty_eq_false] at h
      obtain ⟨hne, hall⟩ := h
      cases rest with
      | nil => exact absurd rfl hne
      | cons d rest2 =>
        have : of_string ('-' :: d :: rest2)
            = parse_loop true (d :: rest2) ⟨[], false⟩ 0 1 := by
          simp [of_string]
        rw [this]
        exact parse_loop_ok _ _ _ _ _ hall
    · have hm : matches_decimal (c :: rest) = (c :: rest).all Char.isDigit := by
        unfold matches_decimal
        split
        · next heq => simp only [List.cons.injEq] at heq; exact absurd heq.1 hc
        · simp
      rw [hm] at h
      have : of_string (c :: rest) = parse_loop false (c :: rest) ⟨[], false⟩ 0 1 := by
        have hb : (c == '-') = false := by simpa using hc
        simp [of_string, hb]
      rw [this]
      exact parse_loop_ok _ _ _ _ _ h

theorem of_string_error (s : List Char) (h : matches_decimal s = false) :
    of_string s = .error .invalid_argument := by
  cases s with
  | nil => rfl
  | cons c rest =>
    by_cases hc : c = '-'
    · subst hc
      cases rest with
      | nil => rfl
      | cons d rest2 =>
        simp only [matches_decimal, List.isEmpty_cons, Bool.not_false, Bool.true_and] at h
        have : of_string ('-' :: d :: rest2)
            = parse_loop true (d :: rest2) ⟨[], false⟩ 0 1 := by
          simp [of_string]
        rw [this]
        exact parse_loop_error _ _ _ _ _ h
    · have hm : matches_decimal (c :: rest) = (c :: rest).all Char.isDigit := by
        unfold matches_decimal
        split
        · next heq => simp only [List.cons.injEq] at heq; exact absurd heq.1 hc
        · simp
      rw [hm] at h
      have : of_string (c :: rest) = parse_loop false (c :: rest) ⟨[], false⟩ 0 1 := by
        have hb : (c == '-') = false := by simpa using hc
        simp [of_string, hb]
      rw [this]
      exact parse_loop_error _ _ _ _ _ h

theorem subadd_eq_general (a : big_integer) (plus : Bool) (rhs : big_integer)
    (h : ¬ (rhs._digits.length = 1 ∧ rhs._is_negative = false)) :
    subadd a plus rhs = subadd_general a plus rhs := by
  unfold subadd subadd_general
  rw [if_neg h]

end big_integer

/-! ## The carry loops in general: addition and subtraction -/

namespace big_integer

theorem subadd_loop_length (plus : Bool) (rne : Nat) (ds rs : List Nat) (carry : Nat) :
    (subadd_loop plus rne ds rs carry).length = ds.length := by
  induction ds generalizing rs carry with
  | nil => rfl
  | cons d ds ih => simp [subadd_loop, ih]

theorem subadd_loop_false (rne : Nat) (ds rs : List Nat) (carry : Nat) :
    subadd_loop false rne ds rs carry
      = subadd_loop true (not32 rne) ds (rs.map not32) carry := by
  induction ds generalizing rs carry with
  | nil => rfl
  | cons d ds ih =>
    have hh : (rs.map not32).headD (not32 rne) = not32 (rs.headD rne) := by
      cases rs <;> rfl
    have ht : (rs.map not32).tail = rs.tail.map not32 := by
      cases rs <;> rfl
    simp only [subadd_loop, Bool.false_eq_true, if_false, if_true, hh, ht, ih]

theorem small_add_loop_true (ds : List Nat) (digit carry : Nat) :
    small_add_loop true ds digit carry = subadd_loop true 0 ds [digit] carry := by
  cases ds with
  | nil => rfl
  | cons d ds =>
    have aux : ∀ (es : List Nat) (c : Nat),
        small_add_loop true es 0 c = subadd_loop true 0 es [] c := by
      intro es
      induction es with
      | nil => intro c; rfl
      | cons e es ih =>
        intro c
        simp only [small_add_loop, subadd_loop, if_true, List.headD_nil, List.tail_nil, ih]
    simp only [small_add_loop, subadd_loop, if_true, List.headD_cons, List.tail_cons, aux]

theorem small_add_loop_false (ds : List Nat) (digit carry : Nat) :
    small_add_loop false ds digit carry
      = subadd_loop true 4294967295 ds [not32 digit] carry := by
  cases ds with
  | nil => rfl
  | cons d ds =>
    have aux : ∀ (es : List Nat) (c : Nat),
        small_add_loop false es 0 c = subadd_loop true 4294967295 es [] c := by
      intro es
      induction es with
      | nil => intro c; rfl
      | cons e es ih =>
        intro c
        simp only [small_add_loop, subadd_loop, if_true, List.headD_nil, List.tail_nil, ih,
          Bool.false_eq_true, if_false]
        rfl
    simp only [small_add_loop, subadd_loop, if_true, List.headD_cons, List.tail_cons, aux,
      Bool.false_eq_true, if_false]

theorem subadd_loop_true_value (rne : Nat) (ds rs : List Nat) (carry : Nat) :
    limbs_value (subadd_loop true rne ds rs carry) =
      (limbs_value ds + ext_value rne ds.length rs + carry) % BASE ^ ds.length := by
  induction ds generalizing rs carry with
  | nil => simp [subadd_loop, limbs_value, Nat.mod_one]
  | cons d ds ih =>
    simp only [subadd_loop, limbs_value, if_true, ih, List.length_cons, ext_value]
    rw [pow_succ, mul_comm (BASE ^ ds.length) BASE, Nat.mod_mul]
    have hsum : d + BASE * limbs_value ds + (rs.headD rne + BASE * ext_value rne ds.length rs.tail)
        + carry = (d + carry + rs.headD rne)
          + BASE * (limbs_value ds + ext_value rne ds.length rs.tail) := by ring
    have h1 : (d + BASE * limbs_value ds + (rs.headD rne + BASE * ext_value rne ds.length rs.tail)
        + carry) % BASE = (d + carry + rs.headD rne) % BASE := by
      rw [hsum]
      exact Nat.add_mul_mod_self_left _ _ _
    have h2 : (d + BASE * limbs_value ds + (rs.headD rne + BASE * ext_value rne ds.length rs.tail)
        + carry) / BASE
        = limbs_value ds + ext_value rne ds.length rs.tail + (d + carry + rs.headD rne) / BASE := by
      rw [hsum, Nat.add_mul_div_left _ _ BASE_pos]
      ring
    rw [h1, h2]

/-- Sign extension: the first `n` limbs of a value continued by its neutral
element represent the same integer modulo `BASE ^ n`. -/
theorem ext_value_neutral (s : Bool) (n : Nat) (rs : List Nat) (hn : rs.length ≤ n) :
    (ext_value (if s then 4294967295 else 0) n rs : Int)
      = value ⟨rs, s⟩ + (if s then (BASE : Int) ^ n else 0) := by
  induction n generalizing rs with
  | zero =>
    have : rs = [] := List.length_eq_zero.mp (Nat.le_zero.mp hn)
    subst this
    cases s <;> simp [ext_value, value, limbs_value]
  | succ n ih =>
    cases rs with
    | nil =>
      have h := ih [] (Nat.zero_le _)
      simp only [ext_value, List.headD_nil, List.tail_nil]
      push_cast
      rw [h]
      cases s
      · simp [value, limbs_value]
      · simp only [value, limbs_value, if_true, List.length_nil, pow_zero, pow_succ]
        have hB : (BASE : Int) = 4294967296 := rfl
        rw [hB]
        push_cast
        ring
    | cons r t =>
      have h := ih t (Nat.le_of_succ_le_succ hn)
      simp only [ext_value, List.headD_cons, List.tail_cons]
      push_cast
      rw [h]
      cases s
      · simp only [value, limbs_value, Bool.false_eq_true, if_false]
        push_cast
        ring
      · simp only [value, limbs_value, if_true, List.length_cons, pow_succ]
        push_cast
        ring

theorem ext_value_int (t : big_integer) (n : Nat) (hn : t._digits.length ≤ n) :
    (ext_value t.neutral_element n t._digits : Int)
      = t.value + (if t._is_negative then (BASE : Int) ^ n else 0) :=
  ext_value_neutral t._is_negative n t._digits hn

theorem limbs_value_append_replicate (k : Nat) (l : List Nat) (ne : Nat) :
    limbs_value (l ++ List.replicate k ne) = ext_value ne (l.length + k) l := by
  induction l with
  | nil =>
    induction k with
    | zero => rfl
    | succ k ihk =>
      simp only [List.nil_append, List.length_nil, zero_add] at ihk ⊢
      simp only [List.replicate_succ, limbs_value, ext_value, List.headD_nil,
        List.tail_nil, ihk]
  | cons x l ih =>
    show x + BASE * limbs_value (l ++ List.replicate k ne) = _
    rw [ih, show (x :: l).length + k = (l.length + k) + 1 by simp; omega]
    simp only [ext_value, List.headD_cons, List.tail_cons]

theorem value_lt_pow (a : big_integer) (hwf : a.well_formed) :
    a.value < (BASE : Int) ^ a._digits.length ∧ -((BASE : Int) ^ a._digits.length) ≤ a.value := by
  have h := limbs_value_lt a._digits hwf
  have hI : (limbs_value a._digits : Int) < (BASE : Int) ^ a._digits.length := by exact_mod_cast h
  have h0 : (0 : Int) ≤ (limbs_value a._digits : Int) := Int.natCast_nonneg _
  have hP : (0 : Int) ≤ (BASE : Int) ^ a._digits.length := by positivity
  unfold value
  split <;> constructor <;> linarith

theorem BASE_pow_mono (m n : Nat) (h : m ≤ n) : (BASE : Int) ^ m ≤ (BASE : Int) ^ n := by
  have := Nat.pow_le_pow_right BASE_pos h
  exact_mod_cast this

/-- The common core of `small_add` and `subadd`: adding the limbs of `t` (read with
its neutral fill) and a carry-in to the limbs of `a` extended to `n` limbs gives
`a + t + carry` exactly, provided that sum lies in the signed range of `n` limbs. -/
theorem add_core_value (a t : big_integer) (n c : Nat)
    (hla : a._digits.length ≤ n) (hlt : t._digits.length ≤ n) (hn : 0 < n)
    (hlo : -((BASE : Int) ^ n) ≤ 2 * (a.value + t.value + c))
    (hhi : 2 * (a.value + t.value + c) < (BASE : Int) ^ n) :
    (clear_zeros ⟨subadd_loop true t.neutral_element
        (a._digits ++ List.replicate (n - a._digits.length) a.neutral_element) t._digits c,
      check_bit ⟨subadd_loop true t.neutral_element
        (a._digits ++ List.replicate (n - a._digits.length) a.neutral_element) t._digits c,
        a._is_negative⟩⟩).value = a.value + t.value + c ∧
    (clear_zeros ⟨subadd_loop true t.neutral_element
        (a._digits ++ List.replicate (n - a._digits.length) a.neutral_element) t._digits c,
      check_bit ⟨subadd_loop true t.neutral_element
        (a._digits ++ List.replicate (n - a._digits.length) a.neutral_element) t._digits c,
        a._is_negative⟩⟩).canonical := by
  set ext := a._digits ++ List.replicate (n - a._digits.length) a.neutral_element with hext
  set out := subadd_loop true t.neutral_element ext t._digits c with hout
  have hextlen : ext.length = n := by
    rw [hext, List.length_append, List.length_replicate]; omega
  have hlen : out.length = n := by rw [hout, subadd_loop_length, hextlen]
  have hwfo : ∀ d ∈ out, d < BASE := subadd_loop_lt _ _ _ _ _
  have hne : out ≠ [] := by
    intro h; rw [h] at hlen; simp at hlen; omega
  refine ⟨?_, clear_zeros_canonical _ hwfo⟩
  rw [clear_zeros_value]
  apply value_of_check_bit out a._is_negative _ hwfo hne
  · rw [hlen]; exact hlo
  · rw [hlen]; exact hhi
  · rw [hlen, hout, subadd_loop_true_value, hextlen]
    have hcast : (((limbs_value ext + ext_value t.neutral_element n t._digits + c)
        % BASE ^ n : Nat) : Int)
        = ((limbs_value ext : Int) + (ext_value t.neutral_element n t._digits : Int) + c)
          % (BASE : Int) ^ n := by
      push_cast; rfl
    rw [hcast]
    apply emod_sub_emod
    have hE : (ext_value t.neutral_element n t._digits : Int)
        = t.value + (if t._is_negative then (BASE : Int) ^ n else 0) :=
      ext_value_int t n hlt
    have hA : (limbs_value ext : Int)
        = a.value + (if a._is_negative then (BASE : Int) ^ n else 0) := by
      have h1 : limbs_value ext = ext_value a.neutral_element n a._digits := by
        rw [hext, limbs_value_append_replicate]
        congr 1
        omega
      rw [h1]
      exact ext_value_int a n hla
    rw [hE, hA]
    have : a.value + (if a._is_negative then (BASE : Int) ^ n else 0)
        + (t.value + (if t._is_negative then (BASE : Int) ^ n else 0)) + (c : Int)
        - (a.value + t.value + c)
        = ((if a._is_negative then 1 else 0) + (if t._is_negative then 1 else 0))
          * (BASE : Int) ^ n := by
      cases a._is_negative <;> cases t._is_negative <;> simp
      ring
    rw [this]
    exact Int.mul_emod_left _ _

end big_integer

namespace big_integer

theorem BASE_pow_pos (n : Nat) : (0 : Int) < (BASE : Int) ^ n := by
  have := Nat.pow_pos (n := n) BASE_pos
  exact_mod_cast this

theorem BASE_pow_succ (n : Nat) : (BASE : Int) ^ (n + 1) = (BASE : Int) ^ n * 4294967296 := by
  rw [pow_succ]; rfl

/-- Exactness of the general loop of `subadd`, for both modes. -/
theorem subadd_general_value (a rhs : big_integer) (plus : Bool) (hwa : a.well_formed)
    (hwr : rhs.well_formed) :
    (subadd_general a plus rhs).value = (if plus then a.value + rhs.value else a.value - rhs.value) ∧
      (subadd_general a plus rhs).canonical := by
  have hA := value_lt_pow a hwa
  have hm1 := BASE_pow_mono a._digits.length (max a._digits.length rhs._digits.length)
    (le_max_left _ _)
  have hm2 := BASE_pow_mono rhs._digits.length (max a._digits.length rhs._digits.length)
    (le_max_right _ _)
  have hP := BASE_pow_pos (max a._digits.length rhs._digits.length)
  have hpow : (BASE : Int) ^ (max a._digits.length rhs._digits.length + 2)
      = (BASE : Int) ^ (max a._digits.length rhs._digits.length) * 4294967296 * 4294967296 := by
    rw [BASE_pow_succ, BASE_pow_succ]
  cases plus
  · -- subtraction: add the complement of `rhs` with carry-in 1
    have hR := value_lt_pow (inplace_tilda rhs) (inplace_tilda_well_formed rhs)
    have hRl : (inplace_tilda rhs)._digits.length = rhs._digits.length := by
      simp [inplace_tilda]
    rw [hRl] at hR
    have hRv := inplace_tilda_value rhs hwr
    have hcore := add_core_value a (inplace_tilda rhs)
      (max a._digits.length rhs._digits.length + 2) 1
      (by have := le_max_left a._digits.length rhs._digits.length; omega)
      (by rw [hRl]; have := le_max_right a._digits.length rhs._digits.length; omega)
      (by omega)
      (by rw [hpow]; push_cast; nlinarith)
      (by rw [hpow]; push_cast; nlinarith)
    have hdef : subadd_general a false rhs =
        clear_zeros ⟨subadd_loop true (inplace_tilda rhs).neutral_element
          (a._digits ++ List.replicate
            (max a._digits.length rhs._digits.length + 2 - a._digits.length) a.neutral_element)
          (inplace_tilda rhs)._digits 1,
        check_bit ⟨subadd_loop true (inplace_tilda rhs).neutral_element
          (a._digits ++ List.replicate
            (max a._digits.length rhs._digits.length + 2 - a._digits.length) a.neutral_element)
          (inplace_tilda rhs)._digits 1, a._is_negative⟩⟩ := by
      unfold subadd_general
      simp only [Bool.false_eq_true, if_false, subadd_loop_false]
      have : not32 rhs.neutral_element = (inplace_tilda rhs).neutral_element := by
        cases hs : rhs._is_negative <;> simp [neutral_element, inplace_tilda, hs, not32]
      rw [this]
      rfl
    rw [hdef]
    refine ⟨?_, hcore.2⟩
    rw [hcore.1, hRv]
    simp only [Bool.false_eq_true, if_false]
    push_cast
    ring
  · have hR := value_lt_pow rhs hwr
    have hcore := add_core_value a rhs (max a._digits.length rhs._digits.length + 2) 0
      (by have := le_max_left a._digits.length rhs._digits.length; omega)
      (by have := le_max_right a._digits.length rhs._digits.length; omega)
      (by omega)
      (by rw [hpow]; push_cast; nlinarith)
      (by rw [hpow]; push_cast; nlinarith)
    have hdef : subadd_general a true rhs =
        clear_zeros ⟨subadd_loop true rhs.neutral_element
          (a._digits ++ List.replicate
            (max a._digits.length rhs._digits.length + 2 - a._digits.length) a.neutral_element)
          rhs._digits 0,
        check_bit ⟨subadd_loop true rhs.neutral_element
          (a._digits ++ List.replicate
            (max a._digits.length rhs._digits.length + 2 - a._digits.length) a.neutral_element)
          rhs._digits 0, a._is_negative⟩⟩ := by
      unfold subadd_general
      simp only [if_true]
    rw [hdef]
    refine ⟨?_, hcore.2⟩
    rw [hcore.1]
    simp

/-- Exactness of the fast path `small_add(plus, x)`, for both modes, whenever the
receiver has a stored limb or `x` is below `2^31`. -/
theorem small_add_value (a : big_integer) (plus : Bool) (x : Nat) (hwf : a.well_formed)
    (hx : x < BASE) (hfit : a._digits ≠ [] ∨ x < 2147483648) :
    (small_add a plus x).value = (if plus then a.value + x else a.value - x) ∧
      (small_add a plus x).canonical := by
  cases plus
  · have hA := value_lt_pow a hwf
    have hP := BASE_pow_pos a._digits.length
    have hxI : (x : Int) < 4294967296 := by unfold BASE at hx; exact_mod_cast hx
    have hx0 : (0 : Int) ≤ (x : Int) := Int.natCast_nonneg _
    have hfitI : (4294967296 : Int) ≤ (BASE : Int) ^ a._digits.length ∨
        ((x : Int) < 2147483648 ∧ a._digits.length = 0) := by
      by_cases h0 : a._digits.length = 0
      · rcases hfit with h | h
        · exact absurd (List.length_eq_zero.mp h0) h
        · right; exact ⟨by exact_mod_cast h, h0⟩
      · left; exact BASE_pow_ge _ h0
    have htv : (⟨[not32 x], true⟩ : big_integer).value = -1 - (x : Int) := by
      have := inplace_tilda_value ⟨[x], false⟩ (by intro d hd; simp at hd; rw [hd]; exact hx)
      simp only [inplace_tilda, List.map_cons, List.map_nil, Bool.not_false] at this
      rw [this]
      simp [value, limbs_value]
    have hcore := add_core_value a ⟨[not32 x], true⟩ (a._digits.length + 1) 1
      (by omega) (by simp) (by omega)
      (by
        rw [htv, BASE_pow_succ]
        push_cast
        rcases hfitI with h | ⟨h, h0⟩
        · nlinarith
        · rw [h0] at hA ⊢
          simp only [pow_zero] at hA ⊢
          omega)
      (by
        rw [htv, BASE_pow_succ]
        push_cast
        rcases hfitI with h | ⟨h, h0⟩
        · nlinarith
        · rw [h0] at hA ⊢
          simp only [pow_zero] at hA ⊢
          omega)
    have hdef : small_add a false x =
        clear_zeros ⟨subadd_loop true (⟨[not32 x], true⟩ : big_integer).neutral_element
          (a._digits ++ List.replicate (a._digits.length + 1 - a._digits.length) a.neutral_element)
          (⟨[not32 x], true⟩ : big_integer)._digits 1,
        check_bit ⟨subadd_loop true (⟨[not32 x], true⟩ : big_integer).neutral_element
          (a._digits ++ List.replicate (a._digits.length + 1 - a._digits.length) a.neutral_element)
          (⟨[not32 x], true⟩ : big_integer)._digits 1, a._is_negative⟩⟩ := by
      unfold small_add
      simp only [Bool.false_eq_true, if_false, small_add_loop_false]
      have : a._digits.length + 1 - a._digits.length = 1 := by omega
      rw [this]
      rfl
    rw [hdef]
    refine ⟨?_, hcore.2⟩
    rw [hcore.1, htv]
    simp only [Bool.false_eq_true, if_false]
    push_cast
    ring
  · have := small_add_plus_value a x hwf hx hfit
    simpa using this

/-- Exactness of `subadd` whenever its shortcut is not taken on a receiver without
limbs and a right operand of `2^31` or more. -/
theorem subadd_value (a rhs : big_integer) (plus : Bool) (hwa : a.well_formed)
    (hwr : rhs.well_formed)
    (hfit : a._digits ≠ [] ∨ rhs._is_negative = true ∨ rhs._digits.length ≠ 1 ∨
      rhs._digits.getD 0 0 < 2147483648) :
    (subadd a plus rhs).value = (if plus then a.value + rhs.value else a.value - rhs.value) ∧
      (subadd a plus rhs).canonical := by
  by_cases hfast : rhs._digits.length = 1 ∧ rhs._is_negative = false
  · obtain ⟨hl, hs⟩ := hfast
    obtain ⟨ds, s⟩ := rhs
    simp only at hl hs
    subst hs
    match ds, hl with
    | [x], _ =>
      have hx : x < BASE := hwr x (by simp)
      have hdef : subadd a plus ⟨[x], false⟩ = small_add a plus x := by
        simp [subadd]
      have hv : (⟨[x], false⟩ : big_integer).value = x := by simp [value, limbs_value]
      rw [hdef, hv]
      apply small_add_value a plus x hwa hx
      rcases hfit with h | h | h | h
      · exact Or.inl h
      · simp at h
      · simp at h
      · right; simpa using h
  · rw [subadd_eq_general a plus rhs hfast]
    exact subadd_general_value a rhs plus hwa hwr

end big_integer

/-! ## Canonical results of the operators -/

namespace big_integer

theorem small_add_canonical (a : big_integer) (plus : Bool) (x : Nat) :
    (small_add a plus x).canonical :=
  clear_zeros_canonical _ (small_add_loop_lt _ _ _ _)

theorem subadd_canonical (a : big_integer) (plus : Bool) (rhs : big_integer) :
    (subadd a plus rhs).canonical := by
  unfold subadd
  split
  · exact small_add_canonical _ _ _
  · exact clear_zeros_canonical _ (subadd_loop_lt _ _ _ _ _)

theorem inplace_minus_canonical (a : big_integer) : (inplace_minus a).canonical :=
  small_add_canonical _ _ _

theorem inplace_abs_canonical (a : big_integer) (h : a.canonical) : (inplace_abs a).canonical := by
  unfold inplace_abs
  split
  · exact small_add_canonical _ _ _
  · exact h

theorem operator_shl_canonical (a r : big_integer) (rhs : Int) (h : a.canonical)
    (hr : operator_shl a rhs = .ok r) : r.canonical := by
  unfold operator_shl at hr
  split at hr
  · cases hr; exact h
  · simp only [] at hr
    split at hr
    · cases hr
    · cases hr
      exact clear_zeros_canonical _ (shl_loop_lt _ _ _)

theorem small_div_core_well_formed (a : big_integer) (x : Nat) (hwf : a.well_formed) :
    (small_div_core a x).1.well_formed := by
  unfold small_div_core
  simp only []
  apply clear_zeros_well_formed
  split
  · exact small_add_well_formed _ _ _
  · exact small_div_loop_lt _ _ _ (inplace_abs_ok a hwf).1

theorem operator_shr_canonical (a : big_integer) (rhs : Nat) (h : a.canonical) :
    (operator_shr a rhs).canonical := by
  unfold operator_shr
  split
  · exact h
  · simp only []
    apply clear_zeros_canonical
    have hw := small_div_core_well_formed (inplace_abs a) (2 ^ (rhs % 32))
      (inplace_abs_ok a h.1).1
    have ht2 : (if rhs / 32 ≥ (small_div_core (inplace_abs a) (2 ^ (rhs % 32))).1._digits.length
        then (⟨[], (small_div_core (inplace_abs a) (2 ^ (rhs % 32))).1._is_negative⟩ : big_integer)
        else ⟨(small_div_core (inplace_abs a) (2 ^ (rhs % 32))).1._digits.drop (rhs / 32),
          (small_div_core (inplace_abs a) (2 ^ (rhs % 32))).1._is_negative⟩).well_formed := by
      split
      · intro d hd; simp at hd
      · intro d hd
        exact hw d (List.mem_of_mem_drop hd)
    split
    · exact small_add_well_formed _ _ _
    · exact ht2

theorem bitwise_loop_lt (op : Nat → Nat → Nat) (ane rne n : Nat) (ds rs : List Nat) :
    ∀ d ∈ bitwise_loop op ane rne n ds rs, d < BASE := by
  induction n generalizing ds rs with
  | zero => simp [bitwise_loop]
  | succ n ih =>
    intro e he
    simp only [bitwise_loop, List.mem_cons] at he
    rcases he with rfl | he
    · exact Nat.mod_lt _ BASE_pos
    · exact ih _ _ e he

theorem apply_bitwise_operation_canonical (a : big_integer) (op : Nat → Nat → Nat)
    (rhs : big_integer) : (apply_bitwise_operation a op rhs).canonical :=
  clear_zeros_canonical _ (bitwise_loop_lt _ _ _ _ _ _)

theorem correction_canonical (fuel : Nat) (this multiplier : big_integer) (q : Nat)
    (r : big_integer × Nat) (hc : this.canonical) (hq : q < BASE)
    (h : correction fuel this multiplier q = .ok r) :
    r.1.canonical ∧ r.2 < BASE := by
  induction fuel generalizing this q with
  | zero =>
    unfold correction at h
    split at h
    · cases h
    · cases h; exact ⟨hc, hq⟩
  | succ fuel ih =>
    unfold correction at h
    split at h
    · exact ih _ _ (subadd_canonical _ _ _) (Nat.mod_lt _ BASE_pos) h
    · cases h; exact ⟨hc, hq⟩

theorem division_loop_canonical (fuel n btop : Nat) (i : Nat) (s s1 : div_state)
    (hc : s.this.canonical) (hres : ∀ d ∈ s.result, d < BASE)
    (h : division_loop fuel n btop i s = .ok s1) :
    s1.this.canonical ∧ ∀ d ∈ s1.result, d < BASE := by
  induction i generalizing s with
  | zero =>
    unfold division_loop at h
    cases h
    exact ⟨hc, hres⟩
  | succ i ih =>
    unfold division_loop at h
    simp only [] at h
    split at h
    · cases h
    · next r hr =>
      have hthis1 : (if min ((s.this.get_or_default (n + i) 0 * BASE +
            s.this.get_or_default (to_size_t ((n : Int) + (i : Int) - 1)) 0) %
            18446744073709551616 / btop) (BASE - 1) ≠ 0
          then operator_sub s.this (small_mul s.multiplier
            (min ((s.this.get_or_default (n + i) 0 * BASE +
            s.this.get_or_default (to_size_t ((n : Int) + (i : Int) - 1)) 0) %
            18446744073709551616 / btop) (BASE - 1)))
          else s.this).canonical := by
        split
        · exact subadd_canonical _ _ _
        · exact hc
      have hq : min ((s.this.get_or_default (n + i) 0 * BASE +
            s.this.get_or_default (to_size_t ((n : Int) + (i : Int) - 1)) 0) %
            18446744073709551616 / btop) (BASE - 1) < BASE := by
        have := Nat.min_le_right ((s.this.get_or_default (n + i) 0 * BASE +
            s.this.get_or_default (to_size_t ((n : Int) + (i : Int) - 1)) 0) %
            18446744073709551616 / btop) (BASE - 1)
        have hB := BASE_pos
        omega
      obtain ⟨h1, h2⟩ := correction_canonical _ _ _ _ r hthis1 hq hr
      refine ih _ h1 ?_ h
      intro d hd
      rcases List.mem_or_eq_of_mem_set hd with hd | hd
      · exact hres d hd
      · rw [hd]; exact h2

/-- Every value returned by `cool_division` on a canonical receiver is canonical. -/
theorem cool_division_canonical (fuel : Nat) (a rhs r : big_integer) (div : Bool)
    (ha : a.canonical) (h : cool_division fuel a div rhs = .ok r) : r.canonical := by
  unfold cool_division at h
  split at h
  · cases h
  split at h
  · cases h; exact ha
  split at h
  · cases h
    split
    · exact inplace_minus_canonical _
    · decide
  split at h
  · cases h
    split
    · decide
    · exact ha
  simp only [] at h
  split at h
  · cases h
  · cases h
  next a1 b hsha hshb =>
  split at h
  · cases h
  split at h
  · cases h
  split at h
  · cases h
  next s hs =>
  cases h
  have ha1 := operator_shl_canonical _ _ _ (inplace_abs_canonical a ha) hsha
  have hrep : ∀ d ∈ List.replicate ((to_size_t ((a1._digits.length : Int) - (b._digits.length : Int))
      + 1) % 18446744073709551616) 0, d < BASE := by
    intro d hd
    rw [(List.mem_replicate.mp hd).2]
    exact BASE_pos
  obtain ⟨hsc, hsr⟩ := division_loop_canonical _ _ _ _ _ s ha1 hrep hs
  split
  · apply clear_zeros_canonical
    split
    · exact small_add_well_formed _ _ _
    · exact hsr
  · split
    · exact inplace_minus_canonical _
    · exact operator_shr_canonical _ _ hsc

end big_integer

/-! ## Bitwise operators: the limbs are the bits of the represented integer -/

theorem int_testBit_ext (x y : Int) (h : ∀ j, x.testBit j = y.testBit j) : x = y := by
  cases x with
  | ofNat m =>
    cases y with
    | ofNat n =>
      have : m = n := Nat.eq_of_testBit_eq (fun j => h j)
      rw [this]
    | negSucc n =>
      exfalso
      have hm : m < 2 ^ (m + n) := lt_of_lt_of_le (Nat.lt_two_pow m)
        (Nat.pow_le_pow_right (by norm_num) (Nat.le_add_right _ _))
      have hn : n < 2 ^ (m + n) := lt_of_lt_of_le (Nat.lt_two_pow n)
        (Nat.pow_le_pow_right (by norm_num) (Nat.le_add_left _ _))
      have h1 := h (m + n)
      simp only [Int.testBit, Nat.testBit_lt_two_pow hm, Nat.testBit_lt_two_pow hn] at h1
      exact absurd h1 (by decide)
  | negSucc m =>
    cases y with
    | ofNat n =>
      exfalso
      have hm : m < 2 ^ (m + n) := lt_of_lt_of_le (Nat.lt_two_pow m)
        (Nat.pow_le_pow_right (by norm_num) (Nat.le_add_right _ _))
      have hn : n < 2 ^ (m + n) := lt_of_lt_of_le (Nat.lt_two_pow n)
        (Nat.pow_le_pow_right (by norm_num) (Nat.le_add_left _ _))
      have h1 := h (m + n)
      simp only [Int.testBit, Nat.testBit_lt_two_pow hm, Nat.testBit_lt_two_pow hn] at h1
      exact absurd h1 (by decide)
    | negSucc n =>
      have : m = n := by
        apply Nat.eq_of_testBit_eq
        intro j
        have := h j
        simp only [Int.testBit] at this
        cases h1 : m.testBit j <;> cases h2 : n.testBit j <;> simp_all
      rw [this]

/-- Bits of `d + 2^32 * z` for a limb `d`: the low 32 bits are those of `d`, the
others those of `z`. -/
theorem int_testBit_limb (d : Nat) (z : Int) (j : Nat) (hd : d < BASE) :
    Int.testBit ((d : Int) + 4294967296 * z) j
      = if j < 32 then d.testBit j else z.testBit (j - 32) := by
  have hd32 : d < 2 ^ 32 := by unfold BASE at hd; norm_num; exact hd
  cases z with
  | ofNat m =>
    have : (d : Int) + 4294967296 * Int.ofNat m = ((2 ^ 32 * m + d : Nat) : Int) := by
      simp only [Int.ofNat_eq_coe]; push_cast; ring
    rw [this]
    show Nat.testBit (2 ^ 32 * m + d) j = _
    rw [Nat.testBit_mul_pow_two_add m hd32 j]
    rfl
  | negSucc m =>
    have hc : 2 ^ 32 - (d + 1) < 2 ^ 32 := by omega
    have : (d : Int) + 4294967296 * Int.negSucc m
        = Int.negSucc (2 ^ 32 * m + (2 ^ 32 - (d + 1))) := by
      rw [Int.negSucc_eq, Int.negSucc_eq]
      have h1 : ((2 ^ 32 * m + (2 ^ 32 - (d + 1)) : Nat) : Int)
          = 4294967296 * (m : Int) + (4294967296 - ((d : Int) + 1)) := by
        omega
      rw [h1]
      ring
    rw [this]
    show (!Nat.testBit (2 ^ 32 * m + (2 ^ 32 - (d + 1))) j) = _
    rw [Nat.testBit_mul_pow_two_add m hc j]
    by_cases hj : j < 32
    · simp only [hj, if_true]
      rw [Nat.testBit_two_pow_sub_succ hd32 j]
      simp [hj]
    · simp only [hj, if_false]
      rfl

namespace big_integer

theorem value_cons (d : Nat) (ds : List Nat) (s : Bool) :
    value ⟨d :: ds, s⟩ = (d : Int) + 4294967296 * value ⟨ds, s⟩ := by
  have hB : (BASE : Int) = 4294967296 := rfl
  cases s
  · simp only [value, limbs_value, Bool.false_eq_true, if_false, sub_zero]
    push_cast
    rw [hB]
  · simp only [value, limbs_value, if_true, List.length_cons, pow_succ]
    push_cast
    rw [hB]
    ring

theorem testBit_neutral (s : Bool) (k : Nat) (hk : k < 32) :
    Nat.testBit (if s then 4294967295 else 0) k = s := by
  cases s
  · simp
  · have : (4294967295 : Nat) = 2 ^ 32 - 1 := by norm_num
    simp only [if_true, this, Nat.testBit_two_pow_sub_one]
    simpa using hk

/-- The bit `j` of the represented integer is the bit `j % 32` of the limb
`j / 32`, read with the neutral element beyond the stored limbs. -/
theorem testBit_value (ds : List Nat) (s : Bool) (hwf : ∀ d ∈ ds, d < BASE) (j : Nat) :
    Int.testBit (value ⟨ds, s⟩) j
      = Nat.testBit (ds.getD (j / 32) (if s then 4294967295 else 0)) (j % 32) := by
  induction ds generalizing j with
  | nil =>
    simp only [List.getD_nil]
    rw [testBit_neutral s _ (Nat.mod_lt _ (by norm_num))]
    cases s
    · show Int.testBit 0 j = false
      show Nat.testBit 0 j = false
      simp
    · show Int.testBit (Int.negSucc 0) j = true
      show (!Nat.testBit 0 j) = true
      simp
  | cons d ds ih =>
    have hd : d < BASE := hwf d (List.mem_cons_self _ _)
    rw [value_cons, int_testBit_limb d _ j hd]
    by_cases hj : j < 32
    · have h0 : j / 32 = 0 := Nat.div_eq_of_lt hj
      have h1 : j % 32 = j := Nat.mod_eq_of_lt hj
      simp [hj, h0, h1]
    · have hge : 32 ≤ j := Nat.le_of_not_lt hj
      have h0 : j / 32 = (j - 32) / 32 + 1 := by omega
      have h1 : j % 32 = (j - 32) % 32 := by omega
      simp only [hj, if_false]
      rw [ih (fun e he => hwf e (List.mem_cons_of_mem _ he)), h0, h1]
      simp

theorem bitwise_loop_length (op : Nat → Nat → Nat) (ane rne n : Nat) (ds rs : List Nat) :
    (bitwise_loop op ane rne n ds rs).length = n := by
  induction n generalizing ds rs with
  | zero => rfl
  | succ n ih => simp [bitwise_loop, ih]

theorem getD_tail (l : List Nat) (i dflt : Nat) : l.tail.getD i dflt = l.getD (i + 1) dflt := by
  cases l <;> simp

theorem headD_eq_getD (l : List Nat) (dflt : Nat) : l.headD dflt = l.getD 0 dflt := by
  cases l <;> simp

theorem bitwise_loop_getD (op : Nat → Nat → Nat) (ane rne n : Nat) (ds rs : List Nat)
    (i dflt : Nat) :
    (bitwise_loop op ane rne n ds rs).getD i dflt
      = if i < n then op (ds.getD i ane) (rs.getD i rne) % BASE else dflt := by
  induction n generalizing ds rs i with
  | zero => simp [bitwise_loop]
  | succ n ih =>
    cases i with
    | zero =>
      simp only [bitwise_loop, List.getD_cons_zero, headD_eq_getD]
      simp
    | succ i =>
      simp only [bitwise_loop, List.getD_cons_succ, ih, getD_tail]
      simp

/-- The value computed by `apply_bitwise_operation` for an operation acting bit by
bit as `f`, with `f false false = false`: every bit of the result is `f` of the
bits of the operands. -/
theorem apply_bitwise_operation_testBit (a b : big_integer) (op : Nat → Nat → Nat)
    (f : Bool → Bool → Bool) (hwa : a.well_formed) (hwb : b.well_formed)
    (hop : ∀ x y k, (op x y).testBit k = f (x.testBit k) (y.testBit k))
    (hflag : ∀ sa sb : Bool,
      (op (if sa then 1 else 0) (if sb then 1 else 0) % BASE != 0) = f sa sb)
    (j : Nat) :
    Int.testBit (apply_bitwise_operation a op b).value j
      = f (Int.testBit a.value j) (Int.testBit b.value j) := by
  obtain ⟨ds, sa⟩ := a
  obtain ⟨rs, sb⟩ := b
  unfold apply_bitwise_operation
  simp only []
  rw [clear_zeros_value, hflag]
  rw [testBit_value _ _ (bitwise_loop_lt _ _ _ _ _ _), testBit_value ds sa hwa,
    testBit_value rs sb hwb]
  rw [bitwise_loop_getD]
  have hk : j % 32 < 32 := Nat.mod_lt _ (by norm_num)
  have hB : BASE = 2 ^ 32 := by unfold BASE; norm_num
  by_cases hi : j / 32 < max ds.length rs.length + 1
  · simp only [hi, if_true, neutral_element]
    rw [hB, Nat.testBit_mod_two_pow, hop]
    simp [hk]
  · simp only [hi, if_false]
    have h1 : ds.length ≤ j / 32 := by
      have := le_max_left ds.length rs.length; omega
    have h2 : rs.length ≤ j / 32 := by
      have := le_max_right ds.length rs.length; omega
    rw [List.getD_eq_default _ _ h1, List.getD_eq_default _ _ h2]
    rw [testBit_neutral _ _ hk, testBit_neutral _ _ hk, testBit_neutral _ _ hk]

theorem operator_and_value (a b : big_integer) (hwa : a.well_formed) (hwb : b.well_formed) :
    (operator_and a b).value = Int.land a.value b.value := by
  apply int_testBit_ext
  intro j
  rw [Int.testBit_land]
  exact apply_bitwise_operation_testBit a b _ (fun x y => x && y) hwa hwb
    (fun x y k => Nat.testBit_and x y k) (by decide) j

theorem operator_or_value (a b : big_integer) (hwa : a.well_formed) (hwb : b.well_formed) :
    (operator_or a b).value = Int.lor a.value b.value := by
  apply int_testBit_ext
  intro j
  rw [Int.testBit_lor]
  exact apply_bitwise_operation_testBit a b _ (fun x y => x || y) hwa hwb
    (fun x y k => Nat.testBit_or x y k) (by decide) j

theorem operator_xor_value (a b : big_integer) (hwa : a.well_formed) (hwb : b.well_formed) :
    (operator_xor a b).value = Int.xor a.value b.value := by
  apply int_testBit_ext
  intro j
  rw [Int.testBit_lxor]
  exact apply_bitwise_operation_testBit a b _ (fun x y => xor x y) hwa hwb
    (fun x y k => Nat.testBit_xor x y k) (by decide) j

end big_integer

/-! ## Left shift -/

namespace big_integer

theorem shl_loop_length (modulo : Nat) (ds : List Nat) (remainder : Nat) :
    (shl_loop modulo ds remainder).length = ds.length := by
  induction ds generalizing remainder with
  | nil => rfl
  | cons d ds ih => simp [shl_loop, ih]

theorem shl_loop_value (modulo : Nat) (ds : List Nat) (remainder : Nat)
    (hm : modulo < 32) (hwf : ∀ d ∈ ds, d < BASE) (hr : remainder < BASE) :
    limbs_value (shl_loop modulo ds remainder) =
      (limbs_value ds * 2 ^ modulo + remainder) % BASE ^ ds.length := by
  induction ds generalizing remainder with
  | nil => simp [shl_loop, limbs_value, Nat.mod_one]
  | cons d ds ih =>
    have hd : d < BASE := hwf d (List.mem_cons_self _ _)
    have hpow : 2 ^ modulo ≤ 2147483648 := by
      have : 2 ^ modulo ≤ 2 ^ 31 := Nat.pow_le_pow_right (by norm_num) (by omega)
      norm_num at this
      exact this
    have hdm : d * 2 ^ modulo < 9223372036854775808 := by
      unfold BASE at hd
      calc d * 2 ^ modulo ≤ 4294967295 * 2147483648 := Nat.mul_le_mul (by omega) hpow
        _ < 9223372036854775808 := by norm_num
    have hcur : (remainder + d * 2 ^ modulo % 18446744073709551616) % 18446744073709551616
        = remainder + d * 2 ^ modulo := by
      unfold BASE at hr
      rw [Nat.mod_eq_of_lt (by omega), Nat.mod_eq_of_lt (by omega)]
    simp only [shl_loop, hcur, limbs_value, List.length_cons]
    have hcarry : (remainder + d * 2 ^ modulo) / BASE < BASE := by
      apply Nat.div_lt_of_lt_mul
      unfold BASE at *
      omega
    rw [ih _ (fun e he => hwf e (List.mem_cons_of_mem _ he)) hcarry]
    rw [pow_succ, mul_comm (BASE ^ ds.length) BASE, Nat.mod_mul]
    have hsum : (d + BASE * limbs_value ds) * 2 ^ modulo + remainder
        = (remainder + d * 2 ^ modulo) + BASE * (limbs_value ds * 2 ^ modulo) := by ring
    have h1 : ((d + BASE * limbs_value ds) * 2 ^ modulo + remainder) % BASE
        = (remainder + d * 2 ^ modulo) % BASE := by
      rw [hsum]; exact Nat.add_mul_mod_self_left _ _ _
    have h2 : ((d + BASE * limbs_value ds) * 2 ^ modulo + remainder) / BASE
        = limbs_value ds * 2 ^ modulo + (remainder + d * 2 ^ modulo) / BASE := by
      rw [hsum, Nat.add_mul_div_left _ _ BASE_pos]; ring
    rw [h1, h2]

theorem shl_range_aux (P Z W v : Int) (s : Bool) (hP : 0 < P) (hZ : 0 < Z) (hW1 : 1 ≤ W)
    (hW : W ≤ 2147483648) (hv0 : 0 ≤ v) (hv : v < P) :
    0 ≤ (v - (if s then P else 0)) * (W * Z) + (if s then P * Z * 4294967296 else 0) ∧
      (v - (if s then P else 0)) * (W * Z) + (if s then P * Z * 4294967296 else 0)
        < P * Z * 4294967296 := by
  have hWZ : 0 < W * Z := by positivity
  have hPZ : 0 < P * Z := by positivity
  cases s
  · simp only [Bool.false_eq_true, if_false, sub_zero, add_zero]
    constructor
    · positivity
    · have h1 : v * (W * Z) < P * (W * Z) := by nlinarith
      have h2 : P * (W * Z) ≤ P * Z * 4294967296 := by nlinarith
      linarith
  · simp only [if_true]
    constructor
    · have h1 : (v - P) * (W * Z) + P * Z * 4294967296
          = v * (W * Z) + (P * Z) * (4294967296 - W) := by ring
      rw [h1]
      have : 0 ≤ v * (W * Z) := by positivity
      have : 0 ≤ (P * Z) * (4294967296 - W) := by
        apply mul_nonneg (le_of_lt hPZ); linarith
      linarith
    · have : (v - P) * (W * Z) < 0 := by
        apply mul_neg_of_neg_of_pos _ hWZ; linarith
      linarith

theorem to_size_t_natCast (n : Nat) (h : n < 18446744073709551616) : to_size_t (n : Int) = n := by
  unfold to_size_t
  omega

/-- The value computed by `operator<<=` for a shift count `0 ≤ k < 2^31`, when the
grown vector fits `max_size()`: the result is canonical and represents
`a * 2^k`. -/
theorem operator_shl_value (a : big_integer) (k : Nat) (ha : a.canonical)
    (hk : k < 2147483648) (hsize : a._digits.length + 1 + k / 32 ≤ max_size) :
    ∃ r, operator_shl a (k : Int) = .ok r ∧ r.canonical ∧ r.value = a.value * 2 ^ k := by
  by_cases hk0 : k = 0
  · subst hk0
    refine ⟨a, ?_, ha, by simp⟩
    simp [operator_shl]
  have hmod : to_size_t (Int.tmod (k : Int) 32) = k % 32 := by
    have : Int.tmod (k : Int) 32 = ((k % 32 : Nat) : Int) := by
      have h32 : (32 : Int) = ((32 : Nat) : Int) := rfl
      rw [h32, Int.ofNat_tmod]
    rw [this]
    exact to_size_t_natCast _ (by omega)
  have hdiv : to_size_t (Int.tdiv (k : Int) 32) = k / 32 := by
    have : Int.tdiv (k : Int) 32 = ((k / 32 : Nat) : Int) := by
      have h32 : (32 : Int) = ((32 : Nat) : Int) := rfl
      rw [h32, Int.ofNat_tdiv]
    rw [this]
    exact to_size_t_natCast _ (by omega)
  obtain ⟨ds, s⟩ := a
  set L := List.replicate (k / 32) 0 ++ (ds ++ [neutral_element ⟨ds, s⟩]) with hL
  set out := shl_loop (k % 32) L 0 with hout
  have hres : operator_shl ⟨ds, s⟩ (k : Int) = .ok (clear_zeros ⟨out, s⟩) := by
    unfold operator_shl
    have hk' : ¬ ((k : Int) = 0) := by exact_mod_cast hk0
    rw [if_neg hk']
    simp only [hmod, hdiv]
    have : ¬ (max_size - (ds.length + 1) < k / 32) := by
      simp only at hsize
      omega
    rw [if_neg this]
  have hLwf : ∀ d ∈ L, d < BASE := by
    intro d hd
    rw [hL] at hd
    rcases List.mem_append.mp hd with h | h
    · rw [(List.mem_replicate.mp h).2]; exact BASE_pos
    · rcases List.mem_append.mp h with h | h
      · exact ha.1 d h
      · simp only [List.mem_singleton] at h
        rw [h]
        cases s <;> simp [neutral_element, BASE]
  have hLlen : L.length = k / 32 + (ds.length + 1) := by
    rw [hL]; simp
  have hLval : (limbs_value L : Int)
      = (BASE : Int) ^ (k / 32) * (value ⟨ds, s⟩ + (if s then (BASE : Int) ^ (ds.length + 1) else 0)) := by
    rw [hL, limbs_value_append, limbs_value_replicate_zero, List.length_replicate, zero_add]
    push_cast
    congr 1
    have := value_mk_append_neutral ds s
    rw [← this]
    simp only [value, List.length_append, List.length_singleton]
    ring
  have hwfo : ∀ d ∈ out, d < BASE := shl_loop_lt _ _ _
  have holen : out.length = k / 32 + (ds.length + 1) := by
    rw [hout, shl_loop_length, hLlen]
  have hoval : limbs_value out = (limbs_value L * 2 ^ (k % 32)) % BASE ^ (k / 32 + (ds.length + 1)) := by
    rw [hout, shl_loop_value _ _ _ (Nat.mod_lt _ (by norm_num)) hLwf BASE_pos, hLlen]
    simp
  refine ⟨_, hres, clear_zeros_canonical _ hwfo, ?_⟩
  rw [clear_zeros_value]
  -- arithmetic
  have hvds := limbs_value_lt ds ha.1
  have hP : (0 : Int) < (BASE : Int) ^ ds.length := BASE_pow_pos _
  have hZ : (0 : Int) < (BASE : Int) ^ (k / 32) := BASE_pow_pos _
  have hW1 : (1 : Int) ≤ (2 : Int) ^ (k % 32) := by
    have : 1 ≤ 2 ^ (k % 32) := Nat.one_le_two_pow
    exact_mod_cast this
  have hW : (2 : Int) ^ (k % 32) ≤ 2147483648 := by
    have : 2 ^ (k % 32) ≤ 2 ^ 31 := Nat.pow_le_pow_right (by norm_num) (by omega)
    have h2 : ((2 ^ (k % 32) : Nat) : Int) ≤ ((2 ^ 31 : Nat) : Int) := by exact_mod_cast this
    push_cast at h2
    exact h2
  have hv0 : (0 : Int) ≤ (limbs_value ds : Int) := Int.natCast_nonneg _
  have hv : (limbs_value ds : Int) < (BASE : Int) ^ ds.length := by exact_mod_cast hvds
  have hrange := shl_range_aux ((BASE : Int) ^ ds.length) ((BASE : Int) ^ (k / 32))
    ((2 : Int) ^ (k % 32)) (limbs_value ds) s hP hZ hW1 hW hv0 hv
  have hM : (BASE : Int) ^ (k / 32 + (ds.length + 1))
      = (BASE : Int) ^ ds.length * (BASE : Int) ^ (k / 32) * 4294967296 := by
    rw [pow_add, BASE_pow_succ]; ring
  have h2k : (2 : Int) ^ k = (2 : Int) ^ (k % 32) * (BASE : Int) ^ (k / 32) := by
    have hB : (BASE : Int) = 2 ^ 32 := by
      show ((4294967296 : Nat) : Int) = 2 ^ 32
      norm_num
    rw [hB, ← pow_mul, ← pow_add]
    congr 1
    omega
  have hval : value ⟨ds, s⟩ = (limbs_value ds : Int) - (if s then (BASE : Int) ^ ds.length else 0) := rfl
  have htarget : (limbs_value out : Int)
      = (value ⟨ds, s⟩) * 2 ^ k + (if s then (BASE : Int) ^ (k / 32 + (ds.length + 1)) else 0) := by
    rw [hoval]
    push_cast
    rw [hLval, hM, h2k, hval]
    have hX : (BASE : Int) ^ (k / 32) * ((limbs_value ds : Int) - (if s then (BASE : Int) ^ ds.length else 0)
          + (if s then (BASE : Int) ^ (ds.length + 1) else 0)) * 2 ^ (k % 32)
        = (((limbs_value ds : Int) - (if s then (BASE : Int) ^ ds.length else 0))
            * (2 ^ (k % 32) * (BASE : Int) ^ (k / 32))
          + (if s then (BASE : Int) ^ ds.length * (BASE : Int) ^ (k / 32) * 4294967296 else 0))
          + ((if s then (2 : Int) ^ (k % 32) - 1 else 0))
            * ((BASE : Int) ^ ds.length * (BASE : Int) ^ (k / 32) * 4294967296) := by
      rw [BASE_pow_succ]
      cases s
      · simp only [Bool.false_eq_true, if_false]; ring
      · simp only [if_true]; ring
    rw [hX, Int.add_mul_emod_self, Int.emod_eq_of_lt hrange.1 hrange.2]
  show (limbs_value out : Int) - (if s then (BASE : Int) ^ out.length else 0) = _
  rw [htarget, holen]
  ring

end big_integer

/-! ## Limb counts of canonical values -/

theorem limbs_value_ge (ds : List Nat) (hne : ds ≠ []) (hlast : ds.getLast? ≠ some 0) :
    BASE ^ (ds.length - 1) ≤ limbs_value ds := by
  induction ds using List.reverseRecOn with
  | nil => exact absurd rfl hne
  | append_singleton xs x _ =>
    have hx : x ≠ 0 := by
      intro h
      apply hlast
      simp [h]
    rw [limbs_value_append]
    simp only [limbs_value, List.length_append, List.length_singleton, Nat.add_sub_cancel,
      mul_zero, add_zero]
    have : BASE ^ xs.length * 1 ≤ BASE ^ xs.length * x :=
      Nat.mul_le_mul_left _ (Nat.one_le_iff_ne_zero.mpr hx)
    omega

namespace big_integer

theorem value_of_nonneg (a : big_integer) (h : a._is_negative = false) :
    a.value = (limbs_value a._digits : Int) := by
  simp [value, h]

/-- A canonical non-negative value below `BASE ^ k` has at most `k` limbs. -/
theorem length_le_of_lt (a : big_integer) (hc : a.canonical) (hn : a._is_negative = false)
    (k : Nat) (h : limbs_value a._digits < BASE ^ k) : a._digits.length ≤ k := by
  by_contra hcon
  have hlen : k + 1 ≤ a._digits.length := by omega
  have hne : a._digits ≠ [] := by
    intro h0; rw [h0] at hlen; simp at hlen
  have hlast : a._digits.getLast? ≠ some 0 := by
    have := hc.2
    simpa [neutral_element, hn] using this
  have h1 := limbs_value_ge a._digits hne hlast
  have h2 : BASE ^ k ≤ BASE ^ (a._digits.length - 1) :=
    Nat.pow_le_pow_right BASE_pos (by omega)
  omega

/-- A canonical non-negative value of at least `BASE ^ k` has more than `k` limbs. -/
theorem length_gt_of_le (a : big_integer) (hw : a.well_formed) (k : Nat)
    (h : BASE ^ k ≤ limbs_value a._digits) : k < a._digits.length := by
  have h1 := limbs_value_lt a._digits hw
  have h2 : BASE ^ k < BASE ^ a._digits.length := lt_of_le_of_lt h h1
  exact (Nat.pow_lt_pow_iff_right (by decide)).mp h2

theorem clear_zeros_of_canonical (a : big_integer) (h : a.canonical) : clear_zeros a = a :=
  canonical_eq_of_value_eq _ _ (clear_zeros_canonical a h.1) h (clear_zeros_value a)

/-- A limb sequence ending in a non-zero limb, with a clear flag, is canonical. -/
theorem canonical_append_singleton (xs : List Nat) (x : Nat) (hxs : ∀ d ∈ xs, d < BASE)
    (hx0 : x ≠ 0) (hx : x < BASE) : (⟨xs ++ [x], false⟩ : big_integer).canonical := by
  constructor
  · intro d hd
    rcases List.mem_append.mp hd with h | h
    · exact hxs d h
    · simp only [List.mem_singleton] at h
      rw [h]; exact hx
  · simp [neutral_element, hx0]

theorem replicate_zero_lt (n : Nat) : ∀ d ∈ List.replicate n 0, d < BASE := by
  intro d hd
  rw [(List.mem_replicate.mp hd).2]
  exact BASE_pos

theorem check_for_zero_false (a : big_integer) (h : a.value ≠ 0) : a.check_for_zero = false := by
  cases hz : a.check_for_zero
  · rfl
  · exact absurd (check_for_zero_value a hz) h

end big_integer

/-! ## Decimal output -/

theorem toDigitsCore_append (fuel n : Nat) (ds : List Char) :
    Nat.toDigitsCore 10 fuel n ds = Nat.toDigitsCore 10 fuel n [] ++ ds := by
  induction fuel generalizing n ds with
  | zero => simp [Nat.toDigitsCore]
  | succ fuel ih =>
    simp only [Nat.toDigitsCore]
    split
    · simp
    · rw [ih (n / 10) (Nat.digitChar (n % 10) :: ds), ih (n / 10) [Nat.digitChar (n % 10)]]
      simp

theorem toDigitsCore_fuel (fuel1 fuel2 n : Nat) (h1 : n < fuel1) (h2 : n < fuel2) :
    Nat.toDigitsCore 10 fuel1 n [] = Nat.toDigitsCore 10 fuel2 n [] := by
  induction fuel1 generalizing fuel2 n with
  | zero => omega
  | succ fuel1 ih =>
    cases fuel2 with
    | zero => omega
    | succ fuel2 =>
      simp only [Nat.toDigitsCore]
      split
      · rfl
      · next hne =>
        rw [toDigitsCore_append fuel1, toDigitsCore_append fuel2]
        have hlt : n / 10 < n := by omega
        rw [ih fuel2 (n / 10) (by omega) (by omega)]

theorem toDigits_step (n : Nat) (h : n / 10 ≠ 0) :
    Nat.toDigits 10 n = Nat.toDigits 10 (n / 10) ++ [Nat.digitChar (n % 10)] := by
  unfold Nat.toDigits
  have e : Nat.toDigitsCore 10 (n + 1) n []
      = if n / 10 = 0 then [Nat.digitChar (n % 10)]
        else Nat.toDigitsCore 10 n (n / 10) [Nat.digitChar (n % 10)] := rfl
  rw [e, if_neg h, toDigitsCore_append]
  have hlt : n / 10 < n := by omega
  rw [toDigitsCore_fuel n (n / 10 + 1) (n / 10) hlt (by omega)]

theorem toDigits_small (n : Nat) (h : n / 10 = 0) :
    Nat.toDigits 10 n = [Nat.digitChar (n % 10)] := by
  unfold Nat.toDigits
  simp [Nat.toDigitsCore, h]

theorem ofNat_digit (d : Nat) (h : d < 10) : Char.ofNat (d + 48) = Nat.digitChar d := by
  interval_cases d <;> rfl

theorem digitChar_eq_zero (d : Nat) (h : d < 10) : (Nat.digitChar d == '0') = decide (d = 0) := by
  interval_cases d <;> rfl

theorem dropWhile_append_singleton (p : Char → Bool) (l : List Char) (c : Char) :
    (l ++ [c]).dropWhile p
      = if l.dropWhile p = [] then [c].dropWhile p else l.dropWhile p ++ [c] := by
  induction l with
  | nil => simp
  | cons x l ih =>
    simp only [List.dropWhile_cons] at ih
    simp only [List.cons_append, List.dropWhile_cons]
    split
    · exact ih
    · simp

namespace big_integer

theorem chunk_chars_add (m n v : Nat) :
    chunk_chars (m + n) v = chunk_chars m v ++ chunk_chars n (v / 10 ^ m) := by
  induction m generalizing v with
  | zero => simp [chunk_chars]
  | succ m ih =>
    rw [show m + 1 + n = (m + n) + 1 by omega]
    simp only [chunk_chars, ih, List.cons_append]
    rw [Nat.div_div_eq_div_mul, pow_succ, mul_comm]

theorem chunk_chars_mod (m v : Nat) : chunk_chars m (v % 10 ^ m) = chunk_chars m v := by
  induction m generalizing v with
  | zero => simp [chunk_chars]
  | succ m ih =>
    simp only [chunk_chars]
    have h1 : v % 10 ^ (m + 1) % 10 = v % 10 := by
      apply Nat.mod_mod_of_dvd
      exact Dvd.intro_left (10 ^ m) rfl
    have h2 : v % 10 ^ (m + 1) / 10 = v / 10 % 10 ^ m := by
      rw [pow_succ, mul_comm, Nat.mod_mul_right_div_self]
    rw [h1, h2, ih]

/-- Reading the zero-padded little-endian digits backwards and dropping the
leading zeros gives the decimal digits without leading zeros. -/
theorem chunk_chars_strip (k v : Nat) (hv : v < 10 ^ k) :
    (chunk_chars k v).reverse.dropWhile (fun c => c == '0')
      = if v = 0 then [] else Nat.toDigits 10 v := by
  induction k generalizing v with
  | zero =>
    have : v = 0 := by simpa using hv
    simp [chunk_chars, this]
  | succ k ih =>
    have hv10 : v / 10 < 10 ^ k := by
      rw [pow_succ] at hv
      exact Nat.div_lt_of_lt_mul (by rw [mul_comm]; exact hv)
    have hd : v % 10 < 10 := Nat.mod_lt _ (by norm_num)
    simp only [chunk_chars, List.reverse_cons]
    rw [dropWhile_append_singleton, ih (v / 10) hv10, ofNat_digit _ hd]
    by_cases h0 : v / 10 = 0
    · simp only [h0, if_true]
      by_cases hv0 : v = 0
      · subst hv0
        simp
        rfl
      · have hne : v % 10 ≠ 0 := by omega
        simp only [hv0, if_false, List.dropWhile_cons, digitChar_eq_zero _ hd, hne,
          decide_False, Bool.false_eq_true, if_false]
        rw [toDigits_small v h0]
    · have hv0 : v ≠ 0 := by omega
      simp only [h0, hv0, if_false]
      have hne : Nat.toDigits 10 (v / 10) ≠ [] := by
        unfold Nat.toDigits
        simp only [Nat.toDigitsCore]
        split
        · simp
        · rw [toDigitsCore_append]; simp
      simp only [hne, if_false]
      rw [toDigits_step v h0]

theorem small_div_count_of_le (size : Nat) (h : size ≤ 2147483648) :
    small_div_count size = size := by
  unfold small_div_count to_int to_size_t
  split_ifs <;> omega

theorem small_div_count_of_gt (size : Nat) (h1 : 2147483648 < size) (h2 : size ≤ 4294967296) :
    small_div_count size = 0 := by
  unfold small_div_count to_int to_size_t
  split_ifs <;> omega

theorem small_div_loop_zero (x : Nat) (ds : List Nat) : small_div_loop x 0 ds = (ds, 0) := by
  cases ds <;> rfl

theorem small_div_loop_value (x count : Nat) (ds : List Nat) (hx0 : 0 < x)
    (hwf : ∀ d ∈ ds, d < BASE) (hc : ds.length ≤ count) :
    limbs_value (small_div_loop x count ds).1 = limbs_value ds / x ∧
      (small_div_loop x count ds).2 = limbs_value ds % x := by
  induction ds generalizing count with
  | nil => cases count <;> simp [small_div_loop, limbs_value]
  | cons d ds ih =>
    cases count with
    | zero => simp at hc
    | succ count =>
    obtain ⟨ihq, ihr⟩ := ih count (fun e he => hwf e (List.mem_cons_of_mem _ he))
      (by simpa using hc)
    have hd : d < BASE := hwf d (List.mem_cons_self _ _)
    simp only [small_div_loop, limbs_value]
    rw [ihr, ihq]
    set V := limbs_value ds with hV
    have hr : V % x < x := Nat.mod_lt _ hx0
    have hsplit : d + BASE * V = (d + BASE * (V % x)) + x * (BASE * (V / x)) := by
      have := Nat.mod_add_div V x
      calc d + BASE * V = d + BASE * (V % x + x * (V / x)) := by rw [this]
        _ = (d + BASE * (V % x)) + x * (BASE * (V / x)) := by ring
    have hnew : d + BASE * (V % x) < x * BASE := by
      have h1 : V % x + 1 ≤ x := hr
      have h2 : BASE * (V % x + 1) ≤ BASE * x := Nat.mul_le_mul_left _ h1
      have h3 : BASE * (V % x + 1) = BASE * (V % x) + BASE := by ring
      have h4 : x * BASE = BASE * x := by ring
      omega
    have hq : (d + BASE * (V % x)) / x < BASE := Nat.div_lt_of_lt_mul hnew
    rw [Nat.mod_eq_of_lt hq, hsplit, Nat.add_mul_div_left _ _ hx0, Nat.add_mul_mod_self_left]
    exact ⟨rfl, rfl⟩

/-- The function `small_div_core` on a non-negative value of at most `2^31` limbs
(the start index of the loop fits `int`): quotient and remainder of the
represented natural number. -/
theorem small_div_core_value (b : big_integer) (x : Nat) (hwf : b.well_formed)
    (hneg : b._is_negative = false) (hx0 : 0 < x) (hx : x ≤ BASE)
    (hlen : b._digits.length ≤ 2147483648) :
    limbs_value (small_div_core b x).1._digits = limbs_value b._digits / x ∧
      (small_div_core b x).2 = limbs_value b._digits % x ∧
      (small_div_core b x).1.canonical ∧ (small_div_core b x).1._is_negative = false := by
  obtain ⟨hq, hr⟩ := small_div_loop_value x b._digits.length b._digits hx0 hwf (le_refl _)
  have hdef : small_div_core b x
      = (clear_zeros ⟨(small_div_loop x b._digits.length b._digits).1, false⟩,
          (small_div_loop x b._digits.length b._digits).2 % BASE) := by
    unfold small_div_core
    simp only [inplace_abs_of_nonneg b hneg, hneg, Bool.false_eq_true, if_false,
      small_div_count_of_le _ hlen]
  rw [hdef]
  simp only []
  refine ⟨?_, ?_, clear_zeros_canonical _ (small_div_loop_lt _ _ _ hwf), rfl⟩
  · have h := clear_zeros_value ⟨(small_div_loop x b._digits.length b._digits).1, false⟩
    rw [value_of_nonneg _ (by rw [clear_zeros_is_negative]), value_of_nonneg _ rfl] at h
    have h2 : limbs_value
        (clear_zeros ⟨(small_div_loop x b._digits.length b._digits).1, false⟩)._digits
        = limbs_value (small_div_loop x b._digits.length b._digits).1 := by exact_mod_cast h
    rw [h2, hq]
  · rw [hr]
    apply Nat.mod_eq_of_lt
    exact lt_of_lt_of_le (Nat.mod_lt _ hx0) hx

/-- The function `small_div_core` on a canonical non-negative value of more than
`2^31` (and at most `2^32`) limbs: the start index `size - 1` is negative as an
`int`, the loop body never runs, and the value is returned undivided with
remainder 0. -/
theorem small_div_core_skipped (b : big_integer) (x : Nat) (hc : b.canonical)
    (hneg : b._is_negative = false) (h1 : 2147483648 < b._digits.length)
    (h2 : b._digits.length ≤ 4294967296) :
    small_div_core b x = (b, 0) := by
  unfold small_div_core
  simp only [inplace_abs_of_nonneg b hneg, hneg, Bool.false_eq_true, if_false,
    small_div_count_of_gt _ h1 h2, small_div_loop_zero]
  have e : (⟨b._digits, false⟩ : big_integer) = b := by
    obtain ⟨ds, s⟩ := b
    simp only at hneg
    rw [hneg]
  rw [e, clear_zeros_of_canonical b hc]
  rfl

/-- The quotient returned by `small_div_core` has no more limbs than the receiver. -/
theorem small_div_core_length (b : big_integer) (x : Nat) (hwf : b.well_formed)
    (hneg : b._is_negative = false) (hx0 : 0 < x) (hx : x ≤ BASE)
    (hlen : b._digits.length ≤ 2147483648) :
    (small_div_core b x).1._digits.length ≤ b._digits.length := by
  obtain ⟨hq, -, hcq, hnq⟩ := small_div_core_value b x hwf hneg hx0 hx hlen
  apply length_le_of_lt _ hcq hnq
  rw [hq]
  exact lt_of_le_of_lt (Nat.div_le_self _ _) (limbs_value_lt _ hwf)

/-- The loop of `to_string`: with enough fuel it appends the zero-padded
little-endian decimal digits of the value, nine at a time. -/
theorem to_string_loop_spec (fuel : Nat) (b : big_integer) (res : List Char)
    (hc : b.canonical) (hneg : b._is_negative = false)
    (hlen : b._digits.length ≤ 2147483648)
    (hfuel : limbs_value b._digits < (10 ^ 9) ^ fuel) :
    ∃ j, to_string_loop fuel b res = res ++ chunk_chars (9 * j) (limbs_value b._digits) ∧
      limbs_value b._digits < 10 ^ (9 * j) := by
  induction fuel generalizing b res with
  | zero =>
    refine ⟨0, ?_, by simpa using hfuel⟩
    simp [to_string_loop, chunk_chars]
  | succ fuel ih =>
    unfold to_string_loop
    split
    · next hz =>
      have hv := check_for_zero_value b hz
      have hv0 : limbs_value b._digits = 0 := by
        simp only [value, hneg, Bool.false_eq_true, if_false, sub_zero] at hv
        exact_mod_cast hv
      refine ⟨0, by simp [chunk_chars], by rw [hv0]; simp⟩
    · obtain ⟨hq, hr, hcq, hnq⟩ := small_div_core_value b 1000000000 hc.1 hneg (by norm_num)
        (by unfold BASE; norm_num) hlen
      have hql := small_div_core_length b 1000000000 hc.1 hneg (by norm_num)
        (by unfold BASE; norm_num) hlen
      have hf : limbs_value (small_div_core b 1000000000).1._digits < (10 ^ 9) ^ fuel := by
        rw [hq]
        apply Nat.div_lt_of_lt_mul
        rw [pow_succ] at hfuel
        have : (10 ^ 9 : Nat) = 1000000000 := by norm_num
        rw [this] at hfuel ⊢
        rw [mul_comm]
        exact hfuel
      obtain ⟨j, hj, hlt⟩ := ih (small_div_core b 1000000000).1
        (res ++ chunk_chars 9 (small_div_core b 1000000000).2) hcq hnq (le_trans hql hlen) hf
      refine ⟨j + 1, ?_, ?_⟩
      · rw [hj, hr, hq]
        have e9 : (1000000000 : Nat) = 10 ^ 9 := by norm_num
        rw [e9, chunk_chars_mod, show 9 * (j + 1) = 9 + 9 * j by ring, chunk_chars_add]
        simp
      · rw [hq] at hlt
        have e9 : (1000000000 : Nat) = 10 ^ 9 := by norm_num
        rw [e9] at hlt
        rw [show 9 * (j + 1) = 9 * j + 9 by ring, pow_add]
        exact (Nat.div_lt_iff_lt_mul (by positivity)).mp hlt

/-- The function `to_string` prints the canonical decimal representation of the
represented integer, for a canonical value of fewer than `2^31` limbs. -/
theorem to_string_value (a : big_integer) (ha : a.canonical)
    (hlen : a._digits.length < 2147483648) :
    to_string a = canonical_decimal a.value := by
  by_cases hemp : a._digits = []
  · obtain ⟨ds, s⟩ := a
    simp only at hemp
    subst hemp
    cases s <;> rfl
  · obtain ⟨hbv, hbc, hbn⟩ := abs_value a ha
    have hV : (limbs_value a.abs._digits : Int) = |a.value| := by
      rw [← hbv]; simp [value, hbn]
    have hVn : limbs_value a.abs._digits = a.value.natAbs := by
      have : (limbs_value a.abs._digits : Int) = (a.value.natAbs : Int) := by
        rw [hV, Int.natCast_natAbs]
      exact_mod_cast this
    have hane : a.value ≠ 0 := by
      intro h0
      have := check_for_zero_of_value a ha h0
      have hz : (⟨[], false⟩ : big_integer).canonical := by decide
      have : a = ⟨[], false⟩ := canonical_eq_of_value_eq a _ ha hz (by rw [h0]; rfl)
      exact hemp (by rw [this])
    have hVpos : limbs_value a.abs._digits ≠ 0 := by
      rw [hVn]
      exact Int.natAbs_ne_zero.mpr hane
    have hfuel : limbs_value a.abs._digits < (10 ^ 9) ^ (2 * a.abs._digits.length) := by
      have h1 := limbs_value_lt a.abs._digits hbc.1
      have h2 : BASE ^ a.abs._digits.length ≤ (10 ^ 9) ^ (2 * a.abs._digits.length) := by
        rw [pow_mul]
        apply Nat.pow_le_pow_left
        unfold BASE
        norm_num
      omega
    have habslen : a.abs._digits.length ≤ 2147483648 := by
      have : a.abs._digits.length ≤ a._digits.length + 1 := by
        apply length_le_of_lt _ hbc hbn
        have hvl := value_lt_pow a ha.1
        have h1 : (limbs_value a.abs._digits : Int) ≤ (BASE : Int) ^ a._digits.length := by
          rw [hV]; exact abs_le.mpr ⟨hvl.2, le_of_lt hvl.1⟩
        have h2 : limbs_value a.abs._digits ≤ BASE ^ a._digits.length := by exact_mod_cast h1
        have h3 : BASE ^ a._digits.length < BASE ^ (a._digits.length + 1) :=
          Nat.pow_lt_pow_right (by decide) (Nat.lt_succ_self _)
        omega
      omega
    obtain ⟨j, hj, hlt⟩ := to_string_loop_spec _ a.abs [] hbc hbn habslen hfuel
    have hstrip := chunk_chars_strip (9 * j) (limbs_value a.abs._digits) hlt
    rw [if_neg hVpos, hVn] at hstrip
    rw [hVn] at hj
    have hneg := is_negative_iff a ha.1
    unfold to_string canonical_decimal
    have hie : a._digits.isEmpty = false := by
      cases h : a._digits with
      | nil => exact absurd h hemp
      | cons _ _ => rfl
    simp only [hie, Bool.false_eq_true, if_false, hj, List.nil_append, List.reverse_reverse]
    by_cases hs : a._is_negative = true
    · have := hneg.mp hs
      simp [hs, this, hstrip]
    · have hlt0 : ¬ a.value < 0 := fun h => hs (hneg.mpr h)
      simp [hs, hlt0, hstrip]

theorem canonical_decimal_ne_nil (z : Int) : canonical_decimal z ≠ [] := by
  have h : ∀ m : Nat, Nat.toDigits 10 m ≠ [] := by
    intro m
    by_cases hm : m / 10 = 0
    · rw [toDigits_small m hm]; simp
    · rw [toDigits_step m hm]; simp
  unfold canonical_decimal
  split
  · simp
  · exact h _

/-- The loop of `to_string` on a value that `small_div(10^9)` returns undivided with
remainder 0: every iteration appends nine characters `0` and finds `b` unchanged,
so the loop uses up every bound on its iterations. -/
theorem to_string_loop_stuck (b : big_integer) (hz : b.check_for_zero = false)
    (hfix : small_div_core b 1000000000 = (b, 0)) (fuel : Nat) (res : List Char) :
    to_string_loop fuel b res = res ++ List.replicate (9 * fuel) '0' := by
  induction fuel generalizing res with
  | zero => simp [to_string_loop]
  | succ fuel ih =>
    unfold to_string_loop
    rw [hz, hfix]
    simp only [Bool.false_eq_true, if_false]
    rw [ih]
    have h9 : chunk_chars 9 0 = List.replicate 9 '0' := by decide
    have hs : 9 * (fuel + 1) = 9 + 9 * fuel := by ring
    rw [h9, hs, List.replicate_add, List.append_assoc]

/-- The function `to_string` on `BASE ^ n` for `2^31 ≤ n < 2^32`, a canonical value
of `n + 1` limbs: `small_div(10^9)` returns it undivided, the loop
`while (!b.check_for_zero())` never finds `b` zero, and the bounded loop of
`to_string` ends on zeros only, which is not the canonical decimal form. -/
theorem to_string_large (n : Nat) (h1 : 2147483648 ≤ n) (h2 : n < 4294967296) :
    (⟨List.replicate n 0 ++ [1], false⟩ : big_integer).canonical ∧
      small_div_core ⟨List.replicate n 0 ++ [1], false⟩ 1000000000
        = (⟨List.replicate n 0 ++ [1], false⟩, 0) ∧
      (∀ fuel res, to_string_loop fuel (abs ⟨List.replicate n 0 ++ [1], false⟩) res
        = res ++ List.replicate (9 * fuel) '0') ∧
      to_string ⟨List.replicate n 0 ++ [1], false⟩
        ≠ canonical_decimal (⟨List.replicate n 0 ++ [1], false⟩ : big_integer).value := by
  have hc : (⟨List.replicate n 0 ++ [1], false⟩ : big_integer).canonical :=
    canonical_append_singleton _ 1 (replicate_zero_lt n) (by decide) (by decide)
  have hlen : (⟨List.replicate n 0 ++ [1], false⟩ : big_integer)._digits.length = n + 1 := by
    simp only [List.length_append, List.length_replicate, List.length_cons, List.length_nil]
  have hfix := small_div_core_skipped ⟨List.replicate n 0 ++ [1], false⟩ 1000000000 hc rfl
    (by rw [hlen]; omega) (by rw [hlen]; omega)
  have habs : abs ⟨List.replicate n 0 ++ [1], false⟩ = ⟨List.replicate n 0 ++ [1], false⟩ := by
    simp [abs]
  have hz : check_for_zero ⟨List.replicate n 0 ++ [1], false⟩ = false := by
    apply check_for_zero_false
    rw [value_of_nonneg _ rfl]
    show ((limbs_value (List.replicate n 0 ++ [1]) : Nat) : Int) ≠ 0
    rw [limbs_value_append, limbs_value_replicate_zero, List.length_replicate, zero_add]
    have : 0 < BASE ^ n * limbs_value [1] :=
      Nat.mul_pos (Nat.pow_pos BASE_pos) (by decide)
    exact_mod_cast (Nat.ne_of_gt this)
  have hloop : ∀ fuel res, to_string_loop fuel (abs ⟨List.replicate n 0 ++ [1], false⟩) res
      = res ++ List.replicate (9 * fuel) '0' := by
    intro fuel res
    rw [habs]
    exact to_string_loop_stuck _ hz hfix fuel res
  refine ⟨hc, hfix, hloop, ?_⟩
  have hts : to_string ⟨List.replicate n 0 ++ [1], false⟩ = [] := by
    unfold to_string
    have hie : (⟨List.replicate n 0 ++ [1], false⟩ : big_integer)._digits.isEmpty = false := by
      simp
    simp only [hie, Bool.false_eq_true, if_false, hloop, List.nil_append, List.reverse_replicate]
    have hd : ∀ m : Nat, List.dropWhile (fun c => c == '0') (List.replicate m '0') = [] := by
      intro m
      induction m with
      | zero => rfl
      | succ m ih => rw [List.replicate_succ, List.dropWhile_cons]; simp [ih]
    rw [hd]
    rfl
  rw [hts]
  exact fun h => canonical_decimal_ne_nil _ h.symm

end big_integer
/-! ## Long division: the quotient-digit estimate and the correction loop -/

/-- The bound of Knuth's Theorems A and B in multiplicative form: with `t` the top
limb of the normalised divisor (`BASE ≤ 2 t`), `W` the weight of that limb in the
shifted divisor `D` and `U` the part of the remainder `R` above that weight, the
clamped estimate `min (U / t) (BASE - 1)` is at least the true digit `R / D` and
exceeds it by at most 2. -/
theorem estimate_bound (R D W t : Nat) (hW : 0 < W) (ht : BASE ≤ 2 * t)
    (hD1 : t * W ≤ D) (hD2 : D < (t + 1) * W) (hR : R < D * BASE) :
    R / D ≤ min (R / W / t) (BASE - 1) ∧ min (R / W / t) (BASE - 1) ≤ R / D + 2 := by
  have hB : 0 < BASE := BASE_pos
  have ht0 : 0 < t := by omega
  have hD0 : 0 < D := lt_of_lt_of_le (Nat.mul_pos ht0 hW) hD1
  have hq1 : R / D * D ≤ R := Nat.div_mul_le_self R D
  have hq2 : R < (R / D + 1) * D := by
    have := Nat.lt_succ_self (R / D)
    exact (Nat.div_lt_iff_lt_mul hD0).mp this
  have hqB : R / D < BASE := (Nat.div_lt_iff_lt_mul hD0).mpr (by rw [mul_comm]; rw [mul_comm] at hR; rw [mul_comm]; exact hR)
  constructor
  · apply Nat.le_min.mpr
    constructor
    · -- q * t * W ≤ q * D ≤ R
      rw [Nat.le_div_iff_mul_le ht0, Nat.le_div_iff_mul_le hW]
      calc R / D * t * W = R / D * (t * W) := by ring
        _ ≤ R / D * D := Nat.mul_le_mul_left _ hD1
        _ ≤ R := hq1
    · omega
  · by_contra hc
    have hc' : R / D + 3 ≤ min (R / W / t) (BASE - 1) := by omega
    have h1 : R / D + 3 ≤ R / W / t := le_trans hc' (Nat.min_le_left _ _)
    have h2 : R / D + 3 ≤ BASE - 1 := le_trans hc' (Nat.min_le_right _ _)
    have h3 : (R / D + 3) * t ≤ R / W := (Nat.le_div_iff_mul_le ht0).mp h1
    have h4 : (R / D + 3) * t * W ≤ R := (Nat.le_div_iff_mul_le hW).mp h3
    -- R < (q + 1) * D < (q + 1) * (t + 1) * W
    have h5 : (R / D + 1) * D < (R / D + 1) * ((t + 1) * W) :=
      Nat.mul_lt_mul_of_pos_left hD2 (Nat.succ_pos _)
    have h6 : (R / D + 3) * t * W < (R / D + 1) * (t + 1) * W := by
      calc (R / D + 3) * t * W ≤ R := h4
        _ < (R / D + 1) * D := hq2
        _ < (R / D + 1) * ((t + 1) * W) := h5
        _ = (R / D + 1) * (t + 1) * W := by ring
    have h7 : (R / D + 3) * t < (R / D + 1) * (t + 1) := Nat.lt_of_mul_lt_mul_right h6
    have h8 : 2 * t ≤ R / D := by nlinarith
    omega

theorem limbs_value_getD (ds : List Nat) (hwf : ∀ d ∈ ds, d < BASE) (j : Nat) :
    ds.getD j 0 = limbs_value ds / BASE ^ j % BASE := by
  induction ds generalizing j with
  | nil => simp [limbs_value]
  | cons d ds ih =>
    have hd : d < BASE := hwf d (List.mem_cons_self _ _)
    have hdiv : (d + BASE * limbs_value ds) / BASE = limbs_value ds := by
      rw [Nat.add_mul_div_left _ _ BASE_pos, Nat.div_eq_of_lt hd, zero_add]
    cases j with
    | zero =>
      simp only [List.getD_cons_zero, limbs_value, pow_zero, Nat.div_one]
      rw [Nat.add_mul_mod_self_left, Nat.mod_eq_of_lt hd]
    | succ j =>
      have e : limbs_value (d :: ds) / BASE ^ (j + 1) = limbs_value ds / BASE ^ j := by
        rw [pow_succ, mul_comm (BASE ^ j) BASE, ← Nat.div_div_eq_div_mul]
        show (d + BASE * limbs_value ds) / BASE / BASE ^ j = _
        rw [hdiv]
      rw [e, List.getD_cons_succ, ih (fun e he => hwf e (List.mem_cons_of_mem _ he)) j]

namespace big_integer

theorem operator_lt_zero (x : big_integer) : operator_lt x (of_long_long 0) = x._is_negative := by
  have h0 : of_long_long 0 = ⟨[], false⟩ := by decide
  rw [h0]
  obtain ⟨ds, s⟩ := x
  cases s
  · cases ds with
    | nil => rfl
    | cons d ds => simp [operator_lt]
  · simp [operator_lt]

theorem nonneg_of_value (a : big_integer) (hwf : a.well_formed) (h : 0 ≤ a.value) :
    a._is_negative = false := by
  cases hs : a._is_negative
  · rfl
  · have := (is_negative_iff a hwf).mp hs
    omega

theorem small_mul_loop_spec (x : Nat) (ds : List Nat) (carry : Nat) (hx : x < BASE)
    (hwf : ∀ d ∈ ds, d < BASE) (hc : carry < BASE) :
    limbs_value (small_mul_loop x ds carry).1
        + BASE ^ ds.length * (small_mul_loop x ds carry).2 = limbs_value ds * x + carry ∧
      (small_mul_loop x ds carry).2 < BASE ∧
      (∀ d ∈ (small_mul_loop x ds carry).1, d < BASE) ∧
      (small_mul_loop x ds carry).1.length = ds.length := by
  induction ds generalizing carry with
  | nil => simp [small_mul_loop, limbs_value, hc]
  | cons d ds ih =>
    have hd : d < BASE := hwf d (List.mem_cons_self _ _)
    have hm : (d * x + carry) / BASE < BASE := by
      apply Nat.div_lt_of_lt_mul
      have : d * x ≤ (BASE - 1) * (BASE - 1) :=
        Nat.mul_le_mul (by omega) (by omega)
      unfold BASE at *
      omega
    obtain ⟨h1, h2, h3, h4⟩ := ih ((d * x + carry) / BASE)
      (fun e he => hwf e (List.mem_cons_of_mem _ he)) hm
    simp only [small_mul_loop, limbs_value, List.length_cons, pow_succ]
    refine ⟨?_, h2, ?_, by rw [h4]⟩
    · have hmd := Nat.mod_add_div (d * x + carry) BASE
      have e : (d * x + carry) % BASE
            + BASE * limbs_value (small_mul_loop x ds ((d * x + carry) / BASE)).1
            + BASE ^ ds.length * BASE * (small_mul_loop x ds ((d * x + carry) / BASE)).2
          = (d * x + carry) % BASE + BASE * (limbs_value (small_mul_loop x ds ((d * x + carry) / BASE)).1
            + BASE ^ ds.length * (small_mul_loop x ds ((d * x + carry) / BASE)).2) := by ring
      rw [e, h1]
      nlinarith
    · intro e he
      rcases List.mem_cons.mp he with rfl | he
      · exact Nat.mod_lt _ BASE_pos
      · exact h3 e he

/-- The function `small_mul` on a non-negative receiver is exact. -/
theorem small_mul_value (a : big_integer) (x : Nat) (hwf : a.well_formed)
    (hn : a._is_negative = false) (hx : x < BASE) :
    limbs_value (small_mul a x)._digits = limbs_value a._digits * x ∧
      (small_mul a x).canonical ∧ (small_mul a x)._is_negative = false := by
  obtain ⟨ds, s⟩ := a
  simp only at hn
  subst hn
  obtain ⟨h1, h2, h3, h4⟩ := small_mul_loop_spec x ds 0 hx hwf BASE_pos
  have hdef : small_mul ⟨ds, false⟩ x
      = clear_zeros ⟨(small_mul_loop x ds 0).1 ++ [(small_mul_loop x ds 0).2 % BASE], false⟩ := by
    unfold small_mul
    simp [inplace_abs]
  have hwf2 : (⟨(small_mul_loop x ds 0).1 ++ [(small_mul_loop x ds 0).2 % BASE], false⟩
      : big_integer).well_formed := by
    intro d hd
    rcases List.mem_append.mp hd with h | h
    · exact h3 d h
    · simp only [List.mem_singleton] at h
      rw [h]; exact Nat.mod_lt _ BASE_pos
  rw [hdef]
  refine ⟨?_, clear_zeros_canonical _ hwf2, rfl⟩
  have hv := clear_zeros_value
    ⟨(small_mul_loop x ds 0).1 ++ [(small_mul_loop x ds 0).2 % BASE], false⟩
  rw [value_of_nonneg _ rfl, value_of_nonneg _ rfl] at hv
  have hv' : limbs_value (clear_zeros
      ⟨(small_mul_loop x ds 0).1 ++ [(small_mul_loop x ds 0).2 % BASE], false⟩)._digits
      = limbs_value ((small_mul_loop x ds 0).1 ++ [(small_mul_loop x ds 0).2 % BASE]) := by
    exact_mod_cast hv
  rw [hv', limbs_value_append, h4, Nat.mod_eq_of_lt h2]
  simp only [limbs_value, mul_zero, add_zero]
  simpa using h1

end big_integer

namespace big_integer

theorem get_or_default_zero (a : big_integer) (j : Nat) :
    a.get_or_default j 0 = a._digits.getD j 0 := by
  unfold get_or_default
  split
  · next h => rw [List.getD_eq_default _ _ h]
  · rfl

theorem limbs_value_drop_one (ds : List Nat) (hwf : ∀ d ∈ ds, d < BASE) :
    limbs_value (ds.drop 1) = limbs_value ds / BASE := by
  cases ds with
  | nil => simp [limbs_value]
  | cons d ds =>
    have hd : d < BASE := hwf d (List.mem_cons_self _ _)
    simp only [List.drop_succ_cons, List.drop_zero, limbs_value]
    rw [Nat.add_mul_div_left _ _ BASE_pos, Nat.div_eq_of_lt hd, zero_add]

theorem small_div_loop_one (count : Nat) (ds : List Nat) (hwf : ∀ d ∈ ds, d < BASE) :
    small_div_loop 1 count ds = (ds, 0) := by
  induction ds generalizing count with
  | nil => cases count <;> rfl
  | cons d ds ih =>
    cases count with
    | zero => rfl
    | succ count =>
      have hd : d < BASE := hwf d (List.mem_cons_self _ _)
      simp only [small_div_loop, ih count (fun e he => hwf e (List.mem_cons_of_mem _ he)),
        mul_zero, add_zero, Nat.div_one, Nat.mod_one, Nat.mod_eq_of_lt hd]

/-- Division by one leaves a canonical non-negative value as it is, however many
limbs the loop of `small_div` visits. -/
theorem small_div_core_one (a : big_integer) (hc : a.canonical) (hn : a._is_negative = false) :
    small_div_core a 1 = (a, 0) := by
  unfold small_div_core
  simp only [inplace_abs_of_nonneg a hn, hn, Bool.false_eq_true, if_false,
    small_div_loop_one _ _ hc.1]
  have e : (⟨a._digits, false⟩ : big_integer) = a := by
    obtain ⟨ds, s⟩ := a
    simp only at hn
    rw [hn]
  rw [e, clear_zeros_of_canonical a hc]
  rfl

/-- The statement `multiplier >>= 32` on a canonical non-negative value drops the
lowest limb. -/
theorem operator_shr_32 (a : big_integer) (hc : a.canonical) (hn : a._is_negative = false) :
    limbs_value (operator_shr a 32)._digits = limbs_value a._digits / BASE ∧
      (operator_shr a 32).canonical ∧ (operator_shr a 32)._is_negative = false := by
  have hwf := hc.1
  have ht : (small_div_core a 1).1 = a := by rw [small_div_core_one a hc hn]
  have hdef : operator_shr a 32 = clear_zeros
      (if 1 ≥ a._digits.length then ⟨[], false⟩ else ⟨a._digits.drop 1, false⟩) := by
    unfold operator_shr
    rw [if_neg (by decide)]
    simp only [inplace_abs_of_nonneg a hn]
    have e1 : (2 : Nat) ^ (32 % 32) = 1 := by decide
    have e2 : 32 / 32 = 1 := by decide
    rw [e1, e2, ht, hn]
    simp
  have hwf2 : (if 1 ≥ a._digits.length then (⟨[], false⟩ : big_integer)
      else ⟨a._digits.drop 1, false⟩).well_formed := by
    split
    · intro d hd; simp at hd
    · intro d hd
      exact hwf d (List.mem_of_mem_drop hd)
  have hneg2 : (if 1 ≥ a._digits.length then (⟨[], false⟩ : big_integer)
      else ⟨a._digits.drop 1, false⟩)._is_negative = false := by
    split <;> rfl
  have hval2 : limbs_value (if 1 ≥ a._digits.length then (⟨[], false⟩ : big_integer)
      else ⟨a._digits.drop 1, false⟩)._digits = limbs_value a._digits / BASE := by
    split
    · next h =>
      have hlt := limbs_value_lt a._digits hwf
      have : BASE ^ a._digits.length ≤ BASE ^ 1 := Nat.pow_le_pow_right BASE_pos h
      rw [pow_one] at this
      rw [Nat.div_eq_of_lt (by omega)]
      rfl
    · exact limbs_value_drop_one _ hwf
  rw [hdef]
  have hneg3 : (clear_zeros (if 1 ≥ a._digits.length then (⟨[], false⟩ : big_integer)
      else ⟨a._digits.drop 1, false⟩))._is_negative = false := by
    rw [clear_zeros_is_negative]; exact hneg2
  refine ⟨?_, clear_zeros_canonical _ hwf2, hneg3⟩
  have hv := clear_zeros_value (if 1 ≥ a._digits.length then (⟨[], false⟩ : big_integer)
      else ⟨a._digits.drop 1, false⟩)
  rw [value_of_nonneg _ hneg3, value_of_nonneg _ hneg2] at hv
  rw [← hval2]
  exact_mod_cast hv

theorem correction_nonneg (fuel : Nat) (this multiplier : big_integer) (q : Nat)
    (h : this._is_negative = false) : correction fuel this multiplier q = .ok (this, q) := by
  cases fuel <;> simp [correction, operator_lt_zero, h]

/-- The correction loop needs at most two iterations when the remainder after
the subtraction of `q * multiplier` is not below `-2 * multiplier`. -/
theorem correction_two (this multiplier : big_integer) (q : Nat) (hc : this.canonical)
    (hm : multiplier.well_formed) (hmn : multiplier._is_negative = false)
    (hlow : -(2 * (limbs_value multiplier._digits : Int)) ≤ this.value)
    (hfit : this.value < 0 → multiplier._digits.length ≠ 1) :
    ∃ r : big_integer × Nat, (∀ f, correction (f + 2) this multiplier q = .ok r) ∧
      r.1.canonical ∧ 0 ≤ r.1.value ∧
      (r.1.value = this.value ∨ r.1.value < (limbs_value multiplier._digits : Int)) := by
  have hmv : multiplier.value = (limbs_value multiplier._digits : Int) := value_of_nonneg _ hmn
  by_cases h0 : 0 ≤ this.value
  · have hn := nonneg_of_value this hc.1 h0
    exact ⟨(this, q), fun f => correction_nonneg _ _ _ _ hn, hc, h0, Or.inl rfl⟩
  · have hlt : this.value < 0 := by omega
    have hneg : this._is_negative = true := (is_negative_iff this hc.1).mpr hlt
    have hlen := hfit hlt
    obtain ⟨hv1, hc1⟩ := subadd_value this multiplier true hc.1 hm (Or.inr (Or.inr (Or.inl hlen)))
    simp only [if_true] at hv1
    have hstep1 : ∀ f, correction (f + 2) this multiplier q
        = correction (f + 1) (operator_add this multiplier) multiplier ((q + 4294967295) % BASE) := by
      intro f
      show (if operator_lt this (of_long_long 0) then _ else _) = _
      rw [operator_lt_zero, hneg]
      rfl
    by_cases h1 : 0 ≤ (operator_add this multiplier).value
    · have hn1 := nonneg_of_value _ hc1.1 h1
      refine ⟨(operator_add this multiplier, (q + 4294967295) % BASE), ?_, hc1, h1, Or.inr ?_⟩
      · intro f
        rw [hstep1]
        exact correction_nonneg _ _ _ _ hn1
      · show (subadd this true multiplier).value < _
        rw [hv1, hmv]; omega
    · have hlt1 : (operator_add this multiplier).value < 0 := by omega
      have hneg1 : (operator_add this multiplier)._is_negative = true :=
        (is_negative_iff _ hc1.1).mpr hlt1
      obtain ⟨hv2, hc2⟩ := subadd_value (operator_add this multiplier) multiplier true hc1.1 hm
        (Or.inr (Or.inr (Or.inl hlen)))
      simp only [if_true] at hv2
      have hv1' : (operator_add this multiplier).value = this.value + multiplier.value := hv1
      have hv2' : (operator_add (operator_add this multiplier) multiplier).value
          = this.value + multiplier.value + multiplier.value := by
        show (subadd (operator_add this multiplier) true multiplier).value = _
        rw [hv2, hv1']
      have h2 : 0 ≤ (operator_add (operator_add this multiplier) multiplier).value := by
        rw [hv2', hmv]; omega
      have hn2 := nonneg_of_value _ hc2.1 h2
      refine ⟨(operator_add (operator_add this multiplier) multiplier,
        ((q + 4294967295) % BASE + 4294967295) % BASE), ?_, hc2, h2, Or.inr ?_⟩
      · intro f
        rw [hstep1]
        show (if operator_lt (operator_add this multiplier) (of_long_long 0) then _ else _) = _
        rw [operator_lt_zero, hneg1, if_pos rfl]
        exact correction_nonneg _ _ _ _ hn2
      · rw [hv2']
        rw [hv1', hmv] at hlt1
        rw [hmv]; omega

theorem quotient_estimate_eq (T : big_integer) (n t i : Nat) (hT : T.well_formed)
    (hn : 1 ≤ n) (hsz : n + i ≤ 18446744073709551616) :
    quotient_estimate T n t i
      = min (limbs_value T._digits / BASE ^ (n + i - 1) % (BASE * BASE) / t) (BASE - 1) := by
  unfold quotient_estimate
  have hidx : to_size_t ((n : Int) + (i : Int) - 1) = n + i - 1 := by
    have : (n : Int) + (i : Int) - 1 = ((n + i - 1 : Nat) : Int) := by omega
    rw [this]
    exact to_size_t_natCast _ (by omega)
  rw [hidx, get_or_default_zero, get_or_default_zero, limbs_value_getD _ hT,
    limbs_value_getD _ hT]
  have hj : n + i = (n + i - 1) + 1 := by omega
  have hdiv : limbs_value T._digits / BASE ^ (n + i)
      = limbs_value T._digits / BASE ^ (n + i - 1) / BASE := by
    conv_lhs => rw [hj]
    rw [pow_succ, Nat.div_div_eq_div_mul]
  rw [hdiv]
  have hmm : limbs_value T._digits / BASE ^ (n + i - 1) % (BASE * BASE)
      = limbs_value T._digits / BASE ^ (n + i - 1) / BASE % BASE * BASE
        + limbs_value T._digits / BASE ^ (n + i - 1) % BASE := by
    rw [Nat.mod_mul]; ring
  have hlt : limbs_value T._digits / BASE ^ (n + i - 1) / BASE % BASE * BASE
        + limbs_value T._digits / BASE ^ (n + i - 1) % BASE < 18446744073709551616 := by
    have h1 : limbs_value T._digits / BASE ^ (n + i - 1) / BASE % BASE < BASE :=
      Nat.mod_lt _ BASE_pos
    have h2 : limbs_value T._digits / BASE ^ (n + i - 1) % BASE < BASE := Nat.mod_lt _ BASE_pos
    unfold BASE at *
    omega
  rw [Nat.mod_eq_of_lt hlt, hmm]

end big_integer

/-- The estimate bound on the limbs the loop reads: `V` is the normalised divisor of
`n` limbs with top limb `t`, the shifted divisor is `V * BASE ^ i`, the remainder
`R` is below `V * BASE ^ (i + 1)`, and the estimate divides the two limbs of `R` at
the indices `n + i` and `n + i - 1` by `t`. -/
theorem estimate_bound_shifted (R V t n i : Nat) (hn : 1 ≤ n) (ht : BASE ≤ 2 * t)
    (htB : t < BASE) (hV1 : t * BASE ^ (n - 1) ≤ V) (hV2 : V < (t + 1) * BASE ^ (n - 1))
    (hR : R < V * BASE ^ (i + 1)) :
    R / (V * BASE ^ i) ≤ min (R / BASE ^ (n + i - 1) % (BASE * BASE) / t) (BASE - 1) ∧
      min (R / BASE ^ (n + i - 1) % (BASE * BASE) / t) (BASE - 1) ≤ R / (V * BASE ^ i) + 2 := by
  have hB : 0 < BASE := BASE_pos
  have hW : 0 < BASE ^ (n + i - 1) := Nat.pow_pos hB
  have hBi : 0 < BASE ^ i := Nat.pow_pos hB
  have hWs : BASE ^ (n + i - 1) = BASE ^ (n - 1) * BASE ^ i := by
    rw [← pow_add]; congr 1; omega
  have hD1 : t * BASE ^ (n + i - 1) ≤ V * BASE ^ i := by
    rw [hWs, ← mul_assoc]
    exact Nat.mul_le_mul_right _ hV1
  have hD2 : V * BASE ^ i < (t + 1) * BASE ^ (n + i - 1) := by
    rw [hWs, ← mul_assoc]
    exact Nat.mul_lt_mul_of_pos_right hV2 hBi
  have hRD : R < V * BASE ^ i * BASE := by
    rw [mul_assoc, ← pow_succ]; exact hR
  have hU : R / BASE ^ (n + i - 1) < BASE * BASE := by
    rw [Nat.div_lt_iff_lt_mul hW]
    have h1 : V * BASE ^ i * BASE < (t + 1) * BASE ^ (n + i - 1) * BASE :=
      Nat.mul_lt_mul_of_pos_right hD2 hB
    have h2 : (t + 1) * BASE ^ (n + i - 1) * BASE ≤ BASE * BASE ^ (n + i - 1) * BASE :=
      Nat.mul_le_mul_right _ (Nat.mul_le_mul_right _ (by omega))
    have h3 : BASE * BASE ^ (n + i - 1) * BASE = BASE * BASE * BASE ^ (n + i - 1) := by ring
    omega
  rw [Nat.mod_eq_of_lt hU]
  exact estimate_bound R (V * BASE ^ i) (BASE ^ (n + i - 1)) t hW ht hD1 hD2 hRD

/-- The arithmetic of one iteration of the long-division loop.  `R` is the running
remainder, `D` the shifted divisor (`multiplier`), `V` the normalised divisor of
`n` limbs with top limb `t`, and `q` the clamped estimate.  Either `D = V * BASE ^ i`
and `R < D * BASE` (the regular case), or the shift count was reduced modulo
`2 ^ 32` and `D` is at most `V * BASE ^ i / BASE`. -/
theorem digit_step_arith (R D V t n i q : Nat) (hn : 1 ≤ n) (ht : BASE ≤ 2 * t) (htB : t < BASE)
    (hV1 : t * BASE ^ (n - 1) ≤ V) (hV2 : V < (t + 1) * BASE ^ (n - 1))
    (hq : q = min (R / BASE ^ (n + i - 1) % (BASE * BASE) / t) (BASE - 1))
    (hreg : (D = V * BASE ^ i ∧ R < V * BASE ^ (i + 1)) ∨ BASE * D ≤ V * BASE ^ i) :
    q * t * BASE ^ (n + i - 1) ≤ R ∧
      -(2 * (D : Int)) ≤ (R : Int) - ((D * q : Nat) : Int) ∧
      ((R : Int) - ((D * q : Nat) : Int) < 0 → BASE ≤ D) ∧
      (D = V * BASE ^ i → (R : Int) - ((D * q : Nat) : Int) < (D : Int)) := by
  have hB : 0 < BASE := BASE_pos
  have ht0 : 0 < t := by omega
  have hW : 0 < BASE ^ (n + i - 1) := Nat.pow_pos hB
  have hBi : 0 < BASE ^ i := Nat.pow_pos hB
  have hWs : BASE ^ (n + i - 1) = BASE ^ (n - 1) * BASE ^ i := by
    rw [← pow_add]; congr 1; omega
  have hqt : q * t * BASE ^ (n + i - 1) ≤ R := by
    have h1 : q ≤ R / BASE ^ (n + i - 1) % (BASE * BASE) / t := by
      rw [hq]; exact Nat.min_le_left _ _
    have h2 : q * t ≤ R / BASE ^ (n + i - 1) % (BASE * BASE) :=
      (Nat.le_div_iff_mul_le ht0).mp h1
    have h3 : q * t ≤ R / BASE ^ (n + i - 1) := le_trans h2 (Nat.mod_le _ _)
    exact (Nat.le_div_iff_mul_le hW).mp h3
  have hVW1 : t * BASE ^ (n + i - 1) ≤ V * BASE ^ i := by
    rw [hWs, ← mul_assoc]
    exact Nat.mul_le_mul_right _ hV1
  have hVW2 : V * BASE ^ i < (t + 1) * BASE ^ (n + i - 1) := by
    rw [hWs, ← mul_assoc]
    exact Nat.mul_lt_mul_of_pos_right hV2 hBi
  refine ⟨hqt, ?_⟩
  rcases hreg with ⟨hD, hR⟩ | hreg
  · -- the regular case
    have hD1 : t * BASE ^ (n + i - 1) ≤ D := by rw [hD]; exact hVW1
    have hD2 : D < (t + 1) * BASE ^ (n + i - 1) := by rw [hD]; exact hVW2
    have hD0 : 0 < D := lt_of_lt_of_le (Nat.mul_pos ht0 hW) hD1
    obtain ⟨hb1, hb2⟩ := estimate_bound_shifted R V t n i hn ht htB hV1 hV2 hR
    rw [← hq, ← hD] at hb1 hb2
    have hdm := Nat.div_add_mod R D
    have hml : R % D < D := Nat.mod_lt _ hD0
    have hp1 : D * (R / D) ≤ D * q := Nat.mul_le_mul_left _ hb1
    have hp2 : D * q ≤ D * (R / D + 2) := Nat.mul_le_mul_left _ hb2
    have hp3 : D * (R / D + 2) = D * (R / D) + 2 * D := by ring
    refine ⟨by omega, ?_, fun _ => by omega⟩
    intro hneg
    by_contra hDB
    have hDB' : D < BASE := by omega
    have hW1 : BASE ^ (n + i - 1) = 1 := by
      by_contra hne
      have : 2 ≤ BASE ^ (n + i - 1) := by omega
      have : t * 2 ≤ t * BASE ^ (n + i - 1) := Nat.mul_le_mul_left _ this
      omega
    rw [hW1] at hD1 hD2 hqt
    have hDt : D = t := by omega
    have : D * q = q * t * 1 := by rw [hDt]; ring
    omega
  · -- the reduced shift count: no correction is needed
    have h1 : BASE * D < BASE * (t * BASE ^ (n + i - 1)) := by
      have h2 : (t + 1) * BASE ^ (n + i - 1) ≤ BASE * t * BASE ^ (n + i - 1) := by
        apply Nat.mul_le_mul_right
        have : 2 * t ≤ BASE * t := Nat.mul_le_mul_right _ (by decide)
        omega
      have h3 : BASE * t * BASE ^ (n + i - 1) = BASE * (t * BASE ^ (n + i - 1)) := by ring
      omega
    have hDlt : D < t * BASE ^ (n + i - 1) := Nat.lt_of_mul_lt_mul_left h1
    have hle : D * q ≤ R := by
      have : D * q ≤ t * BASE ^ (n + i - 1) * q := Nat.mul_le_mul_right _ (le_of_lt hDlt)
      have e : t * BASE ^ (n + i - 1) * q = q * t * BASE ^ (n + i - 1) := by ring
      omega
    refine ⟨by omega, fun h => by omega, ?_⟩
    intro hD
    exfalso
    have hpos : 0 < V * BASE ^ i := lt_of_lt_of_le (Nat.mul_pos ht0 hW) hVW1
    rw [← hD] at hreg hpos
    have : 2 * D ≤ BASE * D := Nat.mul_le_mul_right _ (by decide)
    omega

namespace big_integer

/-- The clamped estimate computed by the loop body exceeds the true quotient digit
`R / (V * BASE ^ i)` by at most 2 (and is never below it), for a well-formed
non-negative remainder `R < V * BASE ^ (i + 1)` and a normalised divisor `V`. -/
theorem quotient_estimate_bound (T : big_integer) (n t V i : Nat) (hT : T.well_formed)
    (hn : 1 ≤ n) (hsz : n + i ≤ 18446744073709551616) (ht : BASE ≤ 2 * t) (htB : t < BASE)
    (hV1 : t * BASE ^ (n - 1) ≤ V) (hV2 : V < (t + 1) * BASE ^ (n - 1))
    (hR : limbs_value T._digits < V * BASE ^ (i + 1)) :
    limbs_value T._digits / (V * BASE ^ i) ≤ quotient_estimate T n t i ∧
      quotient_estimate T n t i ≤ limbs_value T._digits / (V * BASE ^ i) + 2 := by
  rw [quotient_estimate_eq T n t i hT hn hsz]
  exact estimate_bound_shifted _ V t n i hn ht htB hV1 hV2 hR

theorem division_loop_succ (fuel n btop i q : Nat) (s : div_state)
    (hq : q = quotient_estimate s.this n btop i) :
    division_loop fuel n btop (i + 1) s =
      match correction fuel
          (if q ≠ 0 then operator_sub s.this (small_mul s.multiplier q) else s.this)
          (if q ≠ 0 then (small_div_core (small_mul s.multiplier q) q).1 else s.multiplier)
          q with
      | .error e => .error e
      | .ok r =>
        division_loop fuel n btop i
          ⟨r.1, operator_shr
            (if q ≠ 0 then (small_div_core (small_mul s.multiplier q) q).1 else s.multiplier) 32,
            s.result.set i r.2, s.is_zero && (q == 0)⟩ := by
  subst hq
  rfl

/-- One iteration of the long-division loop: the correction loop returns within
two iterations, `multiplier` is restored, and the new remainder is canonical,
non-negative and (in the regular case) below `multiplier`. -/
theorem division_step (n t V i q : Nat) (s : div_state) (hn : 1 ≤ n) (ht : BASE ≤ 2 * t)
    (htB : t < BASE)
    (hV1 : t * BASE ^ (n - 1) ≤ V) (hV2 : V < (t + 1) * BASE ^ (n - 1))
    (hsz : n + i ≤ 18446744073709551616)
    (hT : s.this.canonical) (hTn : s.this._is_negative = false)
    (hM : s.multiplier.canonical) (hMn : s.multiplier._is_negative = false)
    (hMlen : s.multiplier._digits.length < 2147483648)
    (hreg : (limbs_value s.multiplier._digits = V * BASE ^ i ∧
        limbs_value s.this._digits < V * BASE ^ (i + 1)) ∨
      BASE * limbs_value s.multiplier._digits ≤ V * BASE ^ i)
    (hq : q = quotient_estimate s.this n t i) :
    ∃ r : big_integer × Nat,
      (∀ f, correction (f + 2)
          (if q ≠ 0 then operator_sub s.this (small_mul s.multiplier q) else s.this)
          (if q ≠ 0 then (small_div_core (small_mul s.multiplier q) q).1 else s.multiplier)
          q = .ok r) ∧
      (if q ≠ 0 then (small_div_core (small_mul s.multiplier q) q).1 else s.multiplier)
        = s.multiplier ∧
      r.1.canonical ∧ r.1._is_negative = false ∧
      (limbs_value s.multiplier._digits = V * BASE ^ i →
        limbs_value r.1._digits < V * BASE ^ i) := by
  have hB : 0 < BASE := BASE_pos
  have ht0 : 0 < t := by omega
  rw [quotient_estimate_eq _ _ _ _ hT.1 hn hsz] at hq
  obtain ⟨ha1, ha2, ha3, ha4⟩ := digit_step_arith (limbs_value s.this._digits)
    (limbs_value s.multiplier._digits) V t n i q hn ht htB hV1 hV2 hq hreg
  have hqB : q < BASE := by
    have : q ≤ BASE - 1 := by rw [hq]; exact Nat.min_le_right _ _
    omega
  -- the two conditionals
  have hthis1 : (if q ≠ 0 then operator_sub s.this (small_mul s.multiplier q) else s.this).canonical
      ∧ (if q ≠ 0 then operator_sub s.this (small_mul s.multiplier q) else s.this).value
        = (limbs_value s.this._digits : Int)
          - ((limbs_value s.multiplier._digits * q : Nat) : Int) := by
    by_cases hq0 : q = 0
    · rw [if_neg (by simpa using hq0)]
      refine ⟨hT, ?_⟩
      rw [value_of_nonneg _ hTn, hq0]
      simp
    · rw [if_pos hq0]
      obtain ⟨hs1, hs2, hs3⟩ := small_mul_value s.multiplier q hM.1 hMn hqB
      have hne : s.this._digits ≠ [] := by
        intro he
        rw [he] at ha1
        have hpos : 0 < q * t * BASE ^ (n + i - 1) :=
          Nat.mul_pos (Nat.mul_pos (Nat.pos_of_ne_zero hq0) ht0) (Nat.pow_pos hB)
        simp only [limbs_value] at ha1
        omega
      obtain ⟨hv, hc⟩ := subadd_value s.this (small_mul s.multiplier q) false hT.1 hs2.1
        (Or.inl hne)
      refine ⟨hc, ?_⟩
      show (subadd s.this false (small_mul s.multiplier q)).value = _
      rw [hv]
      simp only [Bool.false_eq_true, if_false]
      rw [value_of_nonneg _ hTn, value_of_nonneg _ hs3, hs1]
  have hmult1 : (if q ≠ 0 then (small_div_core (small_mul s.multiplier q) q).1
      else s.multiplier) = s.multiplier := by
    by_cases hq0 : q = 0
    · rw [if_neg (by simpa using hq0)]
    · rw [if_pos hq0]
      obtain ⟨hs1, hs2, hs3⟩ := small_mul_value s.multiplier q hM.1 hMn hqB
      have hslen : (small_mul s.multiplier q)._digits.length ≤ 2147483648 := by
        have : (small_mul s.multiplier q)._digits.length ≤ s.multiplier._digits.length + 1 := by
          apply length_le_of_lt _ hs2 hs3
          rw [hs1, pow_succ]
          have h1 := limbs_value_lt s.multiplier._digits hM.1
          calc limbs_value s.multiplier._digits * q
              ≤ limbs_value s.multiplier._digits * BASE := Nat.mul_le_mul_left _ (le_of_lt hqB)
            _ < BASE ^ s.multiplier._digits.length * BASE := Nat.mul_lt_mul_of_pos_right h1 hB
        omega
      obtain ⟨hd1, -, hd3, hd4⟩ := small_div_core_value (small_mul s.multiplier q) q hs2.1 hs3
        (Nat.pos_of_ne_zero hq0) (le_of_lt hqB) hslen
      apply canonical_eq_of_value_eq _ _ hd3 hM
      rw [value_of_nonneg _ hd4, value_of_nonneg _ hMn, hd1, hs1,
        Nat.mul_div_cancel _ (Nat.pos_of_ne_zero hq0)]
  rw [hmult1]
  obtain ⟨hc1, hv1⟩ := hthis1
  have hfit : (if q ≠ 0 then operator_sub s.this (small_mul s.multiplier q) else s.this).value < 0
      → s.multiplier._digits.length ≠ 1 := by
    intro hlt hlen
    rw [hv1] at hlt
    have h1 := ha3 hlt
    have h2 := limbs_value_lt s.multiplier._digits hM.1
    rw [hlen, pow_one] at h2
    omega
  obtain ⟨r, hr1, hr2, hr3, hr4⟩ := correction_two _ s.multiplier q hc1 hM.1 hMn
    (by rw [hv1]; exact ha2) hfit
  have hrn := nonneg_of_value _ hr2.1 hr3
  refine ⟨r, hr1, rfl, hr2, hrn, ?_⟩
  intro hD
  have h4 := ha4 hD
  rw [value_of_nonneg _ hrn, hv1] at hr4
  rw [← hD]
  rcases hr4 with h | h
  · omega
  · exact_mod_cast h

/-- While `multiplier` has fewer than `2^31` limbs (so that `small_div` restores it
after `small_mul`), the long-division loop never exhausts a fuel of two correction
steps per quotient digit, and its result does not depend on any larger fuel. -/
theorem division_loop_two (n t V : Nat) (hn : 1 ≤ n) (ht : BASE ≤ 2 * t) (htB : t < BASE)
    (hV1 : t * BASE ^ (n - 1) ≤ V) (hV2 : V < (t + 1) * BASE ^ (n - 1)) :
    ∀ (k : Nat) (s : div_state), n + k ≤ 18446744073709551616 →
      s.this.canonical → s.this._is_negative = false →
      s.multiplier.canonical → s.multiplier._is_negative = false →
      s.multiplier._digits.length < 2147483648 →
      (∀ i, k = i + 1 →
        (limbs_value s.multiplier._digits = V * BASE ^ i ∧
          limbs_value s.this._digits < V * BASE ^ (i + 1)) ∨
        BASE * limbs_value s.multiplier._digits ≤ V * BASE ^ i) →
      ∃ s1, ∀ f, division_loop (f + 2) n t k s = .ok s1 := by
  intro k
  induction k with
  | zero =>
    intro s _ _ _ _ _ _ _
    exact ⟨s, fun f => rfl⟩
  | succ i ih =>
    intro s hsz hT hTn hM hMn hMlen hinv
    have hreg := hinv i rfl
    obtain ⟨r, hr1, hr2, hr3, hr4, hr5⟩ := division_step n t V i (quotient_estimate s.this n t i) s
      hn ht htB hV1 hV2 (by omega) hT hTn hM hMn hMlen hreg rfl
    obtain ⟨hs1, hs2, hs3⟩ := operator_shr_32 s.multiplier hM hMn
    have hB : 0 < BASE := BASE_pos
    have hslen : (operator_shr s.multiplier 32)._digits.length < 2147483648 := by
      have : (operator_shr s.multiplier 32)._digits.length ≤ s.multiplier._digits.length := by
        apply length_le_of_lt _ hs2 hs3
        rw [hs1]
        exact lt_of_le_of_lt (Nat.div_le_self _ _) (limbs_value_lt _ hM.1)
      omega
    obtain ⟨s1, hs⟩ := ih
      ⟨r.1, operator_shr s.multiplier 32, s.result.set i r.2,
        s.is_zero && (quotient_estimate s.this n t i == 0)⟩
      (by omega) hr3 hr4 hs2 hs3 hslen
      (by
        intro j hj
        show (limbs_value (operator_shr s.multiplier 32)._digits = V * BASE ^ j ∧
            limbs_value r.1._digits < V * BASE ^ (j + 1)) ∨
          BASE * limbs_value (operator_shr s.multiplier 32)._digits ≤ V * BASE ^ j
        rw [hs1]
        subst hj
        rcases hreg with ⟨hD, hR⟩ | hreg
        · left
          refine ⟨?_, hr5 hD⟩
          rw [hD, pow_succ, ← mul_assoc, Nat.mul_div_cancel _ hB]
        · right
          have h1 : BASE * (limbs_value s.multiplier._digits / BASE)
              ≤ limbs_value s.multiplier._digits := Nat.mul_div_le _ _
          have h2 : V * BASE ^ (j + 1) = BASE * (V * BASE ^ j) := by rw [pow_succ]; ring
          rw [h2] at hreg
          have h3 := Nat.le_of_mul_le_mul_left hreg hB
          omega)
    refine ⟨s1, fun f => ?_⟩
    rw [division_loop_succ (f + 2) n t i (quotient_estimate s.this n t i) s rfl, hr1 f]
    simp only [hr2]
    exact hs f

end big_integer

/-! ## Long division: normalisation and the initial state of the loop -/

/-- The top limb of a non-empty limb sequence brackets its value. -/
theorem limbs_value_top (ds : List Nat) (hwf : ∀ d ∈ ds, d < BASE) (hne : ds ≠ []) :
    ds.getLastD 0 * BASE ^ (ds.length - 1) ≤ limbs_value ds ∧
      limbs_value ds < (ds.getLastD 0 + 1) * BASE ^ (ds.length - 1) ∧
      ds.getLastD 0 < BASE ∧ (ds.getLast? ≠ some 0 → 0 < ds.getLastD 0) := by
  induction ds using List.reverseRecOn with
  | nil => exact absurd rfl hne
  | append_singleton xs x _ =>
    have hx : x < BASE := hwf x (by simp)
    have hxs := limbs_value_lt xs (fun d hd => hwf d (List.mem_append_left _ hd))
    have hl : (xs ++ [x]).getLastD 0 = x := by simp
    rw [hl, limbs_value_append]
    simp only [limbs_value, List.length_append, List.length_singleton, Nat.add_sub_cancel,
      mul_zero, add_zero]
    refine ⟨?_, ?_, hx, ?_⟩
    · rw [mul_comm]; omega
    · rw [add_mul, one_mul, mul_comm x]; omega
    · intro h
      apply Nat.pos_of_ne_zero
      intro h0
      apply h
      simp [h0]

theorem base_loop_spec (T : Nat) (hT : 0 < T) (i : Nat) (hi : T < 2 ^ i) :
    2 ^ i ≤ 2 * (T * 2 ^ big_integer.base_loop T i) ∧
      (T + 1) * 2 ^ big_integer.base_loop T i ≤ 2 ^ i := by
  induction i with
  | zero => simp at hi; omega
  | succ i ih =>
    unfold big_integer.base_loop
    by_cases hb : T.testBit i = true
    · have hand : (2 ^ i &&& T) ≠ 0 := by
        rw [Nat.two_pow_and, hb]
        simp
      rw [if_pos hand]
      have hge : 2 ^ i ≤ T := Nat.testBit_implies_ge hb
      simp only [pow_zero, mul_one]
      rw [pow_succ] at hi ⊢
      omega
    · have hand : ¬ ((2 ^ i &&& T) ≠ 0) := by
        rw [Nat.two_pow_and]
        simp at hb
        simp [hb]
      rw [if_neg hand]
      have hlt : T < 2 ^ i := by
        apply Nat.lt_pow_two_of_testBit
        intro j hj
        rcases Nat.eq_or_lt_of_le hj with h | h
        · rw [← h]; simpa using hb
        · apply Nat.testBit_lt_two_pow
          exact lt_of_lt_of_le hi (Nat.pow_le_pow_right (by norm_num) h)
      obtain ⟨h1, h2⟩ := ih hlt
      have e : 2 ^ (1 + big_integer.base_loop T i) = 2 * 2 ^ big_integer.base_loop T i := by
        rw [pow_add, pow_one]
      rw [e, pow_succ]
      constructor
      · nlinarith
      · nlinarith

/-- After normalisation the top limb of the divisor has its highest bit set. -/
theorem normalise_arith (V0 T0 n0 t n s : Nat) (hn0 : 1 ≤ n0) (hn : 1 ≤ n)
    (h1 : T0 * BASE ^ (n0 - 1) ≤ V0) (h2 : V0 < (T0 + 1) * BASE ^ (n0 - 1))
    (hs1 : 2 ^ 32 ≤ 2 * (T0 * 2 ^ s)) (hs2 : (T0 + 1) * 2 ^ s ≤ 2 ^ 32)
    (h3 : t * BASE ^ (n - 1) ≤ V0 * 2 ^ s) (h4 : V0 * 2 ^ s < (t + 1) * BASE ^ (n - 1))
    (ht0 : 0 < t) (htB : t < BASE) : BASE ≤ 2 * t := by
  have hB : 0 < BASE := BASE_pos
  have hP0 : 0 < BASE ^ (n0 - 1) := Nat.pow_pos hB
  have hP : 0 < BASE ^ (n - 1) := Nat.pow_pos hB
  have hBe : BASE = 2 ^ 32 := by decide
  -- bounds of the shifted value in terms of the old top limb
  have hlo : 2 ^ 31 * BASE ^ (n0 - 1) ≤ V0 * 2 ^ s := by
    have e1 : (2 : Nat) ^ 31 ≤ T0 * 2 ^ s := by
      have : (2 : Nat) ^ 32 = 2 * 2 ^ 31 := by norm_num
      omega
    calc 2 ^ 31 * BASE ^ (n0 - 1) ≤ T0 * 2 ^ s * BASE ^ (n0 - 1) := Nat.mul_le_mul_right _ e1
      _ = T0 * BASE ^ (n0 - 1) * 2 ^ s := by ring
      _ ≤ V0 * 2 ^ s := Nat.mul_le_mul_right _ h1
  have hhi : V0 * 2 ^ s < BASE * BASE ^ (n0 - 1) := by
    have hs0 : 0 < 2 ^ s := Nat.pow_pos (by norm_num)
    calc V0 * 2 ^ s < (T0 + 1) * BASE ^ (n0 - 1) * 2 ^ s := Nat.mul_lt_mul_of_pos_right h2 hs0
      _ = (T0 + 1) * 2 ^ s * BASE ^ (n0 - 1) := by ring
      _ ≤ 2 ^ 32 * BASE ^ (n0 - 1) := Nat.mul_le_mul_right _ hs2
      _ = BASE * BASE ^ (n0 - 1) := by rw [hBe]
  -- the limb counts agree
  have hn1 : n0 - 1 < n := by
    have a1 : BASE ^ (n0 - 1) ≤ 2 ^ 31 * BASE ^ (n0 - 1) := Nat.le_mul_of_pos_left _ (by norm_num)
    have a2 : (t + 1) * BASE ^ (n - 1) ≤ BASE * BASE ^ (n - 1) := Nat.mul_le_mul_right _ (by omega)
    have a3 : BASE * BASE ^ (n - 1) = BASE ^ n := by
      rw [mul_comm, ← pow_succ]; congr 1; omega
    have a4 : BASE ^ (n0 - 1) < BASE ^ n := by omega
    exact (Nat.pow_lt_pow_iff_right (by decide)).mp a4
  have hn2 : n - 1 < n0 := by
    have a1 : BASE ^ (n - 1) ≤ t * BASE ^ (n - 1) := Nat.le_mul_of_pos_left _ ht0
    have a3 : BASE * BASE ^ (n0 - 1) = BASE ^ n0 := by
      rw [mul_comm, ← pow_succ]; congr 1; omega
    have a4 : BASE ^ (n - 1) < BASE ^ n0 := by omega
    exact (Nat.pow_lt_pow_iff_right (by decide)).mp a4
  have hnn : n0 = n := by omega
  rw [hnn] at hlo
  have hlt : 2 ^ 31 * BASE ^ (n - 1) < (t + 1) * BASE ^ (n - 1) := lt_of_le_of_lt hlo h4
  have := Nat.lt_of_mul_lt_mul_right hlt
  rw [hBe]
  norm_num at this ⊢
  omega

namespace big_integer

theorem clear_zeros_length_le (a : big_integer) :
    (clear_zeros a)._digits.length ≤ a._digits.length := by
  unfold clear_zeros pop_neutral
  simp only [List.length_reverse]
  have h : List.Sublist (List.dropWhile (fun d => d == a.neutral_element) a._digits.reverse)
      a._digits.reverse := List.dropWhile_sublist _
  simpa using h.length_le

theorem inplace_abs_length_le (a : big_integer) :
    (inplace_abs a)._digits.length ≤ a._digits.length + 1 := by
  unfold inplace_abs
  split
  · unfold small_add
    refine le_trans (clear_zeros_length_le _) ?_
    simp [small_add_loop_length]
  · omega

/-- The value computed by `operator<<=` on a non-negative receiver for a shift
count `0 ≤ k < 2^31`, whenever it returns. -/
theorem operator_shl_nonneg_value (b r : big_integer) (k : Nat) (hwf : b.well_formed)
    (hneg : b._is_negative = false) (hk : k < 2147483648)
    (h : operator_shl b (k : Int) = .ok r) :
    limbs_value r._digits = limbs_value b._digits * 2 ^ k := by
  by_cases hk0 : k = 0
  · subst hk0
    simp [operator_shl] at h
    rw [← h]; simp
  have hmod : to_size_t (Int.tmod (k : Int) 32) = k % 32 := by
    have : Int.tmod (k : Int) 32 = ((k % 32 : Nat) : Int) := by
      have h32 : (32 : Int) = ((32 : Nat) : Int) := rfl
      rw [h32, Int.ofNat_tmod]
    rw [this]
    exact to_size_t_natCast _ (by omega)
  have hdiv : to_size_t (Int.tdiv (k : Int) 32) = k / 32 := by
    have : Int.tdiv (k : Int) 32 = ((k / 32 : Nat) : Int) := by
      have h32 : (32 : Int) = ((32 : Nat) : Int) := rfl
      rw [h32, Int.ofNat_tdiv]
    rw [this]
    exact to_size_t_natCast _ (by omega)
  obtain ⟨ds, s⟩ := b
  simp only at hneg
  subst hneg
  unfold operator_shl at h
  have hk' : ¬ ((k : Int) = 0) := by exact_mod_cast hk0
  rw [if_neg hk'] at h
  simp only [hmod, hdiv] at h
  split at h
  · cases h
  · cases h
    have hLwf : ∀ d ∈ List.replicate (k / 32) 0 ++ (ds ++ [neutral_element ⟨ds, false⟩]),
        d < BASE := by
      intro d hd
      rcases List.mem_append.mp hd with h | h
      · rw [(List.mem_replicate.mp h).2]; exact BASE_pos
      · rcases List.mem_append.mp h with h | h
        · exact hwf d h
        · simp only [List.mem_singleton] at h
          rw [h]; simp [neutral_element, BASE]
    have hv := clear_zeros_value
      ⟨shl_loop (k % 32) (List.replicate (k / 32) 0 ++ (ds ++ [neutral_element ⟨ds, false⟩])) 0,
        false⟩
    rw [value_of_nonneg _ (by rw [clear_zeros_is_negative]), value_of_nonneg _ rfl] at hv
    have hv' : limbs_value (clear_zeros
        ⟨shl_loop (k % 32) (List.replicate (k / 32) 0 ++ (ds ++ [neutral_element ⟨ds, false⟩])) 0,
          false⟩)._digits
        = limbs_value (shl_loop (k % 32)
          (List.replicate (k / 32) 0 ++ (ds ++ [neutral_element ⟨ds, false⟩])) 0) := by
      exact_mod_cast hv
    rw [hv', shl_loop_value _ _ _ (Nat.mod_lt _ (by norm_num)) hLwf BASE_pos]
    have hLval : limbs_value (List.replicate (k / 32) 0 ++ (ds ++ [neutral_element ⟨ds, false⟩]))
        = BASE ^ (k / 32) * limbs_value ds := by
      rw [limbs_value_append, limbs_value_replicate_zero, List.length_replicate, zero_add,
        limbs_value_append]
      simp [neutral_element, limbs_value]
    have hLlen : (List.replicate (k / 32) 0 ++ (ds ++ [neutral_element ⟨ds, false⟩])).length
        = k / 32 + (ds.length + 1) := by simp
    rw [hLval, hLlen, add_zero]
    have h2k : 2 ^ k = 2 ^ (k % 32) * BASE ^ (k / 32) := by
      have hB : BASE = 2 ^ 32 := by decide
      rw [hB, ← pow_mul, ← pow_add]
      congr 1
      omega
    have hvds := limbs_value_lt ds hwf
    have hW : 2 ^ (k % 32) < BASE := by
      have hB : BASE = 2 ^ 32 := by decide
      rw [hB]
      exact Nat.pow_lt_pow_right (by norm_num) (Nat.mod_lt _ (by norm_num))
    have hZ : 0 < BASE ^ (k / 32) := Nat.pow_pos BASE_pos
    apply Nat.mod_eq_of_lt at hvds
    rw [h2k]
    have hlt : BASE ^ (k / 32) * limbs_value ds * 2 ^ (k % 32)
        < BASE ^ (k / 32 + (ds.length + 1)) := by
      have hvds2 := limbs_value_lt ds hwf
      have e : BASE ^ (k / 32 + (ds.length + 1)) = BASE ^ (k / 32) * (BASE ^ ds.length * BASE) := by
        rw [pow_add, pow_succ]
      rw [e, mul_assoc]
      apply Nat.mul_lt_mul_of_pos_left _ hZ
      calc limbs_value ds * 2 ^ (k % 32) < BASE ^ ds.length * 2 ^ (k % 32) :=
            Nat.mul_lt_mul_of_pos_right hvds2 (Nat.pow_pos (by norm_num))
        _ ≤ BASE ^ ds.length * BASE := Nat.mul_le_mul_left _ (le_of_lt hW)
    rw [Nat.mod_eq_of_lt hlt]
    ring

/-- A negative shift count that is a multiple of 32 makes `operator<<=` throw:
the `size_t` conversion of the limb count exceeds `max_size()`. -/
theorem operator_shl_negative (b : big_integer) (c : Nat) (hc0 : 0 < c) (hc : c ≤ 134217728) :
    operator_shl b (-(32 * (c : Int))) = .error .length_error := by
  unfold operator_shl
  have h0 : ¬ (-(32 * (c : Int)) = 0) := by omega
  rw [if_neg h0]
  have hdiv : Int.tdiv (-(32 * (c : Int))) 32 = -(c : Int) := by
    rw [Int.neg_tdiv, Int.mul_tdiv_cancel_left _ (by norm_num)]
  have hz : to_size_t (-(c : Int)) = 18446744073709551616 - c := by
    unfold to_size_t
    omega
  simp only [hdiv, hz]
  have : max_size - (b._digits.length + 1) < 18446744073709551616 - c := by
    unfold max_size
    omega
  rw [if_pos this]

end big_integer

namespace big_integer

/-- On entry of the long-division loop of `cool_division`, for a dividend of at
most `2^31 - 3` limbs, the invariant of `division_loop_two` holds, so the loop
returns with a fuel of two. -/
theorem division_loop_init (a rhs a1 b mult : big_integer) (ha : a.canonical)
    (hr : rhs.canonical) (hla : a._digits.length ≤ 2147483645)
    (hlr : rhs._digits.length ≤ max_size) (hz : rhs.check_for_zero = false)
    (hA : operator_shl (inplace_abs a) (base_loop (rhs.abs._digits.getLastD 0) 32 : Int) = .ok a1)
    (hB : operator_shl rhs.abs (base_loop (rhs.abs._digits.getLastD 0) 32 : Int) = .ok b)
    (hsize : ¬ max_size
      < (to_size_t ((a1._digits.length : Int) - (b._digits.length : Int)) + 1)
        % 18446744073709551616)
    (hC : operator_shl b (to_int ((32
      * to_size_t ((a1._digits.length : Int) - (b._digits.length : Int)))
        % 18446744073709551616)) = .ok mult)
    (res : List Nat) (z : Bool) :
    ∃ s1, ∀ f, division_loop (f + 2) b._digits.length (b._digits.getLastD 0)
      (if to_size_t ((a1._digits.length : Int) - (b._digits.length : Int)) < 9223372036854775808
        then to_size_t ((a1._digits.length : Int) - (b._digits.length : Int)) + 1 else 0)
      ⟨a1, mult, res, z⟩ = .ok s1 := by
  have hB0 : 0 < BASE := BASE_pos
  have hBe : BASE = 2 ^ 32 := by decide
  -- the absolute value of the divisor
  obtain ⟨hb0v, hb0c, hb0n⟩ := abs_value rhs hr
  have hrv : rhs.value ≠ 0 := by
    intro h0
    rw [check_for_zero_of_value rhs hr h0] at hz
    cases hz
  rw [value_of_nonneg _ hb0n] at hb0v
  have hV0pos : 0 < limbs_value rhs.abs._digits := by
    have : (0 : Int) < |rhs.value| := abs_pos.mpr hrv
    omega
  have hb0ne : rhs.abs._digits ≠ [] := by
    intro he; rw [he] at hV0pos; simp [limbs_value] at hV0pos
  have hb0last : rhs.abs._digits.getLast? ≠ some 0 := by
    have := hb0c.2
    simpa [neutral_element, hb0n] using this
  obtain ⟨hT1, hT2, hT3, hT4⟩ := limbs_value_top rhs.abs._digits hb0c.1 hb0ne
  have hT0 := hT4 hb0last
  obtain ⟨hs1, hs2⟩ := base_loop_spec (rhs.abs._digits.getLastD 0) hT0 32 (by rw [← hBe]; exact hT3)
  generalize base_loop (rhs.abs._digits.getLastD 0) 32 = base at hA hB hs1 hs2
  have hbase : base < 32 := by
    have h1 : 2 * 2 ^ base ≤ (rhs.abs._digits.getLastD 0 + 1) * 2 ^ base :=
      Nat.mul_le_mul_right _ (by omega)
    have h2 : 2 ^ (base + 1) ≤ 2 ^ 32 := by rw [pow_succ]; omega
    have := (Nat.pow_le_pow_iff_right (by norm_num)).mp h2
    omega
  have h2b : 2 ^ base < BASE := by
    rw [hBe]; exact Nat.pow_lt_pow_right (by norm_num) hbase
  have hn0len : rhs.abs._digits.length ≤ rhs._digits.length + 1 := by
    apply length_le_of_lt _ hb0c hb0n
    have hvl := value_lt_pow rhs hr.1
    have h1 : (limbs_value rhs.abs._digits : Int) ≤ (BASE : Int) ^ rhs._digits.length := by
      rw [hb0v]; exact abs_le.mpr ⟨hvl.2, le_of_lt hvl.1⟩
    have h2 : limbs_value rhs.abs._digits ≤ BASE ^ rhs._digits.length := by exact_mod_cast h1
    have h3 : BASE ^ rhs._digits.length < BASE ^ (rhs._digits.length + 1) :=
      Nat.pow_lt_pow_right (by decide) (Nat.lt_succ_self _)
    omega
  -- the normalised divisor
  have hbv := operator_shl_nonneg_value rhs.abs b base hb0c.1 hb0n (by omega) hB
  have hbc := operator_shl_canonical _ _ _ hb0c hB
  have hbn : b._is_negative = false := by
    rw [(operator_shl_ok _ _ _ hb0c.1 hB).2]; exact hb0n
  have hVpos : 0 < limbs_value b._digits := by
    rw [hbv]; exact Nat.mul_pos hV0pos (Nat.pow_pos (by norm_num))
  have hbne : b._digits ≠ [] := by
    intro he; rw [he] at hVpos; simp [limbs_value] at hVpos
  have hblast : b._digits.getLast? ≠ some 0 := by
    have := hbc.2
    simpa [neutral_element, hbn] using this
  obtain ⟨ht1, ht2, ht3, ht4⟩ := limbs_value_top b._digits hbc.1 hbne
  have ht0 := ht4 hblast
  have hn0 : 1 ≤ rhs.abs._digits.length := by
    cases hd : rhs.abs._digits with
    | nil => exact absurd hd hb0ne
    | cons x xs => simp
  have hn : 1 ≤ b._digits.length := by
    cases hd : b._digits with
    | nil => exact absurd hd hbne
    | cons x xs => simp
  rw [hbv] at ht1 ht2
  have ht := normalise_arith (limbs_value rhs.abs._digits) (rhs.abs._digits.getLastD 0)
    rhs.abs._digits.length (b._digits.getLastD 0) b._digits.length base hn0 hn hT1 hT2 hs1 hs2
    ht1 ht2 ht0 ht3
  rw [← hbv] at ht1 ht2
  have hnlen : b._digits.length ≤ rhs._digits.length + 2 := by
    have : b._digits.length ≤ rhs.abs._digits.length + 1 := by
      apply length_le_of_lt _ hbc hbn
      rw [hbv, pow_succ]
      have h1 := limbs_value_lt rhs.abs._digits hb0c.1
      calc limbs_value rhs.abs._digits * 2 ^ base
          < BASE ^ rhs.abs._digits.length * 2 ^ base :=
            Nat.mul_lt_mul_of_pos_right h1 (Nat.pow_pos (by norm_num))
        _ ≤ BASE ^ rhs.abs._digits.length * BASE := Nat.mul_le_mul_left _ (le_of_lt h2b)
    omega
  -- the normalised dividend
  obtain ⟨hiaw, hian⟩ := inplace_abs_ok a ha.1
  have ha1c := operator_shl_canonical _ _ _ (inplace_abs_canonical a ha) hA
  have ha1n : a1._is_negative = false := by
    rw [(operator_shl_ok _ _ _ hiaw hA).2]; exact hian
  have ha1v := operator_shl_nonneg_value (inplace_abs a) a1 base hiaw hian (by omega) hA
  have ha1len : a1._digits.length ≤ a._digits.length + 2 := by
    have : a1._digits.length ≤ (inplace_abs a)._digits.length + 1 := by
      apply length_le_of_lt _ ha1c ha1n
      rw [ha1v, pow_succ]
      have h1 := limbs_value_lt (inplace_abs a)._digits hiaw
      calc limbs_value (inplace_abs a)._digits * 2 ^ base
          < BASE ^ (inplace_abs a)._digits.length * 2 ^ base :=
            Nat.mul_lt_mul_of_pos_right h1 (Nat.pow_pos (by norm_num))
        _ ≤ BASE ^ (inplace_abs a)._digits.length * BASE :=
            Nat.mul_le_mul_left _ (le_of_lt h2b)
    have := inplace_abs_length_le a
    omega
  -- the limb-count difference
  generalize hmdef : to_size_t ((a1._digits.length : Int) - (b._digits.length : Int)) = m
    at hsize hC ⊢
  by_cases hm : m < 9223372036854775808
  swap
  · rw [if_neg hm]
    exact ⟨_, fun f => rfl⟩
  rw [if_pos hm]
  have hm1 : m + 1 ≤ max_size := by
    rw [Nat.mod_eq_of_lt (by omega)] at hsize
    omega
  have hlen : a1._digits.length ≤ b._digits.length + m := by
    unfold to_size_t at hmdef
    unfold max_size at hlr hm1
    omega
  have hlen2 : b._digits.length + m ≤ a1._digits.length := by
    unfold to_size_t at hmdef
    unfold max_size at hlr hm1
    omega
  unfold max_size at hlr hm1
  -- the shift count of the multiplier
  unfold to_int at hC
  by_cases hk : (32 * m) % 18446744073709551616 % 4294967296 < 2147483648
  swap
  · exfalso
    rw [if_neg hk] at hC
    have hcv : (((32 * m) % 18446744073709551616 % 4294967296 : Nat) : Int) - 4294967296
        = -(32 * (((4294967296 - (32 * m) % 18446744073709551616 % 4294967296) / 32 : Nat) : Int)) := by
      omega
    rw [hcv, operator_shl_negative b _ (by omega) (by omega)] at hC
    cases hC
  rw [if_pos hk] at hC
  have hkk : (32 * m) % 18446744073709551616 % 4294967296 = 32 * (m % 134217728) := by omega
  rw [hkk] at hC hk
  have hmv := operator_shl_nonneg_value b mult (32 * (m % 134217728)) hbc.1 hbn hk hC
  have hmc := operator_shl_canonical _ _ _ hbc hC
  have hmn : mult._is_negative = false := by
    rw [(operator_shl_ok _ _ _ hbc.1 hC).2]; exact hbn
  have hpow : 2 ^ (32 * (m % 134217728)) = BASE ^ (m % 134217728) := by
    rw [hBe, pow_mul]
  rw [hpow] at hmv
  have hmlen : mult._digits.length < 2147483648 := by
    have : mult._digits.length ≤ b._digits.length + m := by
      apply length_le_of_lt _ hmc hmn
      rw [hmv, pow_add]
      have h1 := limbs_value_lt b._digits hbc.1
      have h2 : BASE ^ (m % 134217728) ≤ BASE ^ m :=
        Nat.pow_le_pow_right hB0 (Nat.mod_le _ _)
      calc limbs_value b._digits * BASE ^ (m % 134217728)
          ≤ limbs_value b._digits * BASE ^ m := Nat.mul_le_mul_left _ h2
        _ < BASE ^ b._digits.length * BASE ^ m :=
            Nat.mul_lt_mul_of_pos_right h1 (Nat.pow_pos hB0)
    omega
  apply division_loop_two b._digits.length (b._digits.getLastD 0) (limbs_value b._digits)
    hn ht ht3 ht1 ht2 (m + 1) ⟨a1, mult, res, z⟩ (by omega) ha1c ha1n hmc hmn hmlen
  intro i hi
  have him : i = m := by omega
  subst him
  show (limbs_value mult._digits = limbs_value b._digits * BASE ^ i ∧
      limbs_value a1._digits < limbs_value b._digits * BASE ^ (i + 1)) ∨
    BASE * limbs_value mult._digits ≤ limbs_value b._digits * BASE ^ i
  by_cases hmm : i % 134217728 = i
  · left
    rw [hmm] at hmv
    refine ⟨hmv, ?_⟩
    have h1 := limbs_value_lt a1._digits ha1c.1
    have h2 : BASE ^ a1._digits.length ≤ BASE ^ (b._digits.length + i) :=
      Nat.pow_le_pow_right hB0 hlen
    have h3 : BASE ^ (b._digits.length + i) = BASE ^ (b._digits.length - 1) * BASE ^ (i + 1) := by
      rw [← pow_add]; congr 1; omega
    have h4 : BASE ^ (b._digits.length - 1) * BASE ^ (i + 1)
        ≤ limbs_value b._digits * BASE ^ (i + 1) := by
      apply Nat.mul_le_mul_right
      have : 1 * BASE ^ (b._digits.length - 1)
          ≤ b._digits.getLastD 0 * BASE ^ (b._digits.length - 1) :=
        Nat.mul_le_mul_right _ ht0
      omega
    omega
  · right
    rw [hmv]
    have hlt : i % 134217728 + 1 ≤ i := by
      have := Nat.mod_le i 134217728
      omega
    have h1 : BASE ^ (i % 134217728 + 1) ≤ BASE ^ i := Nat.pow_le_pow_right hB0 hlt
    calc BASE * (limbs_value b._digits * BASE ^ (i % 134217728))
        = limbs_value b._digits * BASE ^ (i % 134217728 + 1) := by rw [pow_succ]; ring
      _ ≤ limbs_value b._digits * BASE ^ i := Nat.mul_le_mul_left _ h1

/-- The bound of two corrections relies on the divisor being canonical: on the limb
vector `[4294967295, 5, 0]` (a redundant zero limb on top) the normalisation shifts
by a whole limb, the top limb of the shifted divisor is `5`, and the estimate
overshoots by more than two. -/
theorem cool_division_redundant_limb :
    cool_division 2 ⟨[0, 0, 0, 1], false⟩ true ⟨[4294967295, 5, 0], false⟩
      = .error .out_of_fuel := rfl

/-- Below `2^31` limbs the correction loop `while (*this < 0)` of `cool_division`
runs at most twice for each quotient digit: for every canonical dividend of at
most `2^31 - 3` limbs and every canonical divisor, a bound of two iterations per
run of the correction loop is never exhausted, and every larger bound gives the
same outcome as the bound two. -/
theorem cool_division_two_corrections (a rhs : big_integer) (div : Bool)
    (ha : a.canonical) (hr : rhs.canonical) (hla : a._digits.length ≤ 2147483645)
    (hlr : rhs._digits.length ≤ max_size) (fuel : Nat) :
    cool_division 2 a div rhs ≠ .error .out_of_fuel ∧
      cool_division (fuel + 2) a div rhs = cool_division 2 a div rhs := by
  have hshl : ∀ (x : big_integer) (k : Int) (e : error),
      operator_shl x k = .error e → e = .length_error := by
    intro x k e h
    unfold operator_shl at h
    split at h
    · cases h
    · simp only [] at h
      split at h
      · cases h; rfl
      · cases h
  by_cases h1 : rhs.check_for_zero = true
  · simp only [cool_division, h1, if_true]
    exact ⟨(by intro h; cases h), trivial⟩
  by_cases h2 : a.check_for_zero = true
  · simp only [cool_division, h1, h2, if_true, if_false]
    exact ⟨(by intro h; cases h), trivial⟩
  by_cases h3 : operator_eq rhs MINUS_ONE = true
  · simp only [cool_division, h1, h2, h3, if_true, if_false]
    exact ⟨(by intro h; cases h), trivial⟩
  by_cases h4 : a._digits.length < rhs._digits.length
  · simp only [cool_division, h1, h2, h3, h4, if_true, if_false]
    exact ⟨(by intro h; cases h), trivial⟩
  have hz : rhs.check_for_zero = false := by simpa using h1
  simp only [cool_division, h1, h2, h3, h4, if_false, Bool.false_eq_true]
  cases hA : operator_shl (inplace_abs a) (base_loop (rhs.abs._digits.getLastD 0) 32 : Int) with
  | error e =>
    have := hshl _ _ _ hA
    subst this
    dsimp only
    exact ⟨(by intro h; cases h), rfl⟩
  | ok a1 =>
    cases hB : operator_shl rhs.abs (base_loop (rhs.abs._digits.getLastD 0) 32 : Int) with
    | error e =>
      have := hshl _ _ _ hB
      subst this
      dsimp only
      exact ⟨(by intro h; cases h), rfl⟩
    | ok b =>
      dsimp only
      by_cases hsize : max_size
          < (to_size_t ((a1._digits.length : Int) - (b._digits.length : Int)) + 1)
            % 18446744073709551616
      · simp only [if_pos hsize]
        exact ⟨(by intro h; cases h), trivial⟩
      · simp only [if_neg hsize]
        cases hC : operator_shl b (to_int ((32
            * to_size_t ((a1._digits.length : Int) - (b._digits.length : Int)))
              % 18446744073709551616)) with
        | error e =>
          have := hshl _ _ _ hC
          subst this
          dsimp only
          exact ⟨(by intro h; cases h), rfl⟩
        | ok mult =>
          obtain ⟨s1, hs1⟩ := division_loop_init a rhs a1 b mult ha hr hla hlr hz hA hB hsize hC
            (List.replicate ((to_size_t ((a1._digits.length : Int) - (b._digits.length : Int)) + 1)
              % 18446744073709551616) 0) true
          have e2 := hs1 0
          simp only [Nat.zero_add] at e2
          dsimp only
          rw [hs1 fuel, e2]
          dsimp only
          exact ⟨(by intro h; cases h), rfl⟩

/-- The bound of two corrections is reached: on `2^96 / (2^63 + 2^32 - 2)` a bound of
one iteration is exhausted. -/
theorem cool_division_second_correction :
    cool_division 1 ⟨[0, 0, 0, 1], false⟩ true ⟨[4294967294, 2147483648], false⟩
      = .error .out_of_fuel := rfl

end big_integer

/-! ## Long division above `2^31` limbs: `small_div` no longer restores `multiplier` -/

namespace big_integer

/-- The correction loop exhausts every bound `fuel` for which the remainder is
still negative after `fuel` additions of `multiplier`. -/
theorem correction_out_of_fuel (fuel : Nat) (this multiplier : big_integer) (q : Nat)
    (hw : this.well_formed) (hm : multiplier.well_formed)
    (hmn : multiplier._is_negative = false) (hlen : multiplier._digits.length ≠ 1)
    (hneg : this.value + ((fuel * limbs_value multiplier._digits : Nat) : Int) < 0) :
    correction fuel this multiplier q = .error .out_of_fuel := by
  induction fuel generalizing this q with
  | zero =>
    have hlt : this.value < 0 := by simpa using hneg
    have hs : this._is_negative = true := (is_negative_iff this hw).mpr hlt
    simp [correction, operator_lt_zero, hs]
  | succ fuel ih =>
    have hD : (0 : Int) ≤ ((fuel * limbs_value multiplier._digits : Nat) : Int) :=
      Int.natCast_nonneg _
    have hsplit : (fuel + 1) * limbs_value multiplier._digits
        = fuel * limbs_value multiplier._digits + limbs_value multiplier._digits := by ring
    rw [hsplit] at hneg
    push_cast at hneg hD
    have hlt : this.value < 0 := by
      have : (0 : Int) ≤ (limbs_value multiplier._digits : Int) := Int.natCast_nonneg _
      omega
    have hs : this._is_negative = true := (is_negative_iff this hw).mpr hlt
    obtain ⟨hv, hc⟩ := subadd_value this multiplier true hw hm (Or.inr (Or.inr (Or.inl hlen)))
    simp only [if_true] at hv
    rw [value_of_nonneg _ hmn] at hv
    show (if operator_lt this (of_long_long 0) then _ else _) = _
    rw [operator_lt_zero, hs, if_pos rfl]
    apply ih (operator_add this multiplier) _ hc.1
    show (subadd this true multiplier).value + _ < 0
    rw [hv]
    push_cast
    omega

/-- A quotient digit estimated as 0 leaves the state as it is and moves on. -/
theorem division_loop_digit_zero (fuel n btop i : Nat) (s : div_state)
    (hq : quotient_estimate s.this n btop i = 0) (hneg : s.this._is_negative = false) :
    division_loop fuel n btop (i + 1) s
      = division_loop fuel n btop i
          ⟨s.this, operator_shr s.multiplier 32, s.result.set i 0, s.is_zero && true⟩ := by
  rw [division_loop_succ fuel n btop i 0 s hq.symm]
  simp only [ne_eq, not_true_eq_false, if_false, correction_nonneg _ _ _ _ hneg]
  rfl

/-- A non-zero estimate that does not overshoot: no correction, and `multiplier`
becomes whatever `small_div` makes of the product. -/
theorem division_loop_digit_exact (fuel n btop i q : Nat) (s : div_state)
    (hq : q = quotient_estimate s.this n btop i) (hq0 : q ≠ 0)
    (hneg : (operator_sub s.this (small_mul s.multiplier q))._is_negative = false) :
    division_loop fuel n btop (i + 1) s
      = division_loop fuel n btop i
          ⟨operator_sub s.this (small_mul s.multiplier q),
            operator_shr (small_div_core (small_mul s.multiplier q) q).1 32,
            s.result.set i q, s.is_zero && (q == 0)⟩ := by
  rw [division_loop_succ fuel n btop i q s hq]
  simp only [ne_eq, hq0, not_false_eq_true, if_true, correction_nonneg _ _ _ _ hneg]

/-- An estimate that overshoots by more than `fuel`: the loop stops in the
correction loop. -/
theorem division_loop_digit_stuck (fuel n btop i q : Nat) (s : div_state)
    (hq : q = quotient_estimate s.this n btop i) (hq0 : q ≠ 0)
    (hstuck : correction fuel (operator_sub s.this (small_mul s.multiplier q))
      (small_div_core (small_mul s.multiplier q) q).1 q = .error .out_of_fuel) :
    division_loop fuel n btop (i + 1) s = .error .out_of_fuel := by
  rw [division_loop_succ fuel n btop i q s hq]
  simp only [ne_eq, hq0, not_false_eq_true, if_true, hstuck]

/-- The function `cool_division` returns the exception of its long-division loop. -/
theorem cool_division_loop_error (fuel : Nat) (a rhs a1 b mult : big_integer) (div : Bool)
    (e : error) (h1 : rhs.check_for_zero = false) (h2 : a.check_for_zero = false)
    (h3 : operator_eq rhs MINUS_ONE = false) (h4 : ¬ a._digits.length < rhs._digits.length)
    (hA : operator_shl (inplace_abs a) (base_loop (rhs.abs._digits.getLastD 0) 32 : Int) = .ok a1)
    (hB : operator_shl rhs.abs (base_loop (rhs.abs._digits.getLastD 0) 32 : Int) = .ok b)
    (hsize : ¬ max_size
      < (to_size_t ((a1._digits.length : Int) - (b._digits.length : Int)) + 1)
        % 18446744073709551616)
    (hC : operator_shl b (to_int ((32
      * to_size_t ((a1._digits.length : Int) - (b._digits.length : Int)))
        % 18446744073709551616)) = .ok mult)
    (hloop : division_loop fuel b._digits.length (b._digits.getLastD 0)
      (if to_size_t ((a1._digits.length : Int) - (b._digits.length : Int)) < 9223372036854775808
        then to_size_t ((a1._digits.length : Int) - (b._digits.length : Int)) + 1 else 0)
      ⟨a1, mult, List.replicate ((to_size_t ((a1._digits.length : Int)
        - (b._digits.length : Int)) + 1) % 18446744073709551616) 0, true⟩ = .error e) :
    cool_division fuel a div rhs = .error e := by
  simp only [cool_division, h1, h2, h3, h4, hA, hB, hC, hloop, if_false, Bool.false_eq_true,
    if_neg hsize]


/-- The estimate read off a remainder `c * W + r` with `r < W`, `W` the weight of
the limb at index `n + i - 1`. -/
theorem quotient_estimate_of_split (T : big_integer) (n t i c r : Nat) (hT : T.well_formed)
    (hn : 1 ≤ n) (hsz : n + i ≤ 18446744073709551616)
    (hv : limbs_value T._digits = c * BASE ^ (n + i - 1) + r) (hr : r < BASE ^ (n + i - 1)) :
    quotient_estimate T n t i = min (c % (BASE * BASE) / t) (BASE - 1) := by
  rw [quotient_estimate_eq T n t i hT hn hsz, hv]
  have hW : 0 < BASE ^ (n + i - 1) := Nat.pow_pos BASE_pos
  have : (c * BASE ^ (n + i - 1) + r) / BASE ^ (n + i - 1) = c := by
    rw [Nat.add_div_of_dvd_right (Dvd.intro_left _ rfl), Nat.mul_div_cancel _ hW,
      Nat.div_eq_of_lt hr, add_zero]
  rw [this]


/-- The long-division loop on the dividend `(2^32 + 2^31 - 1) * BASE ^ n` and the
divisor `2^31 * BASE ^ (n - 1)` for `n = 2^31 - 1`.  The digit of index 2 is 0.
At index 1 the estimate 2 is exact, but the product `2 * multiplier` has
`2^31 + 1` limbs, `small_div(2)` does not divide it, and `multiplier` stays twice
too large.  At index 0 the estimate is `2^32 - 2`, the remainder drops to
`-(2^31 - 1) * multiplier`, and the correction loop needs `2^31 - 1` iterations. -/
theorem division_loop_large (n fuel : Nat) (hn : n = 2147483647) (hf : fuel < 2147483647)
    (M : big_integer) (hMc : M.canonical) (hMn : M._is_negative = false)
    (hMv : limbs_value M._digits = 2147483648 * BASE ^ n * BASE) (res : List Nat) (z : Bool) :
    division_loop fuel n 2147483648 (2 + 1)
      ⟨⟨List.replicate n 0 ++ [2147483647, 1], false⟩, M, res, z⟩ = .error .out_of_fuel := by
  have hBv : BASE = 4294967296 := rfl
  have hQ : 0 < BASE ^ n := Nat.pow_pos BASE_pos
  have hn1 : 1 ≤ n := by omega
  have hQk : BASE ^ n = BASE ^ (n - 1) * BASE := by
    rw [← pow_succ]; congr 1; omega
  have hP : 0 < BASE ^ (n - 1) := Nat.pow_pos BASE_pos
  -- the dividend
  have hAw : (⟨List.replicate n 0 ++ [2147483647, 1], false⟩ : big_integer).well_formed := by
    intro d hd
    rcases List.mem_append.mp hd with h | h
    · exact replicate_zero_lt n d h
    · simp only [List.mem_cons, List.mem_singleton, List.not_mem_nil, or_false] at h
      rcases h with h | h <;> rw [h] <;> decide
  have hAv : limbs_value (List.replicate n 0 ++ [2147483647, 1]) = 6442450943 * BASE ^ n := by
    rw [limbs_value_append, limbs_value_replicate_zero, List.length_replicate, zero_add]
    have : limbs_value [2147483647, 1] = 6442450943 := by decide
    rw [this, mul_comm]
  -- digit 2: the estimate is 0
  have hq2 : quotient_estimate ⟨List.replicate n 0 ++ [2147483647, 1], false⟩ n 2147483648 2
      = 0 := by
    rw [quotient_estimate_of_split _ n 2147483648 2 1 (2147483647 * BASE ^ n) hAw hn1 (by omega)]
    · decide
    · show limbs_value (List.replicate n 0 ++ [2147483647, 1]) = _
      have e : n + 2 - 1 = n + 1 := by omega
      rw [hAv, e, pow_succ, hBv]
      generalize (4294967296 : Nat) ^ n = Q
      omega
    · have e : n + 2 - 1 = n + 1 := by omega
      rw [e, pow_succ, hBv]
      rw [hBv] at hQ
      generalize (4294967296 : Nat) ^ n = Q at hQ ⊢
      omega
  rw [division_loop_digit_zero fuel n 2147483648 2
    ⟨⟨List.replicate n 0 ++ [2147483647, 1], false⟩, M, res, z⟩ hq2 rfl]
  dsimp only
  obtain ⟨hM1v, hM1c, hM1n⟩ := operator_shr_32 M hMc hMn
  rw [hMv, Nat.mul_div_cancel _ BASE_pos] at hM1v
  -- digit 1: the estimate is 2 and exact
  have hq1 : quotient_estimate ⟨List.replicate n 0 ++ [2147483647, 1], false⟩ n 2147483648 1
      = 2 := by
    rw [quotient_estimate_of_split _ n 2147483648 1 6442450943 0 hAw hn1 (by omega)]
    · decide
    · show limbs_value (List.replicate n 0 ++ [2147483647, 1]) = _
      rw [hAv, Nat.add_sub_cancel, add_zero]
    · exact Nat.pow_pos BASE_pos
  obtain ⟨hP1v, hP1c, hP1n⟩ := small_mul_value (operator_shr M 32) 2 hM1c.1 hM1n (by decide)
  rw [hM1v] at hP1v
  have hP1v2 : limbs_value (small_mul (operator_shr M 32) 2)._digits = BASE ^ (n + 1) := by
    rw [hP1v, pow_succ, hBv]; ring
  obtain ⟨hT1v, hT1c⟩ := subadd_value ⟨List.replicate n 0 ++ [2147483647, 1], false⟩
    (small_mul (operator_shr M 32) 2) false hAw hP1c.1 (Or.inl (by simp))
  simp only [Bool.false_eq_true, if_false] at hT1v
  have hT1c : (operator_sub ⟨List.replicate n 0 ++ [2147483647, 1], false⟩
      (small_mul (operator_shr M 32) 2)).canonical := hT1c
  have hAval : (⟨List.replicate n 0 ++ [2147483647, 1], false⟩ : big_integer).value
      = ((6442450943 * BASE ^ n : Nat) : Int) := by
    rw [value_of_nonneg _ rfl]
    show ((limbs_value (List.replicate n 0 ++ [2147483647, 1]) : Nat) : Int) = _
    rw [hAv]
  rw [value_of_nonneg _ hP1n, hP1v, hAval] at hT1v
  have hT1v2 : (operator_sub ⟨List.replicate n 0 ++ [2147483647, 1], false⟩
      (small_mul (operator_shr M 32) 2)).value = ((2147483647 * BASE ^ n : Nat) : Int) := by
    show (subadd _ false _).value = _
    rw [hT1v]
    push_cast
    ring
  have hT1n : (operator_sub ⟨List.replicate n 0 ++ [2147483647, 1], false⟩
      (small_mul (operator_shr M 32) 2))._is_negative = false :=
    nonneg_of_value _ hT1c.1 (by rw [hT1v2]; exact Int.natCast_nonneg _)
  rw [division_loop_digit_exact fuel n 2147483648 1 2
    ⟨⟨List.replicate n 0 ++ [2147483647, 1], false⟩, operator_shr M 32, res.set 2 0, z && true⟩
    hq1.symm (by decide) hT1n]
  dsimp only
  -- `small_div(2)` is skipped on the `2^31 + 1` limbs of the product
  have hP1len : (small_mul (operator_shr M 32) 2)._digits.length = n + 2 := by
    have h1 := length_gt_of_le _ hP1c.1 (n + 1) (le_of_eq hP1v2.symm)
    have h2 := length_le_of_lt _ hP1c hP1n (n + 2)
      (by rw [hP1v2]; exact Nat.pow_lt_pow_right (by decide) (Nat.lt_succ_self _))
    omega
  have hskip := small_div_core_skipped (small_mul (operator_shr M 32) 2) 2 hP1c hP1n
    (by omega) (by omega)
  rw [hskip]
  dsimp only
  obtain ⟨hM0v, hM0c, hM0n⟩ := operator_shr_32 (small_mul (operator_shr M 32) 2) hP1c hP1n
  rw [hP1v2, pow_succ, Nat.mul_div_cancel _ BASE_pos] at hM0v
  -- digit 0: the estimate is `2^32 - 2`
  have hT1l : limbs_value (operator_sub ⟨List.replicate n 0 ++ [2147483647, 1], false⟩
      (small_mul (operator_shr M 32) 2))._digits = 2147483647 * BASE ^ n := by
    have := hT1v2
    rw [value_of_nonneg _ hT1n] at this
    exact_mod_cast this
  have hq0 : quotient_estimate (operator_sub ⟨List.replicate n 0 ++ [2147483647, 1], false⟩
      (small_mul (operator_shr M 32) 2)) n 2147483648 0 = 4294967294 := by
    rw [quotient_estimate_of_split _ n 2147483648 0 (2147483647 * BASE) 0 hT1c.1 hn1 (by omega)]
    · decide
    · rw [hT1l, add_zero, add_zero, hQk]; ring
    · exact Nat.pow_pos BASE_pos
  obtain ⟨hP0v, hP0c, hP0n⟩ := small_mul_value
    (operator_shr (small_mul (operator_shr M 32) 2) 32) 4294967294 hM0c.1 hM0n (by decide)
  rw [hM0v] at hP0v
  have hP0len : (small_mul (operator_shr (small_mul (operator_shr M 32) 2) 32)
      4294967294)._digits.length ≤ 2147483648 := by
    have := length_le_of_lt _ hP0c hP0n (n + 1)
      (by
        rw [hP0v, pow_succ, hBv]
        rw [hBv] at hQ
        generalize (4294967296 : Nat) ^ n = Q at hQ ⊢
        omega)
    omega
  obtain ⟨hD0v, -, hD0c, hD0n⟩ := small_div_core_value
    (small_mul (operator_shr (small_mul (operator_shr M 32) 2) 32) 4294967294) 4294967294
    hP0c.1 hP0n (by decide) (by decide) hP0len
  rw [hP0v, Nat.mul_div_cancel _ (by decide)] at hD0v
  have hD0len : (small_div_core
      (small_mul (operator_shr (small_mul (operator_shr M 32) 2) 32) 4294967294)
      4294967294).1._digits.length ≠ 1 := by
    have := length_gt_of_le _ hD0c.1 1
      (by rw [hD0v]; exact Nat.pow_le_pow_right BASE_pos hn1)
    omega
  obtain ⟨hT0v, hT0c⟩ := subadd_value
    (operator_sub ⟨List.replicate n 0 ++ [2147483647, 1], false⟩
      (small_mul (operator_shr M 32) 2))
    (small_mul (operator_shr (small_mul (operator_shr M 32) 2) 32) 4294967294) false
    hT1c.1 hP0c.1 (Or.inr (Or.inr (Or.inl (by
      have := length_gt_of_le _ hP0c.1 1
        (by
          rw [hP0v]
          have h1 : BASE ^ 1 ≤ BASE ^ n := Nat.pow_le_pow_right BASE_pos hn1
          have h2 : BASE ^ n * 1 ≤ BASE ^ n * 4294967294 := Nat.mul_le_mul_left _ (by decide)
          omega)
      omega))))
  simp only [Bool.false_eq_true, if_false] at hT0v
  rw [value_of_nonneg _ hP0n, hP0v] at hT0v
  apply division_loop_digit_stuck fuel n 2147483648 0 4294967294
    ⟨operator_sub ⟨List.replicate n 0 ++ [2147483647, 1], false⟩ (small_mul (operator_shr M 32) 2),
      operator_shr (small_mul (operator_shr M 32) 2) 32, (res.set 2 0).set 1 2,
      (z && true) && (2 == 0)⟩ hq0.symm (by decide)
  apply correction_out_of_fuel fuel _ _ _ hT0c.1 hD0c.1 hD0n hD0len
  show (subadd _ false _).value + _ < 0
  rw [hT0v, hD0v]
  have hT1v3 : (operator_sub ⟨List.replicate n 0 ++ [2147483647, 1], false⟩
      (small_mul (operator_shr M 32) 2)).value = ((2147483647 * BASE ^ n : Nat) : Int) := hT1v2
  rw [hT1v3]
  have hfq : fuel * BASE ^ n ≤ 2147483646 * BASE ^ n := Nat.mul_le_mul_right _ (by omega)
  push_cast
  push_cast at hfq
  have hQi : (0 : Int) < (BASE : Int) ^ n := by exact_mod_cast hQ
  have hfi : (fuel : Int) * (BASE : Int) ^ n ≤ 2147483646 * (BASE : Int) ^ n := by
    exact_mod_cast hfq
  generalize (BASE : Int) ^ n = Qi at hQi hfi ⊢
  generalize (fuel : Int) * Qi = X at hfi ⊢
  omega


theorem operator_shl_zero (x : big_integer) : operator_shl x ((0 : Nat) : Int) = .ok x := by
  simp [operator_shl]

/-- The function `cool_division` on a dividend of `n + 2` limbs that represents
`(2^32 + 2^31 - 1) * BASE ^ n` and a normalised divisor of `n` limbs that
represents `2^31 * BASE ^ (n - 1)`, `n = 2^31 - 1`: every bound below `2^31 - 1` on
the iterations of the correction loop is exhausted. -/
theorem cool_division_large_aux (n fuel : Nat) (hn : n = 2147483647) (hf : fuel < 2147483647)
    (A Bv : big_integer) (hA : A = ⟨List.replicate n 0 ++ [2147483647, 1], false⟩)
    (hBc : Bv.canonical) (hBn : Bv._is_negative = false) (hBlen : Bv._digits.length = n)
    (hBlast : Bv._digits.getLastD 0 = 2147483648)
    (hBval : limbs_value Bv._digits = 2147483648 * BASE ^ (n - 1)) (div : Bool) :
    cool_division fuel A div Bv = .error .out_of_fuel := by
  have hBv : BASE = 4294967296 := rfl
  have hP : 0 < BASE ^ (n - 1) := Nat.pow_pos BASE_pos
  have hQk : BASE ^ n = BASE ^ (n - 1) * BASE := by
    rw [← pow_succ]; congr 1; omega
  have hAn : A._is_negative = false := by rw [hA]
  have hAlen : A._digits.length = n + 2 := by
    rw [hA]
    simp only [List.length_append, List.length_replicate, List.length_cons, List.length_nil]
  have hAv : limbs_value A._digits = 6442450943 * BASE ^ n := by
    rw [hA]
    show limbs_value (List.replicate n 0 ++ [2147483647, 1]) = _
    rw [limbs_value_append, limbs_value_replicate_zero, List.length_replicate, zero_add]
    have : limbs_value [2147483647, 1] = 6442450943 := by decide
    rw [this, mul_comm]
  -- the early returns are not taken
  have h1 : Bv.check_for_zero = false := by
    apply check_for_zero_false
    rw [value_of_nonneg _ hBn, hBval]
    have : 0 < 2147483648 * BASE ^ (n - 1) := Nat.mul_pos (by decide) hP
    exact_mod_cast (Nat.ne_of_gt this)
  have h2 : A.check_for_zero = false := by
    apply check_for_zero_false
    rw [value_of_nonneg _ hAn, hAv]
    have : 0 < 6442450943 * BASE ^ n := Nat.mul_pos (by decide) (Nat.pow_pos BASE_pos)
    exact_mod_cast (Nat.ne_of_gt this)
  have h3 : operator_eq Bv MINUS_ONE = false := by
    have hm1 : MINUS_ONE = ⟨[], true⟩ := by decide
    rw [hm1]
    simp [operator_eq, hBn]
  have h4 : ¬ A._digits.length < Bv._digits.length := by omega
  -- no normalisation shift is needed
  have habs : Bv.abs = Bv := by simp [abs, hBn]
  have hbase : base_loop 2147483648 32 = 0 := by decide
  have hsA : operator_shl (inplace_abs A) (base_loop (Bv.abs._digits.getLastD 0) 32 : Int)
      = .ok A := by
    rw [habs, hBlast, hbase, inplace_abs_of_nonneg A hAn]
    exact operator_shl_zero A
  have hsB : operator_shl Bv.abs (base_loop (Bv.abs._digits.getLastD 0) 32 : Int) = .ok Bv := by
    rw [habs, hBlast, hbase]
    exact operator_shl_zero Bv
  have hm : to_size_t ((A._digits.length : Int) - (Bv._digits.length : Int)) = 2 := by
    rw [hAlen, hBlen]
    unfold to_size_t
    omega
  -- the multiplier `b << 64`
  obtain ⟨M, hM, hMc, hMval⟩ := operator_shl_value Bv 64 hBc (by decide)
    (by rw [hBlen]; unfold max_size; omega)
  have hMn : M._is_negative = false := by
    rw [(operator_shl_ok _ _ _ hBc.1 hM).2]; exact hBn
  have hMv : limbs_value M._digits = 2147483648 * BASE ^ n * BASE := by
    rw [value_of_nonneg _ hMn, value_of_nonneg _ hBn, hBval] at hMval
    have h64 : (2 : Int) ^ 64 = ((BASE * BASE : Nat) : Int) := by
      rw [hBv]; norm_num
    rw [h64] at hMval
    have : limbs_value M._digits = 2147483648 * BASE ^ (n - 1) * (BASE * BASE) := by
      exact_mod_cast hMval
    rw [this, hQk]; ring
  have hto : to_int ((32 * 2) % 18446744073709551616) = ((64 : Nat) : Int) := by decide
  apply cool_division_loop_error fuel A Bv A Bv M div _ h1 h2 h3 h4 hsA hsB
  · rw [hm]; decide
  · rw [hm, hto]; exact hM
  · rw [hm, hBlen, hBlast, if_pos (by decide), hA]
    exact division_loop_large n fuel hn hf M hMc hMn hMv _ _

end big_integer

namespace big_integer

/-- The failing division at explicit limb vectors: the dividend
`(2^32 + 2^31 - 1) * BASE ^ n` is `n` zero limbs followed by `2^31 - 1` and `1`, the
divisor `2^31 * BASE ^ (n - 1)` is `n - 1` zero limbs followed by `2^31`; both are
canonical. -/
theorem cool_division_large (n k fuel : Nat) (hn : n = 2147483647) (hk : k + 1 = n)
    (hf : fuel < 2147483647) (div : Bool) :
    (⟨List.replicate n 0 ++ [2147483647, 1], false⟩ : big_integer).canonical ∧
      (⟨List.replicate k 0 ++ [2147483648], false⟩ : big_integer).canonical ∧
      cool_division fuel ⟨List.replicate n 0 ++ [2147483647, 1], false⟩ div
        ⟨List.replicate k 0 ++ [2147483648], false⟩ = .error .out_of_fuel := by
  have hAc : (⟨List.replicate n 0 ++ [2147483647, 1], false⟩ : big_integer).canonical := by
    have e : List.replicate n 0 ++ [2147483647, 1]
        = (List.replicate n 0 ++ [2147483647]) ++ [1] := by simp
    rw [e]
    apply canonical_append_singleton _ 1 _ (by decide) (by decide)
    intro d hd
    rcases List.mem_append.mp hd with h | h
    · exact replicate_zero_lt n d h
    · simp only [List.mem_singleton] at h
      rw [h]; decide
  have hBc : (⟨List.replicate k 0 ++ [2147483648], false⟩ : big_integer).canonical :=
    canonical_append_singleton _ 2147483648 (replicate_zero_lt k) (by decide) (by decide)
  refine ⟨hAc, hBc, ?_⟩
  apply cool_division_large_aux n fuel hn hf _ _ rfl hBc rfl
  · simp only [List.length_append, List.length_replicate, List.length_cons, List.length_nil]
    omega
  · simp
  · show limbs_value (List.replicate k 0 ++ [2147483648]) = _
    rw [limbs_value_append, limbs_value_replicate_zero, List.length_replicate, zero_add]
    have e : n - 1 = k := by omega
    have : limbs_value [2147483648] = 2147483648 := by decide
    rw [e, this, mul_comm]

end big_integer
/-! ## The claims -/

open big_integer

/-- C1 (code defect): for the canonical values `a = 2^32` and `b = -(2^32 + 1)` the
code returns `a / b = -1` and `a % b = a`, so `b * (a / b) + (a % b)` is
`2^33 + 1`, both as computed by the code's `*` and `+` and as integers, and
`a == b * (a / b) + (a % b)` evaluates to `false`. -/
theorem C1_division_identity_fails :
    (⟨[0, 1], false⟩ : big_integer).canonical ∧
    (⟨[0, 1], false⟩ : big_integer).value = 4294967296 ∧
    (⟨[4294967295, 4294967294], true⟩ : big_integer).canonical ∧
    (⟨[4294967295, 4294967294], true⟩ : big_integer).value = -4294967297 ∧
    (⟨[], true⟩ : big_integer).value = -1 ∧
    (∀ fuel : Nat,
      operator_div (fuel + 1) ⟨[0, 1], false⟩ ⟨[4294967295, 4294967294], true⟩
        = .ok ⟨[], true⟩ ∧
      operator_mod (fuel + 1) ⟨[0, 1], false⟩ ⟨[4294967295, 4294967294], true⟩
        = .ok ⟨[0, 1], false⟩) ∧
    (operator_add (operator_mul ⟨[4294967295, 4294967294], true⟩ ⟨[], true⟩)
        ⟨[0, 1], false⟩).value = 8589934593 ∧
    operator_eq ⟨[0, 1], false⟩
      (operator_add (operator_mul ⟨[4294967295, 4294967294], true⟩ ⟨[], true⟩) ⟨[0, 1], false⟩)
      = false := by
  refine ⟨by decide, by decide, by decide, by decide, by decide, ?_, by decide, by decide⟩
  intro fuel
  constructor
  · cases fuel <;> rfl
  · cases fuel <;> rfl

/-- C2 (code defect): the quotient is not the truncated integer quotient.  For
`a = -1`, `b = 1` the limb-count short-circuit returns `a / b = 0` (and
`a % b = -1`) although `-1 / 1 = -1`; for `a = 2^63`, `b = -(2^63 + 1)`, where
`|a| < |b|`, the code returns `a / b = -1` instead of the zero value. -/
theorem C2_quotient_not_truncating :
    (⟨[], true⟩ : big_integer).canonical ∧ (⟨[], true⟩ : big_integer).value = -1 ∧
    (⟨[1], false⟩ : big_integer).canonical ∧ (⟨[1], false⟩ : big_integer).value = 1 ∧
    (∀ fuel : Nat,
      operator_div fuel ⟨[], true⟩ ⟨[1], false⟩ = .ok ⟨[], false⟩ ∧
      operator_mod fuel ⟨[], true⟩ ⟨[1], false⟩ = .ok ⟨[], true⟩) ∧
    (⟨[], false⟩ : big_integer).value ≠
      Int.tdiv (⟨[], true⟩ : big_integer).value (⟨[1], false⟩ : big_integer).value ∧
    (⟨[0, 2147483648], false⟩ : big_integer).canonical ∧
    (⟨[0, 2147483648], false⟩ : big_integer).value = 9223372036854775808 ∧
    (⟨[4294967295, 2147483647], true⟩ : big_integer).canonical ∧
    (⟨[4294967295, 2147483647], true⟩ : big_integer).value = -9223372036854775809 ∧
    (∀ fuel : Nat,
      operator_div (fuel + 1) ⟨[0, 2147483648], false⟩ ⟨[4294967295, 2147483647], true⟩
        = .ok ⟨[], true⟩) := by
  refine ⟨by decide, by decide, by decide, by decide, fun fuel => ⟨rfl, rfl⟩, by decide,
    by decide, by decide, by decide, by decide, ?_⟩
  intro fuel
  cases fuel <;> rfl

/-- C3 (code defect): the string `-0000000010` matches `-?[0-9]+`, but it is parsed
to the zero value and printed as `0`, not as `-10`: after the first nine digits
the accumulated value is `-1`, which `small_mul(10)` turns into `0`. -/
theorem C3_round_trip_fails :
    of_string ['-', '0', '0', '0', '0', '0', '0', '0', '0', '1', '0'] = .ok ⟨[], false⟩ ∧
    to_string ⟨[], false⟩ = ['0'] ∧
    of_string ['-', '0', '0', '0', '0', '0', '0', '0', '0', '1'] = .ok ⟨[], true⟩ ∧
    small_mul ⟨[], true⟩ 10 = ⟨[], false⟩ := by
  refine ⟨rfl, by decide, rfl, by decide⟩

/-- C4 (code defect): for the canonical values `a = -1` (no limb) and `b = -2` (one
limb) `a < b` returns `true` although `-1 < -2` is false; accordingly `a >= b` is
`false` and `b > a` is `true`. -/
theorem C4_less_than_negative_limb_counts :
    (⟨[], true⟩ : big_integer).canonical ∧ (⟨[], true⟩ : big_integer).value = -1 ∧
    (⟨[4294967294], true⟩ : big_integer).canonical ∧
    (⟨[4294967294], true⟩ : big_integer).value = -2 ∧
    operator_lt ⟨[], true⟩ ⟨[4294967294], true⟩ = true ∧
    ¬ ((⟨[], true⟩ : big_integer).value < (⟨[4294967294], true⟩ : big_integer).value) ∧
    operator_ge ⟨[], true⟩ ⟨[4294967294], true⟩ = false ∧
    operator_gt ⟨[4294967294], true⟩ ⟨[], true⟩ = true := by
  decide

/-- C5 (code defect): for the canonical values `a = 0` and `b = 2^31` the sum
`a + b`, taken by the single-limb fast path, is the representation of `-2^31`,
not of `a + b = 2^31`. -/
theorem C5_addition_fast_path_overflow :
    (⟨[], false⟩ : big_integer).canonical ∧ (⟨[], false⟩ : big_integer).value = 0 ∧
    (⟨[2147483648], false⟩ : big_integer).canonical ∧
    (⟨[2147483648], false⟩ : big_integer).value = 2147483648 ∧
    operator_add ⟨[], false⟩ ⟨[2147483648], false⟩ = ⟨[2147483648], true⟩ ∧
    (operator_add ⟨[], false⟩ ⟨[2147483648], false⟩).value = -2147483648 ∧
    (operator_add ⟨[], false⟩ ⟨[2147483648], false⟩).value ≠
      (⟨[], false⟩ : big_integer).value + (⟨[2147483648], false⟩ : big_integer).value := by
  decide

/-- C6 (code defect): for the canonical value `a = -2` the shift `a >> 1` is the
representation of `-2`, while `floor(-2 / 2^1) = -1`. -/
theorem C6_shift_right_exact_multiple :
    (⟨[4294967294], true⟩ : big_integer).canonical ∧
    (⟨[4294967294], true⟩ : big_integer).value = -2 ∧
    operator_shr ⟨[4294967294], true⟩ 1 = ⟨[4294967294], true⟩ ∧
    (operator_shr ⟨[4294967294], true⟩ 1).value = -2 ∧
    (operator_shr ⟨[4294967294], true⟩ 1).value ≠
      Int.fdiv (⟨[4294967294], true⟩ : big_integer).value (2 ^ 1) := by
  decide

/-- C7 (code defect): `big_integer(-1) << 5` is the representation of `-32`, and
shifting it right by 5 gives the representation of `-2`, which does not compare
`==` to `big_integer(-1)`. -/
theorem C7_shift_round_trip_fails :
    of_long_long (-1) = ⟨[], true⟩ ∧
    operator_shl (of_long_long (-1)) 5 = .ok ⟨[4294967264], true⟩ ∧
    (⟨[4294967264], true⟩ : big_integer).value = -32 ∧
    operator_shr ⟨[4294967264], true⟩ 5 = ⟨[4294967294], true⟩ ∧
    (operator_shr ⟨[4294967264], true⟩ 5).value = -2 ∧
    operator_eq (operator_shr ⟨[4294967264], true⟩ 5) (of_long_long (-1)) = false := by
  refine ⟨by decide, rfl, by decide, by decide, by decide, by decide⟩

/-- C8 (code defect): `big_integer(-4294967296LL)` has the limbs `[0, 0xFFFFFFFF]`
under a negative flag: it represents `-2^32` but its last limb is the neutral
element, so it is not canonical and does not compare `==` to the value parsed
from `-4294967296`. -/
theorem C8_constructor_not_canonical :
    of_long_long (-4294967296) = ⟨[0, 4294967295], true⟩ ∧
    (of_long_long (-4294967296)).value = -4294967296 ∧
    ¬ (of_long_long (-4294967296)).canonical ∧
    of_string ['-', '4', '2', '9', '4', '9', '6', '7', '2', '9', '6'] = .ok ⟨[0], true⟩ ∧
    (⟨[0], true⟩ : big_integer).canonical ∧
    operator_eq (of_long_long (-4294967296)) ⟨[0], true⟩ = false := by
  refine ⟨by decide, by decide, by decide, rfl, by decide, by decide⟩

/-- C9: for canonical `a` and `b`, `a * b` is in canonical form and represents the
exact integer product of the integers `a` and `b` represent; hence
`a * 1 == a` and `a * 0 == 0`. -/
theorem C9_multiplication_exact (a b : big_integer) (ha : a.canonical) (hb : b.canonical) :
    (operator_mul a b).canonical ∧
    (operator_mul a b).value = a.value * b.value ∧
    operator_eq (operator_mul a (of_long_long 1)) a = true ∧
    operator_eq (operator_mul a (of_long_long 0)) (of_long_long 0) = true := by
  obtain ⟨hv, hc⟩ := operator_mul_value a b ha hb
  refine ⟨hc, hv, ?_, ?_⟩
  · have h1c : (of_long_long 1).canonical := by decide
    obtain ⟨hv1, hc1⟩ := operator_mul_value a (of_long_long 1) ha h1c
    rw [operator_eq_iff]
    apply canonical_eq_of_value_eq _ _ hc1 ha
    rw [hv1]
    have : (of_long_long 1).value = 1 := by decide
    rw [this, mul_one]
  · have h0c : (of_long_long 0).canonical := by decide
    obtain ⟨hv0, hc0⟩ := operator_mul_value a (of_long_long 0) ha h0c
    rw [operator_eq_iff]
    apply canonical_eq_of_value_eq _ _ hc0 h0c
    rw [hv0]
    have : (of_long_long 0).value = 0 := by decide
    rw [this, mul_zero]

/-- Witness of C9 at `a = -(2^32 + 1)` and `b = 2^32`. -/
theorem C9_multiplication_exact_witness :
    (⟨[4294967295, 4294967294], true⟩ : big_integer).canonical ∧
    (⟨[0, 1], false⟩ : big_integer).canonical ∧
    (operator_mul ⟨[4294967295, 4294967294], true⟩ ⟨[0, 1], false⟩).canonical ∧
    (operator_mul ⟨[4294967295, 4294967294], true⟩ ⟨[0, 1], false⟩).value
      = (⟨[4294967295, 4294967294], true⟩ : big_integer).value
        * (⟨[0, 1], false⟩ : big_integer).value ∧
    operator_eq (operator_mul ⟨[4294967295, 4294967294], true⟩ (of_long_long 1))
      ⟨[4294967295, 4294967294], true⟩ = true ∧
    operator_eq (operator_mul ⟨[4294967295, 4294967294], true⟩ (of_long_long 0))
      (of_long_long 0) = true :=
  ⟨by decide, by decide,
    C9_multiplication_exact ⟨[4294967295, 4294967294], true⟩ ⟨[0, 1], false⟩
      (by decide) (by decide)⟩

/-- C10 (code defect): for the canonical values `a = 1` and `b = -2^32` the
operation `a % b` produces no remainder at all: the limb-count difference `m`
wraps around and the shift by `32 * m` throws `std::length_error`. -/
theorem C10_remainder_not_produced :
    (⟨[1], false⟩ : big_integer).canonical ∧ (⟨[1], false⟩ : big_integer).value = 1 ∧
    (⟨[0], true⟩ : big_integer).canonical ∧ (⟨[0], true⟩ : big_integer).value = -4294967296 ∧
    check_for_zero ⟨[0], true⟩ = false ∧
    ∀ fuel : Nat, operator_mod fuel ⟨[1], false⟩ ⟨[0], true⟩ = .error .length_error := by
  refine ⟨by decide, by decide, by decide, by decide, by decide, ?_⟩
  intro fuel
  rfl

/-- C11 (code defect): a zero divisor always raises the division-by-zero error, but
a nonzero divisor can raise as well: for the canonical values `a = 2^32` and
`b = -2^64`, `a / b` and `a % b` throw `std::length_error`, because the
limb-count difference `m` wraps around and the shift count `32 * m` becomes
`-32`. -/
theorem C11_nonzero_divisor_raises :
    (∀ (fuel : Nat) (a : big_integer) (div : Bool),
      cool_division fuel a div ⟨[], false⟩ = .error .invalid_argument) ∧
    (⟨[0, 1], false⟩ : big_integer).canonical ∧
    (⟨[0, 1], false⟩ : big_integer).value = 4294967296 ∧
    (⟨[0, 0], true⟩ : big_integer).canonical ∧
    (⟨[0, 0], true⟩ : big_integer).value = -18446744073709551616 ∧
    check_for_zero ⟨[0, 0], true⟩ = false ∧
    (∀ fuel : Nat,
      operator_div fuel ⟨[0, 1], false⟩ ⟨[0, 0], true⟩ = .error .length_error ∧
      operator_mod fuel ⟨[0, 1], false⟩ ⟨[0, 0], true⟩ = .error .length_error) := by
  refine ⟨fun fuel a div => rfl, by decide, by decide, by decide, by decide, by decide,
    fun fuel => ⟨rfl, rfl⟩⟩

/-- C12: the string constructor raises the invalid-format error exactly on the
strings that do not match `-?[0-9]+`, and constructs a value on every string
that matches. -/
theorem C12_string_constructor_errors (s : List Char) :
    (of_string s = .error .invalid_argument ↔ matches_decimal s = false) ∧
    ((∃ v, of_string s = .ok v) ↔ matches_decimal s = true) := by
  constructor
  · constructor
    · intro h
      cases hm : matches_decimal s
      · rfl
      · obtain ⟨v, hv⟩ := of_string_ok s hm
        rw [hv] at h
        cases h
    · exact of_string_error s
  · constructor
    · rintro ⟨v, hv⟩
      cases hm : matches_decimal s
      · rw [of_string_error s hm] at hv
        cases hv
      · rfl
    · exact of_string_ok s

/-- C13 (code defect): `to_string` does not print every canonical value.  The loop
of `small_div` is indexed by `int i = _digits.size() - 1`, which is negative for
more than `2^31` limbs.  On the canonical value `2^(32 * 2^31)` (`2^31` zero limbs
and the limb 1) `small_div(10^9)` returns the value undivided with remainder 0, so
the loop `while (!b.check_for_zero())` of `to_string` appends nine characters `0`
in every iteration and uses up every bound on its iterations, and the bounded
loop of the embedding does not yield the canonical decimal form. -/
theorem C13_to_string_loop_does_not_end :
    (⟨List.replicate 2147483648 0 ++ [1], false⟩ : big_integer).canonical ∧
      small_div_core ⟨List.replicate 2147483648 0 ++ [1], false⟩ 1000000000
        = (⟨List.replicate 2147483648 0 ++ [1], false⟩, 0) ∧
      (∀ fuel res, to_string_loop fuel (abs ⟨List.replicate 2147483648 0 ++ [1], false⟩) res
        = res ++ List.replicate (9 * fuel) '0') ∧
      to_string ⟨List.replicate 2147483648 0 ++ [1], false⟩
        ≠ canonical_decimal (⟨List.replicate 2147483648 0 ++ [1], false⟩ : big_integer).value :=
  to_string_large 2147483648 (by decide) (by decide)

/-- C14: for canonical `a` and `b`, `a == b` returns true if and only if `a` and `b`
represent the same integer. -/
theorem C14_equality_is_numeric (a b : big_integer) (ha : a.canonical) (hb : b.canonical) :
    operator_eq a b = true ↔ a.value = b.value := by
  rw [operator_eq_iff]
  constructor
  · intro h; rw [h]
  · exact canonical_eq_of_value_eq a b ha hb

/-- Witness of C14 at `a = -2^32` and `b = 2^32`. -/
theorem C14_equality_is_numeric_witness :
    (⟨[0], true⟩ : big_integer).canonical ∧ (⟨[0, 1], false⟩ : big_integer).canonical ∧
    (operator_eq ⟨[0], true⟩ ⟨[0, 1], false⟩ = true ↔
      (⟨[0], true⟩ : big_integer).value = (⟨[0, 1], false⟩ : big_integer).value) :=
  ⟨by decide, by decide,
    C14_equality_is_numeric ⟨[0], true⟩ ⟨[0, 1], false⟩ (by decide) (by decide)⟩

/-- C15: for canonical `a` and `b`, `a & b`, `a | b` and `a ^ b` are canonical and
represent the bitwise AND, OR and XOR of the infinite-width two's-complement
representations of the integers `a` and `b`. -/
theorem C15_bitwise_operators (a b : big_integer) (ha : a.canonical) (hb : b.canonical) :
    (operator_and a b).value = Int.land a.value b.value ∧
    (operator_or a b).value = Int.lor a.value b.value ∧
    (operator_xor a b).value = Int.xor a.value b.value ∧
    (operator_and a b).canonical ∧ (operator_or a b).canonical ∧
    (operator_xor a b).canonical :=
  ⟨operator_and_value a b ha.1 hb.1, operator_or_value a b ha.1 hb.1,
    operator_xor_value a b ha.1 hb.1, apply_bitwise_operation_canonical _ _ _,
    apply_bitwise_operation_canonical _ _ _, apply_bitwise_operation_canonical _ _ _⟩

/-- Witness of C15 at `a = -4294967297` and `b = 2^63`. -/
theorem C15_bitwise_operators_witness :
    (⟨[4294967295, 4294967294], true⟩ : big_integer).canonical ∧
    (⟨[0, 2147483648], false⟩ : big_integer).canonical ∧
    (operator_and ⟨[4294967295, 4294967294], true⟩ ⟨[0, 2147483648], false⟩).value
      = Int.land (⟨[4294967295, 4294967294], true⟩ : big_integer).value
          (⟨[0, 2147483648], false⟩ : big_integer).value ∧
    (operator_or ⟨[4294967295, 4294967294], true⟩ ⟨[0, 2147483648], false⟩).value
      = Int.lor (⟨[4294967295, 4294967294], true⟩ : big_integer).value
          (⟨[0, 2147483648], false⟩ : big_integer).value ∧
    (operator_xor ⟨[4294967295, 4294967294], true⟩ ⟨[0, 2147483648], false⟩).value
      = Int.xor (⟨[4294967295, 4294967294], true⟩ : big_integer).value
          (⟨[0, 2147483648], false⟩ : big_integer).value ∧
    (operator_and ⟨[4294967295, 4294967294], true⟩ ⟨[0, 2147483648], false⟩).canonical ∧
    (operator_or ⟨[4294967295, 4294967294], true⟩ ⟨[0, 2147483648], false⟩).canonical ∧
    (operator_xor ⟨[4294967295, 4294967294], true⟩ ⟨[0, 2147483648], false⟩).canonical :=
  ⟨by decide, by decide,
    C15_bitwise_operators ⟨[4294967295, 4294967294], true⟩ ⟨[0, 2147483648], false⟩
      (by decide) (by decide)⟩

/-- C16: for every canonical `a`, including `0` and `-1`, `~a == -a - 1`; both sides
represent `-a - 1`. -/
theorem C16_complement_identity (a : big_integer) (ha : a.canonical) :
    operator_eq (operator_tilda a) (operator_sub (operator_minus a) (of_long_long 1)) = true ∧
    (operator_tilda a).value = -a.value - 1 := by
  obtain ⟨htv, htc⟩ := operator_tilda_value a ha
  obtain ⟨hmv, hmc⟩ := operator_minus_value a ha
  have h1 : (of_long_long 1).well_formed := by decide
  obtain ⟨hsv, hsc⟩ := subadd_value (operator_minus a) (of_long_long 1) false hmc.1 h1
    (Or.inr (Or.inr (Or.inr (by decide))))
  refine ⟨?_, by rw [htv]; ring⟩
  rw [operator_eq_iff]
  apply canonical_eq_of_value_eq _ _ htc hsc
  have hone : (of_long_long 1).value = 1 := by decide
  show _ = (subadd (operator_minus a) false (of_long_long 1)).value
  rw [hsv, htv, hmv, hone]
  simp only [Bool.false_eq_true, if_false]
  ring

/-- Witness of C16 at `a = -1`, whose limb sequence is empty. -/
theorem C16_complement_identity_witness :
    (⟨[], true⟩ : big_integer).canonical ∧
    operator_eq (operator_tilda ⟨[], true⟩)
      (operator_sub (operator_minus ⟨[], true⟩) (of_long_long 1)) = true ∧
    (operator_tilda ⟨[], true⟩).value = -(⟨[], true⟩ : big_integer).value - 1 :=
  ⟨by decide, C16_complement_identity ⟨[], true⟩ (by decide)⟩

/-- C17: for every canonical `a` and every shift count `0 ≤ k < 2^31` (an `int`)
for which the grown limb vector fits `max_size()`, `a << k` is a canonical value
representing `a * 2^k`, and it compares `==` to `a` multiplied by any canonical
value representing `2^k`. -/
theorem C17_shift_left_is_multiplication (a : big_integer) (k : Nat) (ha : a.canonical)
    (hk : k < 2147483648) (hsize : a._digits.length + 1 + k / 32 ≤ max_size) :
    ∃ r, operator_shl a (k : Int) = .ok r ∧ r.canonical ∧ r.value = a.value * 2 ^ k ∧
      ∀ p : big_integer, p.canonical → p.value = 2 ^ k →
        operator_eq r (operator_mul a p) = true := by
  obtain ⟨r, hr, hc, hv⟩ := operator_shl_value a k ha hk hsize
  refine ⟨r, hr, hc, hv, ?_⟩
  intro p hp hpv
  obtain ⟨hmv, hmc⟩ := operator_mul_value a p ha hp
  rw [operator_eq_iff]
  apply canonical_eq_of_value_eq _ _ hc hmc
  rw [hv, hmv, hpv]

/-- Witness of C17 at `a = -4294967297` and `k = 100`. -/
theorem C17_shift_left_is_multiplication_witness :
    (⟨[4294967295, 4294967294], true⟩ : big_integer).canonical ∧
    (100 : Nat) < 2147483648 ∧
    (⟨[4294967295, 4294967294], true⟩ : big_integer)._digits.length + 1 + 100 / 32 ≤ max_size ∧
    ∃ r, operator_shl ⟨[4294967295, 4294967294], true⟩ ((100 : Nat) : Int) = .ok r ∧
      r.canonical ∧
      r.value = (⟨[4294967295, 4294967294], true⟩ : big_integer).value * 2 ^ 100 ∧
      ∀ p : big_integer, p.canonical → p.value = 2 ^ 100 →
        operator_eq r (operator_mul ⟨[4294967295, 4294967294], true⟩ p) = true :=
  ⟨by decide, by decide, by decide,
    C17_shift_left_is_multiplication ⟨[4294967295, 4294967294], true⟩ 100
      (by decide) (by decide) (by decide)⟩

/-- C18: for every canonical `a`, `a - a` is the zero value (no limb, flag false),
on the path `subadd` takes and also when the general carry loop is used. -/
theorem C18_self_subtraction_is_zero (a : big_integer) (ha : a.canonical) :
    operator_sub a a = ⟨[], false⟩ ∧ subadd_general a false a = ⟨[], false⟩ := by
  have hz : (⟨[], false⟩ : big_integer).canonical := by decide
  have hfit : a._digits ≠ [] ∨ a._is_negative = true ∨ a._digits.length ≠ 1 ∨
      a._digits.getD 0 0 < 2147483648 := by
    by_cases h : a._digits = []
    · right; right; left
      rw [h]; simp
    · exact Or.inl h
  obtain ⟨hv, hc⟩ := subadd_value a a false ha.1 ha.1 hfit
  obtain ⟨hgv, hgc⟩ := subadd_general_value a a false ha.1 ha.1
  constructor
  · apply canonical_eq_of_value_eq _ _ hc hz
    show (subadd a false a).value = _
    rw [hv]
    simp [value, limbs_value]
  · apply canonical_eq_of_value_eq _ _ hgc hz
    rw [hgv]
    simp [value, limbs_value]

/-- Witness of C18 at the single-limb value `a = 2^31`, which takes the fast path. -/
theorem C18_self_subtraction_is_zero_witness :
    (⟨[2147483648], false⟩ : big_integer).canonical ∧
    operator_sub ⟨[2147483648], false⟩ ⟨[2147483648], false⟩ = ⟨[], false⟩ ∧
    subadd_general ⟨[2147483648], false⟩ false ⟨[2147483648], false⟩ = ⟨[], false⟩ :=
  ⟨by decide, C18_self_subtraction_is_zero ⟨[2147483648], false⟩ (by decide)⟩

/-- C19: canonical form is preserved by every operator: for canonical operands the
results of `+`, `-`, `*`, `&`, `|`, `^`, `~`, `>>`, unary `-`, `++` and `--` are
canonical, and so is every value returned by `/`, `%` and `<<`. -/
theorem C19_operators_preserve_canonical (a b : big_integer) (k fuel : Nat)
    (ha : a.canonical) (hb : b.canonical) :
    (operator_add a b).canonical ∧ (operator_sub a b).canonical ∧
    (operator_mul a b).canonical ∧
    (∀ r, operator_div fuel a b = .ok r → r.canonical) ∧
    (∀ r, operator_mod fuel a b = .ok r → r.canonical) ∧
    (operator_and a b).canonical ∧ (operator_or a b).canonical ∧
    (operator_xor a b).canonical ∧ (operator_tilda a).canonical ∧
    (∀ r, operator_shl a (k : Int) = .ok r → r.canonical) ∧
    (operator_shr a k).canonical ∧ (operator_minus a).canonical ∧
    (operator_inc a).canonical ∧ (operator_dec a).canonical :=
  ⟨subadd_canonical _ _ _, subadd_canonical _ _ _, (operator_mul_value a b ha hb).2,
    fun r h => cool_division_canonical fuel a b r true ha h,
    fun r h => cool_division_canonical fuel a b r false ha h,
    apply_bitwise_operation_canonical _ _ _, apply_bitwise_operation_canonical _ _ _,
    apply_bitwise_operation_canonical _ _ _, (operator_tilda_value a ha).2,
    fun r h => operator_shl_canonical a r _ ha h,
    operator_shr_canonical a k ha, (operator_minus_value a ha).2,
    small_add_canonical _ _ _, small_add_canonical _ _ _⟩

/-- Witness of C19 at `a = -4294967297`, `b = 2^63`, `k = 100`. -/
theorem C19_operators_preserve_canonical_witness :
    (⟨[4294967295, 4294967294], true⟩ : big_integer).canonical ∧
    (⟨[0, 2147483648], false⟩ : big_integer).canonical ∧
    (operator_add ⟨[4294967295, 4294967294], true⟩ ⟨[0, 2147483648], false⟩).canonical ∧
    (operator_sub ⟨[4294967295, 4294967294], true⟩ ⟨[0, 2147483648], false⟩).canonical ∧
    (operator_mul ⟨[4294967295, 4294967294], true⟩ ⟨[0, 2147483648], false⟩).canonical ∧
    (∀ r, operator_div 2 ⟨[4294967295, 4294967294], true⟩ ⟨[0, 2147483648], false⟩ = .ok r →
      r.canonical) ∧
    (∀ r, operator_mod 2 ⟨[4294967295, 4294967294], true⟩ ⟨[0, 2147483648], false⟩ = .ok r →
      r.canonical) ∧
    (operator_and ⟨[4294967295, 4294967294], true⟩ ⟨[0, 2147483648], false⟩).canonical ∧
    (operator_or ⟨[4294967295, 4294967294], true⟩ ⟨[0, 2147483648], false⟩).canonical ∧
    (operator_xor ⟨[4294967295, 4294967294], true⟩ ⟨[0, 2147483648], false⟩).canonical ∧
    (operator_tilda ⟨[4294967295, 4294967294], true⟩).canonical ∧
    (∀ r, operator_shl ⟨[4294967295, 4294967294], true⟩ ((100 : Nat) : Int) = .ok r →
      r.canonical) ∧
    (operator_shr ⟨[4294967295, 4294967294], true⟩ 100).canonical ∧
    (operator_minus ⟨[4294967295, 4294967294], true⟩).canonical ∧
    (operator_inc ⟨[4294967295, 4294967294], true⟩).canonical ∧
    (operator_dec ⟨[4294967295, 4294967294], true⟩).canonical :=
  ⟨by decide, by decide,
    C19_operators_preserve_canonical ⟨[4294967295, 4294967294], true⟩ ⟨[0, 2147483648], false⟩
      100 2 (by decide) (by decide)⟩

/-- C20 (code defect): the fast path is not equivalent to the general carry loop.
For the canonical value `a = 0`, mode add and `x = 2^31`, `small_add` yields the
representation of `-2^31` while the general loop of `subadd` on the one-limb
operand `x` yields `2^31`; for `a = -1`, mode subtract and `x = 2^31` they yield
`2^31 - 1` and `-2^31 - 1`. -/
theorem C20_fast_path_differs_from_general_loop :
    (⟨[], false⟩ : big_integer).canonical ∧
    small_add ⟨[], false⟩ true 2147483648 = ⟨[2147483648], true⟩ ∧
    subadd_general ⟨[], false⟩ true ⟨[2147483648], false⟩ = ⟨[2147483648], false⟩ ∧
    (small_add ⟨[], false⟩ true 2147483648).value = -2147483648 ∧
    (subadd_general ⟨[], false⟩ true ⟨[2147483648], false⟩).value = 2147483648 ∧
    (⟨[], true⟩ : big_integer).canonical ∧
    (small_add ⟨[], true⟩ false 2147483648).value = 2147483647 ∧
    (subadd_general ⟨[], true⟩ false ⟨[2147483648], false⟩).value = -2147483649 := by
  decide

/-- C21 (code defect): the correction loop `while (*this < 0)` is not bounded by two
iterations.  Same defect as C13: on a product of more than `2^31` limbs
`multiplier.small_div(q)` divides nothing.  For the canonical dividend
`(2^32 + 2^31 - 1) * 2^(32 n)` and the canonical divisor `2^31 * 2^(32 (n - 1))`,
`n = 2^31 - 1`, `multiplier` is left twice too large at the digit of index 1, the
estimate `2^32 - 2` at index 0 overshoots by `2^31 - 1`, and every bound below
`2^31 - 1` on the iterations of the correction loop is exhausted. -/
theorem C21_correction_loop_exceeds_two (fuel : Nat) (hfuel : fuel < 2147483647)
    (div : Bool) :
    (⟨List.replicate 2147483647 0 ++ [2147483647, 1], false⟩ : big_integer).canonical ∧
      (⟨List.replicate 2147483646 0 ++ [2147483648], false⟩ : big_integer).canonical ∧
      cool_division fuel ⟨List.replicate 2147483647 0 ++ [2147483647, 1], false⟩ div
        ⟨List.replicate 2147483646 0 ++ [2147483648], false⟩ = .error .out_of_fuel :=
  cool_division_large 2147483647 2147483646 fuel rfl rfl hfuel div

/-- Witness of C21 at the bound of two iterations the claim names. -/
theorem C21_correction_loop_exceeds_two_witness :
    2 < 2147483647 ∧
      cool_division 2 ⟨List.replicate 2147483647 0 ++ [2147483647, 1], false⟩ true
        ⟨List.replicate 2147483646 0 ++ [2147483648], false⟩ = .error .out_of_fuel :=
  ⟨by decide, (C21_correction_loop_exceeds_two 2 (by decide) true).2.2⟩
